import Mathlib

/-!
# GNOME MPV: the engine-to-UI synchronisation core

A shallow embedding of `src/mpv_obj.c` and of the row handlers of
`src/playlist.c`, together with theorems about the embedded functions.

Conventions of the embedding.

* A C string is the list of its bytes before the terminating NUL, written as a
  `String` or as the list of its characters (each character standing for one
  byte).
* A `GtkListStore` holding the playlist is the list of its rows; a
  `GtkTreeIter` is `some k` when it names row `k` and `none` when it names no
  row (GTK sets the iterator's stamp to 0 in that case).
* A call that has no defined result (reading a row through an iterator that
  names no row, reading a string out of a node that holds none) or that ends
  the process (`g_assert(FALSE)`) makes the embedded function return `none`.
  The geometry parser is total instead: it takes the byte found by a read
  outside a token as a parameter and reports in a flag whether every step was
  defined.
* A `gdouble` is modelled exactly: binary64 with round-to-nearest-even
  (`F64`).
* Calls into the engine are taken to succeed, so `mpv_check_error` never
  terminates the process. What the engine answers while an event is handled
  comes with the event (`Engine`); the calls made to the engine, the toolkit
  and the observers are recorded in order (`App.out`).
* Functions of the program that are not among the sources are parameters
  (`Helpers`) or are modelled from the spec, as their comments say; so are the
  constant `DEFAULT_LOG_LEVEL`, the engine's command "playlist_move" and the
  way the list store reports a drag.
* A loop whose number of rounds is not fixed by its input's shape carries a
  bound (`fuel`); the theorems about such a loop show that the bound used is
  never reached.
-/

namespace GnomeMpv

/-! ## Engine nodes -/

/-- The tagged value (`mpv_node`) in which the engine hands out structured
properties; `other` stands for the formats this code never reads. -/
inductive mpv_node where
  | string (s : String)
  | flag (b : Bool)
  | int64 (n : Int)
  | other
  deriving DecidableEq, Repr

/-- An `mpv_node_list` used as a map: keys and values, in the engine's order. -/
abbrev mpv_node_list := List (String × mpv_node)

/-- The read `node.u.string`; it has a defined result only for a string node. -/
def mpv_node.u_string : mpv_node → Option String
  | .string s => some s
  | _ => none

/-- The read `node.u.int64`; it has a defined result only for an int64 node. -/
def mpv_node.u_int64 : mpv_node → Option Int
  | .int64 n => some n
  | _ => none

/-! ## The playlist list store -/

/-- One row of the playlist store: the name column and the uri column. -/
structure Row where
  name : String
  uri : String
  deriving DecidableEq, Repr

/-- What `mpv_obj_update_playlist` does to the playlist store and its signal
handlers, in the order it does it. Row positions are those at the time of the
operation. -/
inductive UiOp where
  | handlers_block
  | handlers_unblock
  | set_name (i : Nat) (v : String)
  | set_uri (i : Nat) (v : String)
  | append (name uri : String)
  | remove (i : Nat)
  deriving DecidableEq, Repr

/-- Whether the operation changes the rows of the store. -/
def UiOp.is_mutation : UiOp → Bool
  | .handlers_block => false
  | .handlers_unblock => false
  | _ => true

/-- Whether the operation removes a row. -/
def UiOp.is_remove : UiOp → Bool
  | .remove _ => true
  | _ => false

/-- Whether the operation appends a row. -/
def UiOp.is_append : UiOp → Bool
  | .append _ _ => true
  | _ => false

abbrev GtkListStore := List Row

abbrev GtkTreeIter := Option Nat

/-- `gtk_tree_model_get_iter_first`: the iterator names row 0, or no row when
the store is empty (the call then returns FALSE). -/
def gtk_tree_model_get_iter_first (store : GtkListStore) : GtkTreeIter :=
  if store.isEmpty then none else some 0

/-- `gtk_tree_model_iter_next`: the iterator moves to the next row, or names no
row when there is none (the call then returns FALSE). -/
def gtk_tree_model_iter_next (store : GtkListStore) : GtkTreeIter → GtkTreeIter
  | some k => if k + 1 < store.length then some (k + 1) else none
  | none => none

/-- `gtk_tree_model_get` of the name and uri columns: there is a row to read
only when the iterator names one. -/
def gtk_tree_model_get (store : GtkListStore) : GtkTreeIter → Option Row
  | some k => store.get? k
  | none => none

/-- `gtk_list_store_set` of the name column. -/
def gtk_list_store_set_name (store : GtkListStore) (iter : GtkTreeIter) (v : String) :
    GtkListStore :=
  match iter with
  | some k => store.modify (fun r => { r with name := v }) k
  | none => store

/-- `gtk_list_store_set` of the uri column. -/
def gtk_list_store_set_uri (store : GtkListStore) (iter : GtkTreeIter) (v : String) :
    GtkListStore :=
  match iter with
  | some k => store.modify (fun r => { r with uri := v }) k
  | none => store

/-- `gtk_list_store_remove`: the row is removed and the iterator names the row
that followed it, or no row when it was the last one (the call then returns
FALSE). With an iterator that names no row the call is rejected: nothing is
removed and it returns FALSE. -/
def gtk_list_store_remove (store : GtkListStore) : GtkTreeIter → GtkListStore × GtkTreeIter
  | some k =>
    let store1 := store.eraseIdx k
    (store1, if k < store1.length then some k else none)
  | none => (store, none)

/-- Modelled from the spec: `playlist_append` (playlist.c of this version is
not among the sources) adds one row holding the name and the uri at the end of
the store. -/
def playlist_append (store : GtkListStore) (name uri : String) : GtkListStore :=
  store ++ [{ name := name, uri := uri }]

/-- The variables of the `for` loop of `mpv_obj_update_playlist`. -/
structure UpdateState where
  store : GtkListStore
  iter : GtkTreeIter
  iter_end : Bool
  log : List UiOp
  deriving DecidableEq, Repr

/-- The uri and the name the loop body derives from one engine entry:
`values[0].u.string`, and `values[3].u.string` as the title when the entry has
at least four values, the name being the title when there is one and
`get_name_from_path(uri)` otherwise. `get_name_from_path` (common.c) is not
among the sources and is a parameter. -/
def entry_row (get_name_from_path : String → String) (entry : mpv_node_list) : Option Row :=
  match entry.get? 0 with
  | none => none
  | some v0 =>
    match v0.2.u_string with
    | none => none
    | some uri =>
      if 4 ≤ entry.length then
        match entry.get? 3 with
        | none => none
        | some v3 =>
          match v3.2.u_string with
          | none => none
          | some title => some { name := title, uri := uri }
      else some { name := get_name_from_path uri, uri := uri }

/-- One pass of the body of the `for` loop of `mpv_obj_update_playlist`. -/
def update_step (get_name_from_path : String → String) (st : UpdateState)
    (entry : mpv_node_list) : Option UpdateState :=
  match entry_row get_name_from_path entry with
  | none => none
  | some new =>
    if !st.iter_end then
      match gtk_tree_model_get st.store st.iter with
      | none => none
      | some old =>
        let k := st.iter.getD 0
        let (store1, log1) :=
          if new.name ≠ old.name then
            (gtk_list_store_set_name st.store st.iter new.name,
              st.log ++ [UiOp.set_name k new.name])
          else (st.store, st.log)
        let (store2, log2) :=
          if new.uri ≠ old.uri then
            (gtk_list_store_set_uri store1 st.iter new.uri, log1 ++ [UiOp.set_uri k new.uri])
          else (store1, log1)
        let iter1 := gtk_tree_model_iter_next store2 st.iter
        some { store := store2, iter := iter1, iter_end := iter1.isNone, log := log2 }
    else
      some { st with
        store := playlist_append st.store new.name new.uri
        log := st.log ++ [UiOp.append new.name new.uri] }

/-- The `for` loop over the engine's entries. -/
def update_loop (get_name_from_path : String → String) :
    List mpv_node_list → UpdateState → Option UpdateState
  | [], st => some st
  | entry :: rest, st =>
    match update_step get_name_from_path st entry with
    | none => none
    | some st1 => update_loop get_name_from_path rest st1

/-- The loop `while(gtk_list_store_remove(store, &iter));`, with the number of
passes bounded by `fuel`. -/
def remove_excess : Nat → GtkListStore → GtkTreeIter → List UiOp → GtkListStore × List UiOp
  | 0, store, _, log => (store, log)
  | fuel + 1, store, iter, log =>
    let r := gtk_list_store_remove store iter
    let log1 := match iter with
      | some k => log ++ [UiOp.remove k]
      | none => log
    if r.2.isSome then remove_excess fuel r.1 r.2 log1 else (r.1, log1)

/-- `mpv_obj_update_playlist`: the store and the engine's playlist node go in,
the store after the pass and the operations performed come out. The iterator
returned by `gtk_tree_model_get_iter_first` is used whatever the call
returned, as in the source. -/
def mpv_obj_update_playlist (get_name_from_path : String → String) (store : GtkListStore)
    (mpv_playlist : List mpv_node_list) : Option (GtkListStore × List UiOp) :=
  let st0 : UpdateState :=
    { store := store
      iter := gtk_tree_model_get_iter_first store
      iter_end := false
      log := [UiOp.handlers_block] }
  match update_loop get_name_from_path mpv_playlist st0 with
  | none => none
  | some st =>
    let r :=
      if !st.iter_end then remove_excess (st.store.length + 1) st.store st.iter st.log
      else (st.store, st.log)
    some (r.1, r.2 ++ [UiOp.handlers_unblock])

/-! ### Notions used to state the playlist contract -/

/-- The rows the loop derives from the engine's entries, in order; `none` when
some entry has no readable uri or title. -/
def snapshot_rows (get_name_from_path : String → String) :
    List mpv_node_list → Option (List Row)
  | [] => some []
  | entry :: rest =>
    match entry_row get_name_from_path entry with
    | none => none
    | some r =>
      match snapshot_rows get_name_from_path rest with
      | none => none
      | some rs => some (r :: rs)

/-- The column writes that bring row `k` from `old` to `new`: only the columns
that differ. -/
def overwrite_ops (k : Nat) (old new : Row) : List UiOp :=
  (if new.name ≠ old.name then [UiOp.set_name k new.name] else []) ++
    (if new.uri ≠ old.uri then [UiOp.set_uri k new.uri] else [])

/-- The operations of a pass that starts at row `k` with the rows `old` still
ahead of the iterator and the rows `new` still to come from the engine. -/
def sync_ops : Nat → List Row → List Row → List UiOp
  | k, o :: os, n :: ns => overwrite_ops k o n ++ sync_ops (k + 1) os ns
  | _, [], ns => ns.map (fun r => UiOp.append r.name r.uri)
  | k, os, [] => os.map (fun _ => UiOp.remove k)

/-- What `mpv_obj_update_playlist` does after its `for` loop, up to the
unblocking of the handlers. -/
def update_finish (st : UpdateState) : GtkListStore × List UiOp :=
  if !st.iter_end then remove_excess (st.store.length + 1) st.store st.iter st.log
  else (st.store, st.log)

/-- Replays a list of operations over the original positions of the rows
(`some i` for the row that was at position `i` before the pass, `none` for a
row appended during the pass) and collects the rows the operations remove. -/
def removed_rows : List (Option Nat) → List UiOp → List (Option Nat)
  | _, [] => []
  | sh, UiOp.remove k :: ops => (sh.get? k).toList ++ removed_rows (sh.eraseIdx k) ops
  | sh, UiOp.append _ _ :: ops => removed_rows (sh ++ [none]) ops
  | sh, _ :: ops => removed_rows sh ops

/-! ## Machine integers and binary64 -/

/-- The conversion of an integer to `gint` (32 bits, two's complement). -/
def to_gint (z : Int) : Int :=
  (z + 2 ^ 31) % 2 ^ 32 - 2 ^ 31

/-- A `gdouble`: not a number, an infinity, or the finite value `m * 2 ^ e`.
A finite value may have several writings; comparisons go by value. The sign of
a zero is not kept: no conversion or comparison made by this code tells the
two zeros apart, and every divisor it uses comes from an integer. -/
inductive F64 where
  | nan
  | inf (negative : Bool)
  | fin (m : Int) (e : Int)
  deriving DecidableEq, Repr

/-- The loop of `floor_log2`: halving `n` while it is at least 2. -/
def floor_log2_loop : Nat → Nat → Nat
  | 0, _ => 0
  | fuel + 1, n => if 2 ≤ n then floor_log2_loop fuel (n / 2) + 1 else 0

/-- The position of the highest set bit of `n` (0 for `n < 2`). -/
def floor_log2 (n : Nat) : Nat :=
  floor_log2_loop n n

namespace F64

/-- The fraction `n / d` scaled by `2 ^ s`, as a numerator and a denominator. -/
def scaled (n d : Nat) (s : Int) : Nat × Nat :=
  if 0 ≤ s then (n * 2 ^ s.toNat, d) else (n, d * 2 ^ (-s).toNat)

/-- The scale at which `n / d` has a 53-bit integer part: 52 minus the
exponent of `n / d`, found from the highest bits of `n` and `d` and one trial
division. -/
def round_scale (n d : Nat) : Int :=
  let s0 : Int := 52 - ((floor_log2 n : Int) - (floor_log2 d : Int))
  if (scaled n d s0).1 / (scaled n d s0).2 < 2 ^ 52 then s0 + 1 else s0

/-- The integer nearest to `num / den`, a tie going to the even one. -/
def round_half_even (num den : Nat) : Nat :=
  if den < 2 * (num % den) ∨ (2 * (num % den) = den ∧ (num / den) % 2 = 1) then num / den + 1
  else num / den

/-- The binary64 nearest to the positive rational `n / d` (ties to even), as a
53-bit significand and an exponent. The operands of this code keep every
quotient and product within the normal range of binary64. -/
def round_pos (n d : Nat) : Nat × Int :=
  (round_half_even (scaled n d (round_scale n d)).1 (scaled n d (round_scale n d)).2,
    -round_scale n d)

/-- The binary64 nearest to `n / d`, with the given sign. -/
def of_ratio (negative : Bool) (n d : Nat) : F64 :=
  if n = 0 then fin 0 0
  else
    let r := round_pos n d
    fin (if negative then -(r.1 : Int) else (r.1 : Int)) r.2

/-- The conversion `(gdouble)z` of an integer. -/
def of_int (z : Int) : F64 :=
  of_ratio (decide (z < 0)) z.natAbs 1

/-- Division of two `gdouble`s. -/
def div : F64 → F64 → F64
  | nan, _ => nan
  | _, nan => nan
  | inf _, inf _ => nan
  | inf s, fin m _ => inf (s != decide (m < 0))
  | fin _ _, inf _ => fin 0 0
  | fin m1 e1, fin m2 e2 =>
    if m2 = 0 then (if m1 = 0 then nan else inf (decide (m1 < 0)))
    else
      of_ratio (decide (m1 < 0) != decide (m2 < 0))
        (m1.natAbs * 2 ^ (e1 - e2).toNat) (m2.natAbs * 2 ^ (e2 - e1).toNat)

/-- Multiplication of two `gdouble`s. -/
def mul : F64 → F64 → F64
  | nan, _ => nan
  | _, nan => nan
  | inf s, inf t => inf (s != t)
  | inf s, fin m _ => if m = 0 then nan else inf (s != decide (m < 0))
  | fin m _, inf t => if m = 0 then nan else inf (decide (m < 0) != t)
  | fin m1 e1, fin m2 e2 =>
    match of_ratio (decide (m1 < 0) != decide (m2 < 0)) (m1.natAbs * m2.natAbs) 1 with
    | fin m e => fin m (e + e1 + e2)
    | x => x

/-- The comparison `x < y` of two finite values. -/
def fin_lt (m1 e1 m2 e2 : Int) : Bool :=
  let e := min e1 e2
  decide (m1 * 2 ^ (e1 - e).toNat < m2 * 2 ^ (e2 - e).toNat)

/-- The comparison `x < y`; false when either side is not a number. -/
def lt : F64 → F64 → Bool
  | nan, _ => false
  | _, nan => false
  | inf s, inf t => s && !t
  | inf s, fin _ _ => s
  | fin _ _, inf t => !t
  | fin m1 e1, fin m2 e2 => fin_lt m1 e1 m2 e2

/-- The comparison `x == y`; false when either side is not a number. -/
def eq : F64 → F64 → Bool
  | nan, _ => false
  | _, nan => false
  | inf s, inf t => s == t
  | inf _, fin _ _ => false
  | fin _ _, inf _ => false
  | fin m1 e1, fin m2 e2 => !fin_lt m1 e1 m2 e2 && !fin_lt m2 e2 m1 e1

/-- The integer part of a finite value, rounding toward zero. -/
def trunc (m e : Int) : Int :=
  if 0 ≤ e then m * 2 ^ e.toNat else Int.tdiv m (2 ^ (-e).toNat)

/-- The conversion `(gint)x`: the integer part of `x` when it fits a `gint`.
C gives the conversion no defined result otherwise; the value taken here is
the one an x86-64 build produces, the least `gint`, and the flag is false. -/
def to_gint (x : F64) : Int × Bool :=
  match x with
  | fin m e =>
    let t := trunc m e
    if -(2 ^ 31) ≤ t ∧ t < 2 ^ 31 then (t, true) else (-(2 ^ 31), false)
  | _ => (-(2 ^ 31), false)

end F64

/-! ## GLib string functions used by the option parsers -/

/-- The loop of `g_strsplit` for a one-character delimiter: `splits` further
splits are allowed, `acc` holds the current token in reverse. -/
def g_strsplit_loop (delim : Char) : Nat → List Char → List Char → List (List Char)
  | _, acc, [] => [acc.reverse]
  | 0, acc, c :: rest => [acc.reverse ++ c :: rest]
  | n + 1, acc, c :: rest =>
    if c = delim then acc.reverse :: g_strsplit_loop delim n [] rest
    else g_strsplit_loop delim (n + 1) (c :: acc) rest

/-- `g_strsplit(string, delim, max_tokens)` for a one-character delimiter: at
most `max_tokens` tokens, the last one holding the remainder of the string;
`max_tokens < 1` means no limit; the empty string gives no token at all. -/
def g_strsplit (string : List Char) (delim : Char) (max_tokens : Nat) : List (List Char) :=
  if string.isEmpty then []
  else g_strsplit_loop delim ((if max_tokens < 1 then 2 ^ 31 - 1 else max_tokens) - 1) [] string

/-- `g_ascii_isspace`. -/
def g_ascii_isspace (c : Char) : Bool :=
  c = ' ' || c = '\t' || c = '\n' || c = '\r' || c = '\x0c' || c = '\x0b'

/-- The value of a character as a digit in `g_ascii_strtoll`: '0'..'9' count
0..9, letters count from 10 whatever their case. -/
def digit_value (c : Char) : Option Nat :=
  if '0' ≤ c ∧ c ≤ '9' then some (c.toNat - '0'.toNat)
  else if 'a' ≤ c ∧ c ≤ 'z' then some (c.toNat - 'a'.toNat + 10)
  else if 'A' ≤ c ∧ c ≤ 'Z' then some (c.toNat - 'A'.toNat + 10)
  else none

/-- The digit loop of `g_ascii_strtoll`: the accumulated `guint64`, whether
the accumulation overflowed, and how many characters were consumed. -/
def strtoll_digits (base : Nat) : List Char → Nat → Bool → Nat → Nat × Bool × Nat
  | [], acc, overflow, used => (acc, overflow, used)
  | c :: rest, acc, overflow, used =>
    match digit_value c with
    | none => (acc, overflow, used)
    | some d =>
      if base ≤ d then (acc, overflow, used)
      else if (2 ^ 64 - 1) / base < acc ∨ (acc = (2 ^ 64 - 1) / base ∧ (2 ^ 64 - 1) % base < d)
      then strtoll_digits base rest acc true (used + 1)
      else strtoll_digits base rest (acc * base + d) overflow (used + 1)

/-- `g_ascii_strtoll(nptr, NULL, 0)`: leading white space, an optional sign,
base 16 after "0x" or "0X", base 8 after another leading '0', base 10
otherwise; the digits that follow; 0 when there are none; the result kept
within the range of `gint64`. -/
def g_ascii_strtoll (nptr : List Char) : Int :=
  let s := nptr.dropWhile g_ascii_isspace
  let negative := s.head? = some '-'
  let s1 := if s.head? = some '-' ∨ s.head? = some '+' then s.tail else s
  let hex := s1.head? = some '0' ∧ (s1.tail.head? = some 'x' ∨ s1.tail.head? = some 'X')
  let base : Nat := if hex then 16 else if s1.head? = some '0' then 8 else 10
  let s2 := if hex then s1.tail.tail else s1
  let r := strtoll_digits base s2 0 false 0
  let ui64 : Nat := if r.2.2 = 0 then 0 else if r.2.1 then 2 ^ 64 - 1 else r.1
  if negative ∧ 2 ^ 63 < ui64 then -(2 ^ 63)
  else if ¬negative ∧ 2 ^ 63 - 1 < ui64 then 2 ^ 63 - 1
  else if negative then -(ui64 : Int)
  else (ui64 : Int)

/-- `strnlen(s, maxlen)`. -/
def strnlen (s : List Char) (maxlen : Nat) : Nat :=
  min s.length maxlen

/-! ## The geometry parser -/

/-- The outcome of `parse_dim_string`: the two dimensions, and whether every
step had a result defined by C (false after a read outside a token or a
conversion of a `gdouble` that does not fit a `gint`). -/
structure Dim where
  width : Int
  height : Int
  defined : Bool
  deriving DecidableEq, Repr

/-- The body of the `while` loop of `parse_dim_string` for one token: the
dimension it yields and whether its steps were defined. `before` is the byte
found by the read at index -1 when the token is empty; `screen` is the screen
dimension the token scales against. -/
def parse_dim_token (before : Char) (screen : Int) (token : List Char) : Int × Bool :=
  let value := to_gint (g_ascii_strtoll token)
  let last : Char × Bool :=
    match strnlen token 256 with
    | 0 => (before, false)
    | n + 1 => (token.getD n '\x00', true)
  let multiplier : F64 :=
    if last.1 = '%' then F64.div (F64.of_int value) (F64.of_int 100) else F64.of_int (-1)
  if F64.eq multiplier (F64.of_int (-1)) then (value, last.2)
  else
    let r := F64.to_gint (F64.mul multiplier (F64.of_int screen))
    (r.1, last.2 && r.2)

/-- The `while` loop of `parse_dim_string`: the width and the height it
leaves (0 for a missing token), each with whether its steps were defined. Of
the tokens `g_strsplit(mpv_geom_str, "x", 2)` yields, the first is scaled
against the screen width and the second against the screen height. -/
def parse_dim_tokens (before : Char) (screen_width screen_height : Int)
    (mpv_geom_str : List Char) : (Int × Bool) × (Int × Bool) :=
  let tokens := g_strsplit mpv_geom_str 'x' 2
  let w : Int × Bool :=
    match tokens.get? 0 with
    | some t => parse_dim_token before screen_width t
    | none => (0, true)
  let h : Int × Bool :=
    match tokens.get? 1 with
    | some t => parse_dim_token before screen_height t
    | none => (0, true)
  (w, h)

/-- `parse_dim_string`, the screen size being a parameter: the dimensions the
loop leaves, a zero height next to a non-zero width becoming the screen
height. -/
def parse_dim_string (before : Char) (screen_width screen_height : Int)
    (mpv_geom_str : List Char) : Dim :=
  let r := parse_dim_tokens before screen_width screen_height mpv_geom_str
  { width := r.1.1
    height := if r.1.1 ≠ 0 ∧ r.2.1 = 0 then screen_height else r.2.1
    defined := r.1.2 && r.2.2 }

/-! ### Notions used to state the parser's contract -/

/-- The dimension the contract gives for a token of value `w`: `w` itself for
a bare number, `w` percent of the screen dimension (rounded toward zero) when
the token ends in '%'. -/
def claimed_dim (percent : Bool) (w screen : Int) : Int :=
  if percent then Int.tdiv (w * screen) 100 else w

/-- The dimension the code computes for a token of value `w`: `w` itself for a
bare number, and the `gint` conversion of the binary64 product
`(w / 100.0) * screen` when the token ends in '%'. -/
def computed_dim (percent : Bool) (w screen : Int) : Int × Bool :=
  if percent then
    F64.to_gint (F64.mul (F64.div (F64.of_int w) (F64.of_int 100)) (F64.of_int screen))
  else (w, true)

/-- A decimal numeral without sign: digits only, at least one, and no leading
zero unless it is "0". -/
def is_decimal (t : List Char) : Prop :=
  t ≠ [] ∧ (∀ c ∈ t, '0' ≤ c ∧ c ≤ '9') ∧ (t.head? = some '0' → t = ['0'])

/-- The value of a decimal numeral. -/
def decimal_value (t : List Char) : Nat :=
  t.foldl (fun a c => a * 10 + (c.toNat - '0'.toNat)) 0

/-- The suffix of a token: "%" or nothing. -/
def percent_suffix (percent : Bool) : List Char :=
  if percent then ['%'] else []

/-- The rational number a significand and an exponent stand for. -/
def dyadic (m : Int) (e : Int) : ℚ :=
  (m : ℚ) * (2 : ℚ) ^ e

/-! ## The application state and the engine's answers -/

/-- The struct `mpv->state`. -/
structure PlaybackState where
  paused : Bool
  loaded : Bool
  init_load : Bool
  new_file : Bool
  deriving DecidableEq, Repr

/-- The kind of a track (`TrackType`); `invalid` is the value a fresh track
has before `parse_track_list` recognises its type. -/
inductive TrackType where
  | invalid
  | audio
  | video
  | subtitle
  deriving DecidableEq, Repr

/-- A `Track` record. -/
structure Track where
  type : TrackType
  title : Option String
  lang : Option String
  id : Int
  deriving DecidableEq, Repr

/-- Modelled from the spec: `track_new` (track.c is not among the sources)
gives a track with no kind, no title, no language and id 0. -/
def track_new : Track :=
  { type := TrackType.invalid, title := none, lang := none, id := 0 }

/-- One rule of `mpv->log_level_list` (`module_log_level`): a module name and
the numeric log level of the rule. -/
structure module_log_level where
  pfx : String
  level : Int
  deriving DecidableEq, Repr

/-- The payload `mpv_event_log_message`. -/
structure mpv_event_log_message where
  pfx : String
  log_level : Int
  text : String
  deriving DecidableEq, Repr

/-- The memory `prop->data` points to, as each branch of
`handle_property_change_event` reads it: through an `int *` or through a
`double *`. -/
structure PropData where
  as_int : Int
  as_double : F64
  deriving DecidableEq, Repr

/-- The payload `mpv_event_property`; `data` is `none` for a NULL pointer. -/
structure mpv_event_property where
  name : String
  data : Option PropData
  deriving DecidableEq, Repr

/-- The event kinds for which `mpv_obj_handle_event` has no branch. -/
inductive unhandled_event where
  | get_property_reply | set_property_reply | command_reply | start_file
  | tracks_changed | track_switched | pause | unpause | tick | script_input_dispatch
  | client_message | audio_reconfig | metadata_update | seek | chapter_change
  | queue_overflow
  deriving DecidableEq, Repr

/-- An event the engine has queued. The sentinel `MPV_EVENT_NONE` is not
queued: `mpv_wait_event` returns it when the queue is empty. -/
inductive mpv_event where
  | shutdown
  | log_message (message : mpv_event_log_message)
  | end_file (reason : Int) (error : Int)
  | file_loaded
  | idle
  | video_reconfig
  | playback_restart
  | property_change (prop : mpv_event_property)
  | other (kind : unhandled_event)
  deriving DecidableEq, Repr

/-- The identifier `MPV_EVENT_NONE`. -/
def MPV_EVENT_NONE : Nat := 0

/-- The value `MPV_END_FILE_REASON_ERROR`. -/
def MPV_END_FILE_REASON_ERROR : Int := 4

/-- The numeric `event_id` of an event, as libmpv's `client.h` numbers them. -/
def mpv_event.event_id : mpv_event → Nat
  | .shutdown => 1
  | .log_message _ => 2
  | .end_file _ _ => 7
  | .file_loaded => 8
  | .idle => 11
  | .video_reconfig => 17
  | .playback_restart => 21
  | .property_change _ => 22
  | .other .get_property_reply => 3
  | .other .set_property_reply => 4
  | .other .command_reply => 5
  | .other .start_file => 6
  | .other .tracks_changed => 9
  | .other .track_switched => 10
  | .other .pause => 12
  | .other .unpause => 13
  | .other .tick => 14
  | .other .script_input_dispatch => 15
  | .other .client_message => 16
  | .other .audio_reconfig => 18
  | .other .metadata_update => 19
  | .other .seek => 20
  | .other .chapter_change => 23
  | .other .queue_overflow => 24

/-- What the engine answers to the property reads made while one event is
handled; `none` is a read that fails. -/
structure Engine where
  idle : Bool
  playlist : List mpv_node_list
  autofit : Option (List Char)
  dwidth : Option Int
  dheight : Option Int
  media_title : Option String
  track_list : Option (List mpv_node_list)
  aid : Option Int
  sid : Option Int
  playlist_pos : Option Int
  chapters : Option Int
  volume : Option F64
  length : Option F64
  deriving DecidableEq, Repr

/-- An event waiting in the engine's queue, with the engine's answers at the
time it is handled. -/
structure Pending where
  event : mpv_event
  engine : Engine
  deriving DecidableEq, Repr

/-- The argument of a signal emitted on the `MpvObj`. -/
inductive SignalArg where
  | none
  | str (s : String)
  | int (n : Nat)
  deriving DecidableEq, Repr

/-- A call made to the engine, the toolkit or an observer, as recorded in
`App.out`. -/
inductive Call where
  | signal_emit (name : String) (arg : SignalArg)
  | mpv_set_property_pause (paused : Bool)
  | mpv_command_loadfile (path : String) (mode : String)
  | mpv_request_event_end_file (enable : Bool)
  | g_message (text : String)
  | gtk_window_set_title (title : String)
  | volume_handlers_block
  | volume_handlers_unblock
  | control_box_set_volume (volume : F64)
  | volume_button_set_sensitive (sensitive : Bool)
  | main_window_toggle_fullscreen
  | main_window_reset
  | playlist_reset
  | playlist_clear
  | playlist_set_indicator_pos (pos : Int)
  | control_box_set_chapter_enabled (enabled : Bool)
  | control_box_set_seek_bar_length (length : Int)
  | control_box_set_playing_state (playing : Bool)
  | action_set_state (action : String) (value : Int)
  | main_window_update_track_list (audio video sub : List Track)
  | gtk_application_inhibit (cookie : Nat)
  | gtk_application_uninhibit (cookie : Nat)
  | playlist_store (op : UiOp)
  | mpv_request_log_messages (min_level : Option String)
  | mpv_set_option_string (name : String) (data : String)
  | mpv_command_playlist_move (src dest : Int)
  deriving DecidableEq, Repr

/-- Functions of the program and of libmpv that are not among the sources. -/
structure Helpers where
  get_name_from_path : String → String
  get_path_from_uri : String → String
  playlist_clear : GtkListStore → GtkListStore
  mpv_error_string : Int → String

/-- The part of the `Application` the synchronisation code reads and writes. -/
structure App where
  mpv_ctx : Bool
  state : PlaybackState
  playlist : GtkListStore
  fullscreen : Bool
  inhibit_cookie : Nat
  inhibitors : List Nat
  next_cookie : Nat
  autofit_ratio : F64
  log_level_list : List module_log_level
  screen_width : Int
  screen_height : Int
  before : Char
  out : List Call
  deriving DecidableEq, Repr

/-- Appends one call to the record of calls. -/
def App.call (app : App) (c : Call) : App :=
  { app with out := app.out ++ [c] }

/-! ## Autofit -/

/-- The value `handle_autofit_opt` leaves in `mpv->autofit_ratio`: with a
non-empty "options/autofit" string and both video dimensions read, the box is
parsed and the two ratios box / video are formed; when both are positive the
ratio becomes 1 if both exceed 1 and the smaller of the two otherwise. In
every other case the ratio stays as it was. -/
def autofit_ratio_after (before : Char) (screen_width screen_height : Int)
    (autofit_ratio : F64) (engine : Engine) : F64 :=
  match engine.autofit with
  | none => autofit_ratio
  | some optbuf =>
    if 0 < optbuf.length ∧ engine.dwidth.isSome ∧ engine.dheight.isSome then
      let dim := parse_dim_string before screen_width screen_height optbuf
      let width_ratio := F64.div (F64.of_int dim.width) (F64.of_int (engine.dwidth.getD 0))
      let height_ratio := F64.div (F64.of_int dim.height) (F64.of_int (engine.dheight.getD 0))
      if F64.lt (F64.of_int 0) width_ratio ∧ F64.lt (F64.of_int 0) height_ratio then
        if F64.lt (F64.of_int 1) width_ratio ∧ F64.lt (F64.of_int 1) height_ratio then
          F64.of_int 1
        else if F64.lt width_ratio height_ratio then width_ratio
        else height_ratio
      else autofit_ratio
    else autofit_ratio

/-- `handle_autofit_opt`: it writes `mpv->autofit_ratio` and nothing else. -/
def handle_autofit_opt (app : App) (engine : Engine) : App :=
  { app with
    autofit_ratio :=
      autofit_ratio_after app.before app.screen_width app.screen_height app.autofit_ratio
        engine }

/-! ## Log messages -/

/-- The test of the loop of `mpv_obj_log_handler`: the rule's module name and
the message's agree on the length of the shorter one, and either they have the
same length or the rule's is shorter and the message's continues with '/'. -/
def log_rule_matches (rule_pfx message_pfx : List Char) : Bool :=
  let n := min message_pfx.length rule_pfx.length
  decide (rule_pfx.take n = message_pfx.take n) &&
    (decide (rule_pfx.length = message_pfx.length) ||
      (decide (rule_pfx.length < message_pfx.length) &&
        decide (message_pfx.getD rule_pfx.length '\x00' = '/')))

/-- The loop of `mpv_obj_log_handler`: the first rule that matches, or `none`
when the list is exhausted. -/
def log_find_rule (message_pfx : List Char) : List module_log_level → Option module_log_level
  | [] => none
  | level :: rest =>
    if log_rule_matches level.pfx.toList message_pfx then some level
    else log_find_rule message_pfx rest

/-- The text `mpv_obj_log_handler` prints for a message it lets through: the
text without its last character when that is a newline; nothing is printed
when the text has at most one character. -/
def log_text (text : List Char) : Option (List Char) :=
  if 1 < text.length then
    some (if text.getLast? = some '\n' then text.dropLast else text)
  else none

/-- The `g_message` calls of `mpv_obj_log_handler`: a message passes when no
rule matches its module or when its level is at most the level of the first
rule that matches; a message that passes is printed unless its text has at
most one character. -/
def log_handler_calls (log_level_list : List module_log_level)
    (message : mpv_event_log_message) : List Call :=
  let pass : Bool :=
    match log_find_rule message.pfx.toList log_level_list with
    | none => true
    | some level => decide (message.log_level ≤ level.level)
  if pass then
    match log_text message.text.toList with
    | some buf => [Call.g_message ("[" ++ message.pfx ++ "] " ++ String.mk buf)]
    | none => []
  else []

/-- `mpv_obj_log_handler`: it prints the message or not, and changes nothing
else. -/
def mpv_obj_log_handler (app : App) (message : mpv_event_log_message) : App :=
  { app with out := app.out ++ log_handler_calls app.log_level_list message }

/-! ## Tracks and the transport UI -/

/-- The body of the loop of `parse_track_list` for one key of the node. -/
def parse_track_key (entry : Track) (kv : String × mpv_node) : Option Track :=
  if kv.1 = "type" then
    match kv.2.u_string with
    | none => none
    | some type =>
      if type = "audio" then some { entry with type := TrackType.audio }
      else if type = "video" then some { entry with type := TrackType.video }
      else if type = "sub" then some { entry with type := TrackType.subtitle }
      else some entry
  else if kv.1 = "title" then
    match kv.2.u_string with
    | none => none
    | some s => some { entry with title := some s }
  else if kv.1 = "lang" then
    match kv.2.u_string with
    | none => none
    | some s => some { entry with lang := some s }
  else if kv.1 = "id" then
    match kv.2.u_int64 with
    | none => none
    | some n => some { entry with id := n }
  else some entry

/-- The loop of `parse_track_list` over the keys of a node. -/
def parse_track_keys : List (String × mpv_node) → Track → Option Track
  | [], entry => some entry
  | kv :: rest, entry =>
    match parse_track_key entry kv with
    | none => none
    | some entry1 => parse_track_keys rest entry1

/-- `parse_track_list`: the track described by one node of "track-list". -/
def parse_track_list (node : mpv_node_list) : Option Track :=
  parse_track_keys node track_new

/-- The loop of `mpv_obj_load_gui_update` over the engine's tracks: each track
is put in front of the list of its kind; a track of no kind reaches
`g_assert(FALSE)`, which ends the process. -/
def classify_tracks :
    List mpv_node_list → List Track × List Track × List Track →
      Option (List Track × List Track × List Track)
  | [], lists => some lists
  | node :: rest, (audio_list, video_list, sub_list) =>
    match parse_track_list node with
    | none => none
    | some entry =>
      match entry.type with
      | TrackType.audio => classify_tracks rest (entry :: audio_list, video_list, sub_list)
      | TrackType.video => classify_tracks rest (audio_list, entry :: video_list, sub_list)
      | TrackType.subtitle => classify_tracks rest (audio_list, video_list, entry :: sub_list)
      | TrackType.invalid => none

/-- The calls `mpv_obj_load_gui_update` makes for the "track-list" property:
none when the engine does not answer it; otherwise the two action states (the
current audio and subtitle ids, -1 when the engine does not answer) and the
three track lists, each put back in the engine's order. -/
def track_list_calls (engine : Engine) : Option (List Call) :=
  match engine.track_list with
  | none => some []
  | some org_list =>
    match classify_tracks org_list ([], [], []) with
    | none => none
    | some lists =>
      some [Call.action_set_state "audio_select" (engine.aid.getD (-1)),
        Call.action_set_state "sub_select" (engine.sid.getD (-1)),
        Call.main_window_update_track_list lists.1.reverse lists.2.1.reverse
          lists.2.2.reverse]

/-- The calls `mpv_obj_load_gui_update` makes, in order: every property the
engine answers is pushed to its widget; a property it does not answer is
skipped. -/
def load_gui_update_calls (paused : Bool) (engine : Engine) : Option (List Call) :=
  match track_list_calls engine with
  | none => none
  | some track_calls =>
    some
      ((match engine.media_title with
        | some title => [Call.gtk_window_set_title title]
        | none => []) ++
      [Call.mpv_set_property_pause paused] ++
      track_calls ++
      (match engine.playlist_pos with
        | some pos => [Call.playlist_set_indicator_pos (to_gint pos)]
        | none => []) ++
      (match engine.chapters with
        | some count => [Call.control_box_set_chapter_enabled (decide (1 < count))]
        | none => []) ++
      (match engine.volume with
        | some volume => [Call.control_box_set_volume (F64.div volume (F64.of_int 100))]
        | none => []) ++
      (match engine.length with
        | some length => [Call.control_box_set_seek_bar_length (F64.to_gint length).1]
        | none => []) ++
      [Call.control_box_set_playing_state (!paused)])

/-- `mpv_obj_load_gui_update`: it makes its calls and changes nothing else. -/
def mpv_obj_load_gui_update (app : App) (engine : Engine) : Option App :=
  match load_gui_update_calls app.state.paused engine with
  | none => none
  | some calls => some { app with out := app.out ++ calls }

/-! ## Loading -/

/-- The calls of `mpv_obj_load` with a uri, in order: `playlist_clear` when the
file replaces the playlist and `update` is set; `playlist_append` of the name
derived from the path when `update` is set; then the load command ("append"
when `append` is set and the store had a row on entry, "replace" otherwise)
between the two `mpv_request_event` calls, followed by the pause state. -/
def load_uri_calls (x : Helpers) (app : App) (uri : String) (append update : Bool) :
    List Call :=
  (if ¬append ∧ update then [Call.playlist_clear] else []) ++
    (if update then
      [Call.playlist_store
        (UiOp.append (x.get_name_from_path (x.get_path_from_uri uri)) uri)]
    else []) ++
    [Call.mpv_request_event_end_file false,
      Call.mpv_command_loadfile (x.get_path_from_uri uri)
        (if append ∧ ¬(gtk_tree_model_get_iter_first app.playlist).isNone then "append"
          else "replace"),
      Call.mpv_set_property_pause app.state.paused,
      Call.mpv_request_event_end_file true]

/-- `mpv_obj_load` with a uri: `new_file` is set when the file replaces the
playlist and `update` is set; `loaded` is cleared unless the file is appended;
with `update` set the store goes through `playlist_clear` first when the file
replaces the playlist, and the new row is added at its end; the calls are
those of `load_uri_calls`. -/
def mpv_obj_load_uri (x : Helpers) (app : App) (uri : String) (append update : Bool) : App :=
  { app with
    state :=
      { app.state with
        new_file := if ¬append ∧ update then true else app.state.new_file
        loaded := if ¬append then false else app.state.loaded }
    playlist :=
      if update then
        playlist_append (if ¬append then x.playlist_clear app.playlist else app.playlist)
          (x.get_name_from_path (x.get_path_from_uri uri)) uri
      else app.playlist
    out := app.out ++ load_uri_calls x app uri append update }

/-- The `while` loop of `mpv_obj_load` without a uri: every row of the
playlist is loaded, the first one replacing and the others appending. -/
def mpv_obj_load_rows (x : Helpers) : List Row → Bool → App → App
  | [], _, app => app
  | row :: rest, append, app =>
    mpv_obj_load_rows x rest true (mpv_obj_load_uri x app row.uri append false)

/-- `mpv_obj_load`: `uri` is `none` for a NULL uri, which loads the rows of
the playlist. -/
def mpv_obj_load (x : Helpers) (app : App) (uri : Option String) (append update : Bool) : App :=
  match uri with
  | some u => mpv_obj_load_uri x app u append update
  | none => mpv_obj_load_rows x app.playlist false app

/-! ## Property changes -/

/-- `gtk_application_inhibit`: GTK records a new inhibition and returns the
non-zero cookie that identifies it. -/
def gtk_application_inhibit (app : App) : App :=
  { app.call (Call.gtk_application_inhibit (app.next_cookie + 1)) with
    inhibit_cookie := app.next_cookie + 1
    inhibitors := app.inhibitors ++ [app.next_cookie + 1]
    next_cookie := app.next_cookie + 1 }

/-- `gtk_application_uninhibit`: GTK drops the inhibition the cookie
identifies, if there is one. -/
def gtk_application_uninhibit (app : App) (cookie : Nat) : App :=
  { app.call (Call.gtk_application_uninhibit cookie) with
    inhibitors := app.inhibitors.erase cookie }

/-- The read `data ? *((int *)data) : fallback` of a property payload. -/
def data_flag (data : Option PropData) (fallback : Int) : Int :=
  match data with
  | some d => d.as_int
  | none => fallback

/-- The sleep-inhibition step of the "pause" branch: a new inhibition is taken
when playback is not paused; otherwise the inhibition named by the stored
cookie is dropped, when the cookie is not 0. The stored cookie is overwritten
by every new inhibition and is not reset when its inhibition is dropped. -/
def pause_inhibit (app : App) : App :=
  if ¬app.state.paused then gtk_application_inhibit app
  else if app.inhibit_cookie ≠ 0 then gtk_application_uninhibit app app.inhibit_cookie
  else app

/-- The "pause" branch of `handle_property_change_event`: the pause state is
stored (a NULL payload counts as TRUE), the playlist is loaded when the
engine is idle and playback is not paused, the sleep inhibition is adjusted
and the transport UI refreshed. -/
def handle_pause_change (x : Helpers) (app : App) (data : Option PropData) (engine : Engine) :
    Option App :=
  let app1 := { app with state := { app.state with paused := decide (data_flag data 1 ≠ 0) } }
  let app2 := if engine.idle ∧ ¬app1.state.paused then mpv_obj_load x app1 none false true else app1
  mpv_obj_load_gui_update (pause_inhibit app2) engine

/-- Modelled from the spec: `main_window_toggle_fullscreen` (main_window.c is
not among the sources) toggles the window's fullscreen state. -/
def main_window_toggle_fullscreen (app : App) : App :=
  { app.call Call.main_window_toggle_fullscreen with fullscreen := !app.fullscreen }

/-- `handle_property_change_event`: the branch for the property named by the
notification; a notification of any other property changes nothing. -/
def handle_property_change_event (x : Helpers) (app : App) (prop : mpv_event_property)
    (engine : Engine) : Option App :=
  if prop.name = "pause" then handle_pause_change x app prop.data engine
  else if prop.name = "volume" ∧ (app.state.init_load ∨ app.state.loaded) then
    let volume : F64 :=
      match prop.data with
      | some d => F64.div d.as_double (F64.of_int 100)
      | none => F64.of_int 0
    some (((app.call Call.volume_handlers_block).call (Call.control_box_set_volume volume)).call
      Call.volume_handlers_unblock)
  else if prop.name = "aid" then
    some (app.call (Call.volume_button_set_sensitive prop.data.isSome))
  else if prop.name = "fullscreen" then
    if data_flag prop.data (-1) ≠ -1 ∧
        data_flag prop.data (-1) ≠ (if app.fullscreen then 1 else 0) then
      some (main_window_toggle_fullscreen app)
    else some app
  else if prop.name = "eof-reached" ∧ prop.data.isSome ∧ data_flag prop.data 0 = 1 then
    some (({ app with state := { app.state with paused := true, loaded := false } }.call
      Call.main_window_reset).call Call.playlist_reset)
  else some app

/-! ## The event loop -/

/-- The branch of `mpv_obj_handle_event` for one event, before the "mpv-event"
signal. -/
def handle_one_event (x : Helpers) (app : App) (event : mpv_event) (engine : Engine) :
    Option App :=
  match event with
  | .property_change prop =>
    match handle_property_change_event x app prop engine with
    | none => none
    | some app1 => some (app1.call (Call.signal_emit "mpv-prop-change" (SignalArg.str prop.name)))
  | .idle =>
    let app1 :=
      if app.state.init_load then mpv_obj_load x app none false false
      else if app.state.loaded then
        ({ app with state := { app.state with paused := true, loaded := false } }.call
          (Call.mpv_set_property_pause true)).call Call.playlist_reset
      else app
    some { app1 with state := { app1.state with init_load := false } }
  | .file_loaded =>
    let app1 := { app with state := { app.state with loaded := true, init_load := false } }
    match mpv_obj_update_playlist x.get_name_from_path app1.playlist engine.playlist with
    | none => none
    | some r =>
      mpv_obj_load_gui_update
        { app1 with playlist := r.1, out := app1.out ++ r.2.map Call.playlist_store } engine
  | .end_file reason error =>
    let state1 : PlaybackState :=
      { app.state with
        init_load := false
        new_file := if app.state.loaded then false else app.state.new_file }
    if reason = MPV_END_FILE_REASON_ERROR then
      some { app with
        state := { state1 with paused := true }
        out := app.out ++
          [Call.mpv_set_property_pause true,
            Call.signal_emit "mpv-error" (SignalArg.str
              ("Playback was terminated abnormally. Reason: " ++ x.mpv_error_string error ++
                "."))] }
    else some { app with state := state1 }
  | .video_reconfig =>
    if app.state.new_file then some (handle_autofit_opt app engine) else some app
  | .playback_restart =>
    match mpv_obj_load_gui_update app engine with
    | none => none
    | some app1 => some (app1.call (Call.signal_emit "mpv-playback-restart" SignalArg.none))
  | .log_message message => some (mpv_obj_log_handler app message)
  | .shutdown => some app
  | .other _ => some app

/-- The emission `g_signal_emit_by_name(mpv, "mpv-event", event_id)`. -/
def emit_mpv_event (app : App) (event_id : Nat) : App :=
  app.call (Call.signal_emit "mpv-event" (SignalArg.int event_id))

/-- The `while(!done)` loop of `mpv_obj_handle_event` once the engine handle
is known to exist: `mpv_wait_event(ctx, 0)` takes the first queued event, or
gives the `MPV_EVENT_NONE` sentinel when the queue is empty. The result is the
application state and the events left in the queue. -/
def handle_event_loop (x : Helpers) : List Pending → App → Option (App × List Pending)
  | [], app => some (emit_mpv_event app MPV_EVENT_NONE, [])
  | p :: rest, app =>
    match handle_one_event x app p.event p.engine with
    | none => none
    | some app1 =>
      if p.event = mpv_event.shutdown then some (emit_mpv_event app1 p.event.event_id, rest)
      else handle_event_loop x rest (emit_mpv_event app1 p.event.event_id)

/-- `mpv_obj_handle_event`: without an engine handle there is no event and
nothing is done. -/
def mpv_obj_handle_event (x : Helpers) (app : App) (queue : List Pending) :
    Option (App × List Pending) :=
  if app.mpv_ctx then handle_event_loop x queue app else some (app, queue)

/-! ### Notions used to state the contract of the event loop -/

/-- The events one call of `mpv_obj_handle_event` takes from the queue: those
up to and including the first `SHUTDOWN`, all of them when there is none. -/
def drained : List Pending → List Pending
  | [] => []
  | p :: rest => if p.event = mpv_event.shutdown then [p] else p :: drained rest

/-- The events one call of `mpv_obj_handle_event` leaves in the queue: those
after the first `SHUTDOWN`. -/
def remaining : List Pending → List Pending
  | [] => []
  | p :: rest => if p.event = mpv_event.shutdown then rest else remaining rest

/-- The identifiers one call of `mpv_wait_event` after the other returns: those
of the drained events, followed by `MPV_EVENT_NONE` when the queue ran empty
before a `SHUTDOWN`. -/
def drained_ids : List Pending → List Nat
  | [] => [MPV_EVENT_NONE]
  | p :: rest =>
    if p.event = mpv_event.shutdown then [p.event.event_id]
    else p.event.event_id :: drained_ids rest

/-- Handling the given events one after the other, in order, each followed by
its "mpv-event" signal. -/
def process_events (x : Helpers) : List Pending → App → Option App
  | [], app => some app
  | p :: rest, app =>
    match handle_one_event x app p.event p.engine with
    | none => none
    | some app1 => process_events x rest (emit_mpv_event app1 p.event.event_id)

/-- Whether the queue holds a `SHUTDOWN` event. -/
def has_shutdown : List Pending → Bool
  | [] => false
  | p :: rest => decide (p.event = mpv_event.shutdown) || has_shutdown rest

/-- The identifier carried by a call when it is an "mpv-event" signal. -/
def Call.mpv_event_id : Call → Option Nat
  | .signal_emit name (SignalArg.int n) => if name = "mpv-event" then some n else none
  | _ => none

/-- The identifiers carried by the "mpv-event" signals among the calls, in
order. -/
def mpv_event_signals (out : List Call) : List Nat :=
  out.filterMap Call.mpv_event_id

/-- The engine's answers let the handlers run to their end: every track of
"track-list" has a readable description and a known kind, and "playlist" is a
non-empty list of readable entries. -/
def Engine.answers_ok (x : Helpers) (engine : Engine) : Prop :=
  (∃ calls, track_list_calls engine = some calls) ∧
    (∃ rs, snapshot_rows x.get_name_from_path engine.playlist = some rs) ∧
    engine.playlist ≠ []

/-! ### Values used as concrete inputs -/

/-- Helper functions that return their argument. -/
def helpers_id : Helpers :=
  { get_name_from_path := id
    get_path_from_uri := id
    playlist_clear := fun _ => []
    mpv_error_string := fun _ => "error" }

/-- An engine that answers no optional property and holds a one-entry
playlist. -/
def engine_quiet : Engine :=
  { idle := false
    playlist := [[("filename", mpv_node.string "a.mkv")]]
    autofit := none, dwidth := none, dheight := none, media_title := none
    track_list := none, aid := none, sid := none, playlist_pos := none
    chapters := none, volume := none, length := none }

/-- The application right after start-up, paused, with one row in the
playlist and an initial load pending. -/
def app_start : App :=
  { mpv_ctx := true
    state := { paused := true, loaded := false, init_load := true, new_file := false }
    playlist := [{ name := "a.mkv", uri := "a.mkv" }]
    fullscreen := false
    inhibit_cookie := 0
    inhibitors := []
    next_cookie := 0
    autofit_ratio := F64.of_int 1
    log_level_list := []
    screen_width := 1920
    screen_height := 1080
    before := ' '
    out := [] }

/-- The notification "pause changed to no". -/
def pause_off : mpv_event_property :=
  { name := "pause", data := some { as_int := 0, as_double := F64.of_int 0 } }

/-- The notification "pause changed to yes". -/
def pause_on : mpv_event_property :=
  { name := "pause", data := some { as_int := 1, as_double := F64.of_int 0 } }

/-- A queue: the engine goes idle, loads a file, then shuts down, one more
event waiting behind the shutdown. -/
def queue_example : List Pending :=
  [{ event := mpv_event.idle, engine := engine_quiet },
   { event := mpv_event.file_loaded, engine := engine_quiet },
   { event := mpv_event.shutdown, engine := engine_quiet },
   { event := mpv_event.idle, engine := engine_quiet }]

/-! ### Relations used in the proofs about the event loop -/

/-- `loaded` is not raised and `init_load` is not changed. -/
def state_kept (s s1 : PlaybackState) : Prop :=
  s1.init_load = s.init_load ∧ (s1.loaded = s.loaded ∨ s1.loaded = false)

/-- The calls made between two states carry no "mpv-event" signal. -/
def quiet (app app1 : App) : Prop :=
  ∃ cs, app1.out = app.out ++ cs ∧ mpv_event_signals cs = []

/-- The outcome of `mpv_obj_handle_event` on `app_start` and `queue_example`. -/
def run_example : App × List Pending :=
  (mpv_obj_handle_event helpers_id app_start queue_example).getD (app_start, [])

/-! ### Notions used to state the autofit contract -/

/-- The function `mpv_obj_init`: a new engine handle, the playlist
`playlist_new ()` returns, no log rules and the ratio 1. The fields of the
application it does not write keep the value found. -/
def mpv_obj_init (app : App) (playlist_new : GtkListStore) : App :=
  { app with
    mpv_ctx := true
    playlist := playlist_new
    log_level_list := []
    autofit_ratio := F64.of_int 1 }

/-- A ratio is a finite value above 0 and at most 1. -/
def ratio_in_unit (r : F64) : Prop :=
  ∃ m e, r = F64.fin m e ∧ 0 < dyadic m e ∧ dyadic m e ≤ 1

/-- An engine that answers the autofit option and the video's size. -/
def engine_video (autofit : String) (dwidth dheight : Int) : Engine :=
  { engine_quiet with
    autofit := some autofit.toList
    dwidth := some dwidth
    dheight := some dheight }

/-- The application with a ratio that no video produces, for telling a ratio
that was set from one that was kept. -/
def app_ratio_seven : App :=
  { app_start with autofit_ratio := F64.of_int 7 }

/-! ### Notions used to state the contract of the log handler -/

/-- A rule applies to a module by the words of the contract: its prefix is the
module's name, or the module's name is the prefix followed by a '/' and more. -/
def rule_applies (rule_pfx message_pfx : List Char) : Prop :=
  rule_pfx = message_pfx ∨ ∃ rest, message_pfx = rule_pfx ++ '/' :: rest

/-- A text without its last character when that is a newline. -/
def strip_newline (text : List Char) : List Char :=
  if text.getLast? = some '\n' then text.dropLast else text

/-- The `g_message` call that forwards a message with the given text. -/
def log_forward (message : mpv_event_log_message) (buf : List Char) : Call :=
  Call.g_message ("[" ++ message.pfx ++ "] " ++ String.mk buf)

/-- The level test of `mpv_obj_log_handler`: no rule found, or the message's
level at most the level of the rule found. -/
def log_passes (log_level_list : List module_log_level)
    (message : mpv_event_log_message) : Bool :=
  match log_find_rule message.pfx.toList log_level_list with
  | none => true
  | some level => decide (message.log_level ≤ level.level)

/-- Two rules for one module tree, the wider one first. -/
def rules_cplayer : List module_log_level :=
  [{ pfx := "cplayer", level := 10 }, { pfx := "cplayer/vo", level := 70 }]

/-- A message of module "cplayer/vo" at level info (40). -/
def message_vo : mpv_event_log_message :=
  { pfx := "cplayer/vo", log_level := 40, text := "hello\n" }

/-- A message of module "cplayerx" at level info (40). -/
def message_cplayerx : mpv_event_log_message :=
  { pfx := "cplayerx", log_level := 40, text := "hello\n" }

/-- A message whose text is one character and a newline. -/
def message_short : mpv_event_log_message :=
  { pfx := "cplayer", log_level := 40, text := "a\n" }

/-! ## The message-level option -/

/-- The table `level_map` of `handle_msg_level_opt`: the names of the log
levels and their values in libmpv (`MPV_LOG_LEVEL_NONE` = 0, `FATAL` = 10,
`ERROR` = 20, `WARN` = 30, `INFO` = 40, `V` = 50, `DEBUG` = 60, `TRACE` = 70),
closed by an entry without a name. -/
def level_map : List (Option String × Int) :=
  [(some "no", 0), (some "fatal", 10), (some "error", 20), (some "warn", 30),
   (some "info", 40), (some "v", 50), (some "debug", 60), (some "trace", 70), (none, 0)]

/-- The loop of `handle_msg_level_opt` that looks a level name up: it walks
the table up to the entry without a name and stops at the first entry whose
name `g_strcmp0` finds equal to `pair[1]`, which is `NULL` when the token has
no '='. -/
def find_level (name : Option (List Char)) : List (Option String × Int) → Option Int
  | [] => none
  | (none, _) :: _ => none
  | (some entry_name, level) :: rest =>
    if name = some entry_name.toList then some level else find_level name rest

/-- The closing loop of `handle_msg_level_opt`,
`for(i = 0; level_map[i].level != min_level; i++);`: the name of the first
entry with the level sought; no result when the walk leaves the table. -/
def search_level (min_level : Int) : List (Option String × Int) → Option (Option String)
  | [] => none
  | (name, level) :: rest =>
    if level = min_level then some name else search_level min_level rest

/-- The body of the token loop of `handle_msg_level_opt`, on the rule list
built so far and `min_level`. The token is split at its first '='; a level
name of the table raises `min_level` to its level when that is higher, and the
rule is appended unless its module is "all"; any other level is ignored. An
empty token splits into an empty vector, and the read of `pair[1]` is then
outside the vector: C gives it no defined result, and the pass ends there. -/
def msg_level_token (st : List module_log_level × Int) (token : List Char) :
    Option (List module_log_level × Int) :=
  match g_strsplit token '=' 2 with
  | [] => none
  | module :: rest =>
    match find_level rest.head? level_map with
    | none => some st
    | some level =>
      some (if module ≠ "all".toList then st.1 ++ [{ pfx := String.mk module, level := level }]
              else st.1,
            if level > st.2 then level else st.2)

/-- The token loop of `handle_msg_level_opt`. -/
def msg_level_tokens :
    List (List Char) → List module_log_level × Int → Option (List module_log_level × Int)
  | [], st => some st
  | token :: rest, st =>
    match msg_level_token st token with
    | none => none
    | some st1 => msg_level_tokens rest st1

/-- The function `handle_msg_level_opt`: `optbuf` is the engine's answer for
"options/msg-level" and `DEFAULT_LOG_LEVEL` the constant of that name, which
is defined outside the sources at hand. The rule list found is dropped, the
tokens between commas are walked, and the engine is asked for the messages of
the level reached. -/
def handle_msg_level_opt (DEFAULT_LOG_LEVEL : Int) (app : App)
    (optbuf : Option (List Char)) : Option App :=
  let tokens := match optbuf with
    | none => []
    | some s => g_strsplit s ',' 0
  match msg_level_tokens tokens ([], DEFAULT_LOG_LEVEL) with
  | none => none
  | some st =>
    match search_level st.2 level_map with
    | none => none
    | some name =>
      some ({ app with log_level_list := st.1 }.call (Call.mpv_request_log_messages name))

/-! ### Notions used to state the contract of the message-level option -/

/-- The level a name stands for. -/
def level_of_name (name : List Char) : Option Int :=
  if name = "no".toList then some 0
  else if name = "fatal".toList then some 10
  else if name = "error".toList then some 20
  else if name = "warn".toList then some 30
  else if name = "info".toList then some 40
  else if name = "v".toList then some 50
  else if name = "debug".toList then some 60
  else if name = "trace".toList then some 70
  else none

/-- The text before the first `delim` and, when there is one, the text after
it. -/
def split_first (delim : Char) : List Char → List Char × Option (List Char)
  | [] => ([], none)
  | c :: rest =>
    if c = delim then ([], some rest)
    else (c :: (split_first delim rest).1, (split_first delim rest).2)

/-- The rule a token "module=level" stands for: none when the token has no
'=' or when what follows the first '=' is not the name of a level. -/
def token_rule (token : List Char) : Option module_log_level :=
  match (split_first '=' token).2 with
  | none => none
  | some name =>
    (level_of_name name).map
      (fun level => { pfx := String.mk (split_first '=' token).1, level := level })

/-- The rules present in a message-level option string, the rule for "all"
included. -/
def option_rules (optbuf : Option (List Char)) : List module_log_level :=
  match optbuf with
  | none => []
  | some s => (g_strsplit s ',' 0).filterMap token_rule

/-- The highest level among a start value and the levels of the rules. -/
def highest_level (start : Int) (rules : List module_log_level) : Int :=
  rules.foldl (fun m r => max m r.level) start

/-- The tokens `handle_msg_level_opt` walks: the pieces of the option string
between commas, none when the engine gives no string. -/
def option_tokens (optbuf : Option (List Char)) : List (List Char) :=
  match optbuf with
  | none => []
  | some s => g_strsplit s ',' 0

/-- The levels of the table `level_map`. -/
def table_levels : List Int :=
  [0, 10, 20, 30, 40, 50, 60, 70]

/-! ## Option strings -/

/-- `strstr(haystack, needle)`: the offset of the first place where `needle`
starts in `haystack`. -/
def strstr : List Char → List Char → Option Nat
  | [], needle => if needle = [] then some 0 else none
  | c :: cs, needle =>
    if needle.isPrefixOf (c :: cs) then some 0 else (strstr cs needle).map (· + 1)

/-- `strpbrk(s, accept)`: the offset of the first character of `s` that is
among `accept`. -/
def strpbrk : List Char → List Char → Option Nat
  | [], _ => none
  | c :: cs, accept => if c ∈ accept then some 0 else (strpbrk cs accept).map (· + 1)

/-- `g_strndup(str, n)` on a string without a NUL: its first `n` characters. -/
def g_strndup (str : List Char) (n : Nat) : List Char :=
  str.take n

/-- The loop
`while(--opt_end != opt_begin && (*opt_end == ' ' || *opt_end == '\n'));`
of `mpv_obj_apply_args`, as the value `opt_end` has after it. The walk starts
above `opt_begin` and stops there at the latest, so position 0 is never
stepped below. -/
def apply_args_back (args : List Char) (opt_begin : Nat) : Nat → Nat
  | 0 => 0
  | opt_end + 1 =>
    if opt_end ≠ opt_begin ∧
        (args.getD opt_end '\x00' = ' ' ∨ args.getD opt_end '\x00' = '\n') then
      apply_args_back args opt_begin opt_end
    else opt_end

/-- The position `opt_end` of one round of `mpv_obj_apply_args`: the next
" --" after `opt_begin`, or the end of the string, then the walk back over
spaces and newlines. -/
def apply_args_end (args : List Char) (opt_begin : Nat) : Nat :=
  apply_args_back args opt_begin
    (match strstr (args.drop opt_begin) " --".toList with
      | some k => opt_begin + k
      | none => args.length)

/-- The name and the argument one round of `mpv_obj_apply_args` hands to
`mpv_set_option_string`: the token copied by `g_strndup (opt_begin+2,
token_size-1)`, `token_size` and `token_size-1` being `gsize` values, cut at
its first '=' or space; the argument is empty when there is neither. -/
def apply_args_token (args : List Char) (opt_begin : Nat) : String × String :=
  let opt_end := apply_args_end args opt_begin
  let token_size : Int := ((opt_end : Int) - (opt_begin : Int)) % 2 ^ 64
  let token := g_strndup (args.drop (opt_begin + 2)) ((token_size - 1) % 2 ^ 64).toNat
  match strpbrk token "= ".toList with
  | some k => (String.mk (token.take k), String.mk (token.drop (k + 1)))
  | none => (String.mk token, "")

/-- The loop of `mpv_obj_apply_args`, from an `opt_begin` that is not `NULL`:
`mpv_set_option_string` answers a status given the calls made before, the
name and the argument; `calls` records the calls made and `fail_count` counts
the negative answers. `fuel` bounds the number of rounds. The count is kept as
an integer: it never exceeds the number of rounds, which a string shorter
than `2 ^ 31` characters keeps within a `gint`. -/
def apply_args_loop (mpv_set_option_string : List Call → String → String → Int)
    (args : List Char) : Nat → Nat → List Call → Int → Option (List Call × Int)
  | 0, _, _, _ => none
  | fuel + 1, opt_begin, calls, fail_count =>
    let token := apply_args_token args opt_begin
    let fail_count1 :=
      if mpv_set_option_string calls token.1 token.2 < 0 then fail_count + 1 else fail_count
    let calls1 := calls ++ [Call.mpv_set_option_string token.1 token.2]
    match strstr (args.drop (apply_args_end args opt_begin)) " --".toList with
    | some k =>
      apply_args_loop mpv_set_option_string args fuel (apply_args_end args opt_begin + k + 1)
        calls1 fail_count1
    | none => some (calls1, fail_count1)

/-- The function `mpv_obj_apply_args`: the calls made to
`mpv_set_option_string` and the value returned, `fail_count*(-1)`. The
`g_debug` and `g_warning` lines are left out. -/
def mpv_obj_apply_args (mpv_set_option_string : List Call → String → String → Int)
    (args : Option (List Char)) : Option (List Call × Int) :=
  match args with
  | none => some ([], 0)
  | some s =>
    match strstr s "--".toList with
    | none => some ([], 0)
    | some opt_begin =>
      (apply_args_loop mpv_set_option_string s (s.length + 1) opt_begin [] 0).map
        (fun r => (r.1, r.2 * (-1)))

/-! ### Notions used to state the contract of the option strings -/

/-- The options the loop of `mpv_obj_apply_args` cuts out of the string from
`opt_begin` on, whatever the engine answers. -/
def apply_args_options (args : List Char) : Nat → Nat → Option (List (String × String))
  | 0, _ => none
  | fuel + 1, opt_begin =>
    match strstr (args.drop (apply_args_end args opt_begin)) " --".toList with
    | some k =>
      (apply_args_options args fuel (apply_args_end args opt_begin + k + 1)).map
        (fun rest => apply_args_token args opt_begin :: rest)
    | none => some [apply_args_token args opt_begin]

/-- The number of options the engine rejects, `calls` being the calls made
before the first of them. -/
def rejected_count (mpv_set_option_string : List Call → String → String → Int) :
    List Call → List (String × String) → Int
  | _, [] => 0
  | calls, o :: rest =>
    (if mpv_set_option_string calls o.1 o.2 < 0 then 1 else 0) +
      rejected_count mpv_set_option_string
        (calls ++ [Call.mpv_set_option_string o.1 o.2]) rest

/-- An engine that rejects the option "b" and accepts every other one. -/
def sink_rejects_b : List Call → String → String → Int :=
  fun _ name _ => if name = "b" then -5 else 0

/-- The position `opt_begin` names the start of a "--". -/
def at_dashes (args : List Char) (opt_begin : Nat) : Prop :=
  ∃ rest, args.drop opt_begin = '-' :: '-' :: rest

/-! ### Notions used to state the contract of the track lists -/

/-- The value a node holds for a key, the first one when the key comes more
than once. -/
def node_get (key : String) : mpv_node_list → Option mpv_node
  | [] => none
  | kv :: rest => if kv.1 = key then some kv.2 else node_get key rest

/-- The kind a type name of the engine stands for. -/
def track_kind (type : String) : TrackType :=
  if type = "audio" then TrackType.audio
  else if type = "video" then TrackType.video
  else if type = "sub" then TrackType.subtitle
  else TrackType.invalid

/-- The track the engine describes by a node: the kind its "type" names, its
"title", its "lang" and its "id" (0, the id of a fresh track, when the node
has none). -/
def engine_track (node : mpv_node_list) : Track :=
  { type := match node_get "type" node with
      | some (mpv_node.string t) => track_kind t
      | _ => TrackType.invalid
    title := match node_get "title" node with
      | some (mpv_node.string s) => some s
      | _ => none
    lang := match node_get "lang" node with
      | some (mpv_node.string s) => some s
      | _ => none
    id := match node_get "id" node with
      | some (mpv_node.int64 n) => n
      | _ => 0 }

/-- The value is absent or a string. -/
def absent_or_string : Option mpv_node → Bool
  | none => true
  | some (mpv_node.string _) => true
  | some _ => false

/-- The value is absent or an integer. -/
def absent_or_int64 : Option mpv_node → Bool
  | none => true
  | some (mpv_node.int64 _) => true
  | some _ => false

/-- The value is one of the strings "audio", "video" and "sub". -/
def track_type_known : Option mpv_node → Bool
  | some (mpv_node.string t) => decide (t = "audio" ∨ t = "video" ∨ t = "sub")
  | _ => false

/-- A node describes a track of a known kind: it is a map (no key twice), its
"type" is the string "audio", "video" or "sub", its "title" and "lang" are
strings and its "id" is an integer, where it has them. -/
def track_node_ok (node : mpv_node_list) : Bool :=
  decide (node.map Prod.fst).Nodup && track_type_known (node_get "type" node) &&
    absent_or_string (node_get "title" node) && absent_or_string (node_get "lang" node) &&
    absent_or_int64 (node_get "id" node)

/-- The values of the keys `parse_track_list` reads have the format it reads
them in, and a type is one of the three it knows. -/
def track_values_ok (node : mpv_node_list) : Prop :=
  (∀ v, node_get "type" node = some v →
    ∃ t, v = mpv_node.string t ∧ (t = "audio" ∨ t = "video" ∨ t = "sub")) ∧
  (∀ v, node_get "title" node = some v → ∃ s, v = mpv_node.string s) ∧
  (∀ v, node_get "lang" node = some v → ∃ s, v = mpv_node.string s) ∧
  (∀ v, node_get "id" node = some v → ∃ n, v = mpv_node.int64 n)

/-- The track `parse_track_list` builds from a node, starting from `entry`. -/
def track_from (entry : Track) (node : mpv_node_list) : Track :=
  { type := match node_get "type" node with
      | some (mpv_node.string t) => track_kind t
      | _ => entry.type
    title := match node_get "title" node with
      | some (mpv_node.string s) => some s
      | _ => entry.title
    lang := match node_get "lang" node with
      | some (mpv_node.string s) => some s
      | _ => entry.lang
    id := match node_get "id" node with
      | some (mpv_node.int64 n) => n
      | _ => entry.id }

/-- A track list of the engine: a video track, two audio tracks and a
subtitle track between them. -/
def tracks_example : List mpv_node_list :=
  [[("id", mpv_node.int64 1), ("type", mpv_node.string "video"), ("albumart", mpv_node.flag false)],
   [("id", mpv_node.int64 1), ("type", mpv_node.string "audio"), ("lang", mpv_node.string "en")],
   [("type", mpv_node.string "sub"), ("id", mpv_node.int64 1), ("title", mpv_node.string "Full"),
    ("lang", mpv_node.string "de")],
   [("id", mpv_node.int64 2), ("type", mpv_node.string "audio"), ("title", mpv_node.string "Commentary")]]

/-! ### Notions used to state the contract of the IDLE event -/

/-- The calls that load one row into the engine, with the given load mode. -/
def load_row_calls (x : Helpers) (paused : Bool) (mode : String) (row : Row) : List Call :=
  [Call.mpv_request_event_end_file false,
    Call.mpv_command_loadfile (x.get_path_from_uri row.uri) mode,
    Call.mpv_set_property_pause paused,
    Call.mpv_request_event_end_file true]

/-- The calls that load the rows of a playlist from its head: the first row
replaces what the engine holds, every further row is appended. -/
def load_playlist_calls (x : Helpers) (paused : Bool) : List Row → List Call
  | [] => []
  | row :: rest =>
    load_row_calls x paused "replace" row ++
      (rest.map (load_row_calls x paused "append")).flatten

/-- The application with two rows in the playlist and an initial load
pending. -/
def app_two_rows : App :=
  { app_start with
    playlist := [{ name := "a.mkv", uri := "a.mkv" }, { name := "b.mkv", uri := "b.mkv" }] }

/-- `playlist_reset` (playlist.c): the position indicator of the playlist
view is set to row 0; the store is not written. -/
def playlist_reset (store : GtkListStore) : GtkListStore × List Call :=
  (store, [Call.playlist_set_indicator_pos 0])

/-! ### Notions used to state the contract of the playlist mirror -/

/-- The title the engine gives an entry: the string under the key "title",
when the entry has one. -/
def entry_title (entry : mpv_node_list) : Option String :=
  match node_get "title" entry with
  | some (mpv_node.string title) => some title
  | _ => none

/-- The row an engine entry stands for by the words of the contract: the uri
is the string under the key "filename"; the display name is the title when
the entry has one and the name derived from the uri otherwise. -/
def claimed_row (get_name_from_path : String → String) (entry : mpv_node_list) :
    Option Row :=
  match node_get "filename" entry with
  | some (mpv_node.string uri) =>
    some { name := (entry_title entry).getD (get_name_from_path uri), uri := uri }
  | _ => none

/-- An engine entry that is not the current one and carries a title. -/
def entry_titled : mpv_node_list :=
  [("filename", mpv_node.string "a.mkv"), ("title", mpv_node.string "Movie")]

/-! ## The playlist handlers (playlist.c) -/

/-- The part of `gmpv_handle` the row handlers of the playlist read and
write: the destination of a pending move, and the commands sent to the
engine. -/
structure gmpv_handle where
  playlist_move_dest : Int
  out : List Call
  deriving DecidableEq, Repr

/-- `playlist_row_inserted_handler`: the index of the inserted row,
`gtk_tree_path_get_indices(path)[0]`, is kept as the destination of a move. -/
def playlist_row_inserted_handler (ctx : gmpv_handle) (path_index : Int) : gmpv_handle :=
  { ctx with playlist_move_dest := path_index }

/-- `playlist_row_deleted_handler`: with a destination pending
(`dest >= 0`), the command "playlist_move" is sent with the index of the
deleted row, less one when it is above the destination, and the destination;
the pending destination is reset to -1. The decrement `--src` happens only for
`src > dest >= 0`, where it cannot leave the range of `gint`. -/
def playlist_row_deleted_handler (ctx : gmpv_handle) (path_index : Int) : gmpv_handle :=
  let src := path_index
  let dest := ctx.playlist_move_dest
  if 0 ≤ dest then
    { playlist_move_dest := -1
      out := ctx.out ++
        [Call.mpv_command_playlist_move (if src > dest then src - 1 else src) dest] }
  else ctx

/-! ### Notions used to state the contract of the playlist handlers -/

/-- Modelled from the spec: the engine's "playlist_move index1 index2" moves
the entry at `index1` so that it sits immediately before the entry that is at
`index2` (at the end when `index2` is the length of the playlist); a source
that names no entry leaves the playlist as it is. -/
def playlist_move (l : List Row) (index1 index2 : Nat) : List Row :=
  match l.get? index1 with
  | none => l
  | some x =>
    (l.eraseIdx index1).take (if index1 < index2 then index2 - 1 else index2) ++
      x :: (l.eraseIdx index1).drop (if index1 < index2 then index2 - 1 else index2)

/-- Modelled from the spec: the first half of a drag-and-drop reorder of the
list store, as the store reports it: a copy of the row at `index` is inserted
at `dest`. -/
def drag_insert (l : List Row) (index dest : Nat) : List Row :=
  match l.get? index with
  | none => l
  | some x => l.take dest ++ x :: l.drop dest

/-- The index of the row `index` once a row has been inserted at `dest`. -/
def index_after_insert (index dest : Nat) : Nat :=
  if index < dest then index else index + 1

/-- A handle with no move pending. -/
def ctx_idle : gmpv_handle :=
  { playlist_move_dest := -1, out := [] }

/-- A playlist of four rows. -/
def rows_abcd : List Row :=
  [{ name := "a", uri := "a" }, { name := "b", uri := "b" }, { name := "c", uri := "c" },
   { name := "d", uri := "d" }]

/-! ### Notions used to state the contract of the option tokens -/

/-- A space or a newline, the characters the walk back over the end of an
option skips. -/
def is_blank (c : Char) : Bool :=
  c = ' ' || c = '\n'

/-- One option of an option string by the words of the contract: "--", a
key, then "=" and a value when the option has an argument, then the spaces and
newlines that come before the next option or the end of the string. -/
structure ArgOption where
  key : List Char
  value : Option (List Char)
  gap : List Char
  deriving DecidableEq, Repr

/-- The text of an option after its "--": the key, and "=" with the value
when there is one. -/
def ArgOption.body (o : ArgOption) : List Char :=
  o.key ++
    (match o.value with
      | none => []
      | some v => '=' :: v)

/-- The text of an option with the spaces and newlines that follow it. -/
def ArgOption.text (o : ArgOption) : List Char :=
  '-' :: '-' :: (o.body ++ o.gap)

/-- The option string made of the options, in order. -/
def options_text : List ArgOption → List Char
  | [] => []
  | o :: rest => o.text ++ options_text rest

/-- The key has no space, newline or '=', the value has no space or newline,
and what follows the option is spaces and newlines only. -/
def ArgOption.ok (o : ArgOption) : Bool :=
  o.key.all (fun c => !is_blank c && c != '=') &&
    (match o.value with
      | none => true
      | some v => v.all (fun c => !is_blank c)) &&
    o.gap.all is_blank

/-- Every option is well formed, and every option but the last is followed
by spaces and newlines of which the last is a space. -/
def options_ok : List ArgOption → Bool
  | [] => true
  | o :: rest => o.ok && (rest.isEmpty || o.gap.getLast? == some ' ') && options_ok rest

/-- The name and the argument the contract gives an option: the key, and the
value or the empty string. -/
def ArgOption.pair (o : ArgOption) : String × String :=
  (String.mk o.key, String.mk (o.value.getD []))

/-- The options of "--a=1 --b \n --c=2", followed by a newline. -/
def options_abc : List ArgOption :=
  [{ key := ['a'], value := some ['1'], gap := [' '] },
   { key := ['b'], value := none, gap := [' ', '\n', ' '] },
   { key := ['c'], value := some ['2'], gap := ['\n'] }]

/-- The options of "--a=1 --b --c=2". -/
def options_a_b_c : List ArgOption :=
  [{ key := ['a'], value := some ['1'], gap := [' '] },
   { key := ['b'], value := none, gap := [' '] },
   { key := ['c'], value := some ['2'], gap := [] }]

/-! # Theorems -/

/-! ## Playlist reconciliation -/

theorem modify_at_length (f : Row → Row) (pre : List Row) (o : Row) (os : List Row) :
    (pre ++ o :: os).modify f pre.length = pre ++ f o :: os := by
  induction pre with
  | nil => simp
  | cons p ps ih => simp [ih]

theorem get_at_length (pre : List Row) (o : Row) (os : List Row) :
    (pre ++ o :: os).get? pre.length = some o := by
  induction pre with
  | nil => simp
  | cons p ps ih => simpa using ih

theorem update_loop_append (g : String → String) :
    ∀ (es : List mpv_node_list) (rs : List Row) (st : UpdateState),
      snapshot_rows g es = some rs → st.iter_end = true →
      update_loop g es st = some { st with
        store := st.store ++ rs
        log := st.log ++ rs.map (fun r => UiOp.append r.name r.uri) } := by
  intro es
  induction es with
  | nil =>
    intro rs st h _
    simp [snapshot_rows] at h
    subst h
    simp [update_loop]
  | cons e es ih =>
    intro rs st h hend
    simp only [snapshot_rows] at h
    cases he : entry_row g e with
    | none => simp [he] at h
    | some r =>
      cases hr : snapshot_rows g es with
      | none => simp [he, hr] at h
      | some rs1 =>
        simp [he, hr] at h
        subst h
        simp only [update_loop, update_step, he, hend]
        simp only [Bool.not_true, Bool.false_eq_true, if_false]
        rw [ih rs1 _ hr (by simp [hend])]
        simp [playlist_append]

theorem update_step_overwrite (g : String → String) (pre : List Row) (o r : Row)
    (os : List Row) (log : List UiOp) (e : mpv_node_list) (he : entry_row g e = some r) :
    update_step g { store := pre ++ o :: os, iter := some pre.length, iter_end := false,
                    log := log } e
      = some { store := pre ++ r :: os
               iter := if os = [] then none else some (pre.length + 1)
               iter_end := os.isEmpty
               log := log ++ overwrite_ops pre.length o r } := by
  obtain ⟨n0, u0⟩ := o
  obtain ⟨n1, u1⟩ := r
  have hlen : ∀ (x : Row), (pre.length + 1 < (pre ++ x :: os).length) ↔ os ≠ [] := by
    intro x
    cases os <;> simp
  simp only [update_step, he, gtk_tree_model_get, get_at_length, Bool.not_false, if_true,
    Option.getD_some, gtk_list_store_set_name, gtk_list_store_set_uri, overwrite_ops,
    gtk_tree_model_iter_next]
  by_cases h1 : n1 = n0 <;> by_cases h2 : u1 = u0 <;> cases os <;>
    simp [h1, h2, modify_at_length]

theorem eraseIdx_at_length (pre : List Row) (o : Row) (os : List Row) :
    (pre ++ o :: os).eraseIdx pre.length = pre ++ os := by
  induction pre with
  | nil => simp
  | cons p ps ihp => simpa using ihp

theorem remove_excess_spec (pre : List Row) :
    ∀ (old : List Row) (fuel : Nat) (log : List UiOp), old ≠ [] → old.length ≤ fuel →
      remove_excess fuel (pre ++ old) (some pre.length) log
        = (pre, log ++ old.map (fun _ => UiOp.remove pre.length)) := by
  intro old
  induction old with
  | nil => intro fuel log h; exact absurd rfl h
  | cons o os ih =>
    intro fuel log _ hf
    cases fuel with
    | zero => simp at hf
    | succ fuel =>
      simp only [remove_excess, gtk_list_store_remove, eraseIdx_at_length]
      cases os with
      | nil => simp
      | cons o1 os1 =>
        have hlt : pre.length < (pre ++ o1 :: os1).length := by simp
        simp only [hlt, if_true, Option.isSome_some]
        rw [ih fuel _ (by simp) (by simpa using hf)]
        simp

theorem update_loop_finish (g : String → String) :
    ∀ (es : List mpv_node_list) (rs : List Row) (pre : List Row) (o : Row) (os : List Row)
      (log : List UiOp), snapshot_rows g es = some rs →
      (update_loop g es { store := pre ++ o :: os, iter := some pre.length,
                          iter_end := false, log := log }).map update_finish
        = some (pre ++ rs, log ++ sync_ops pre.length (o :: os) rs) := by
  intro es
  induction es with
  | nil =>
    intro rs pre o os log h
    simp [snapshot_rows] at h
    subst h
    simp only [update_loop, Option.map_some', update_finish, Bool.not_false, if_true]
    rw [remove_excess_spec pre (o :: os) _ log (by simp) (by simp; omega)]
    simp [sync_ops]
  | cons e es ih =>
    intro rs pre o os log h
    simp only [snapshot_rows] at h
    cases he : entry_row g e with
    | none => simp [he] at h
    | some r =>
      cases hr : snapshot_rows g es with
      | none => simp [he, hr] at h
      | some rs1 =>
        simp [he, hr] at h
        subst h
        simp only [update_loop, update_step_overwrite g pre o r os log e he]
        cases os with
        | nil =>
          rw [update_loop_append g es rs1 _ hr (by simp)]
          simp [update_finish, sync_ops]
        | cons o1 os1 =>
          have h1 : pre ++ r :: o1 :: os1 = (pre ++ [r]) ++ o1 :: os1 := by simp
          have h2 : pre.length + 1 = (pre ++ [r]).length := by simp
          simp only [reduceCtorEq, if_false, List.isEmpty_cons]
          rw [h1, h2, ih rs1 (pre ++ [r]) o1 os1 _ hr]
          simp [sync_ops]

theorem update_playlist_spec (g : String → String) (store : GtkListStore)
    (pl : List mpv_node_list) (rs : List Row) (hrs : snapshot_rows g pl = some rs)
    (hne : store ≠ [] ∨ pl = []) :
    mpv_obj_update_playlist g store pl
      = some (rs, [UiOp.handlers_block] ++ sync_ops 0 store rs ++ [UiOp.handlers_unblock]) := by
  cases store with
  | nil =>
    have hpl : pl = [] := by
      rcases hne with h | h
      · exact absurd rfl h
      · exact h
    subst hpl
    simp [snapshot_rows] at hrs
    subst hrs
    simp [mpv_obj_update_playlist, gtk_tree_model_get_iter_first, update_loop, remove_excess,
      gtk_list_store_remove, sync_ops]
  | cons o os =>
    have h := update_loop_finish g pl rs [] o os [UiOp.handlers_block] hrs
    simp only [List.nil_append, List.length_nil] at h
    simp only [mpv_obj_update_playlist, gtk_tree_model_get_iter_first, List.isEmpty_cons,
      Bool.false_eq_true, if_false]
    obtain ⟨st, hl, hf⟩ := Option.map_eq_some'.mp h
    simp only [update_finish] at hf
    simp only [hl, hf]

theorem snapshot_rows_length (g : String → String) :
    ∀ (pl : List mpv_node_list) (rs : List Row), snapshot_rows g pl = some rs →
      rs.length = pl.length := by
  intro pl
  induction pl with
  | nil => intro rs h; simp [snapshot_rows] at h; simp [h]
  | cons e es ih =>
    intro rs h
    simp only [snapshot_rows] at h
    cases he : entry_row g e with
    | none => simp [he] at h
    | some r =>
      cases hr : snapshot_rows g es with
      | none => simp [he, hr] at h
      | some rs1 =>
        simp [he, hr] at h
        subst h
        simp [ih rs1 hr]

theorem overwrite_ops_self (k : Nat) (r : Row) : overwrite_ops k r r = [] := by
  simp [overwrite_ops]

theorem sync_ops_self : ∀ (rs : List Row) (k : Nat), sync_ops k rs rs = [] := by
  intro rs
  induction rs with
  | nil => intro k; simp [sync_ops]
  | cons r rs ih => intro k; simp [sync_ops, overwrite_ops_self, ih]

theorem overwrite_ops_filter_remove (k : Nat) (o n : Row) :
    (overwrite_ops k o n).filter UiOp.is_remove = [] := by
  unfold overwrite_ops
  split <;> split <;> simp [UiOp.is_remove]

theorem overwrite_ops_filter_append (k : Nat) (o n : Row) :
    (overwrite_ops k o n).filter UiOp.is_append = [] := by
  unfold overwrite_ops
  split <;> split <;> simp [UiOp.is_append]

theorem sync_ops_filter_remove :
    ∀ (old new : List Row) (k : Nat),
      (sync_ops k old new).filter UiOp.is_remove
        = List.replicate (old.length - new.length) (UiOp.remove (k + new.length)) := by
  intro old
  induction old with
  | nil =>
    intro new k
    simp [sync_ops, List.filter_map, Function.comp_def, UiOp.is_remove]
  | cons o os ih =>
    intro new k
    cases new with
    | nil =>
      simp [sync_ops, List.filter_map, Function.comp_def, UiOp.is_remove, List.replicate_succ]
    | cons n ns =>
      simp only [sync_ops, List.filter_append, overwrite_ops_filter_remove, List.nil_append, ih,
        List.length_cons]
      have h1 : os.length + 1 - (ns.length + 1) = os.length - ns.length := by omega
      have h2 : k + 1 + ns.length = k + (ns.length + 1) := by omega
      rw [h1, h2]

theorem sync_ops_filter_append :
    ∀ (old new : List Row) (k : Nat),
      (sync_ops k old new).filter UiOp.is_append
        = (new.drop old.length).map (fun r => UiOp.append r.name r.uri) := by
  intro old
  induction old with
  | nil =>
    intro new k
    simp [sync_ops, List.filter_map, Function.comp_def, UiOp.is_append]
  | cons o os ih =>
    intro new k
    cases new with
    | nil => simp [sync_ops, List.filter_map, Function.comp_def, UiOp.is_append]
    | cons n ns =>
      simp only [sync_ops, List.filter_append, overwrite_ops_filter_append, List.nil_append, ih,
        List.length_cons, List.drop_succ_cons]

theorem update_loop_some_rows (g : String → String) :
    ∀ (pl : List mpv_node_list) (st st1 : UpdateState), update_loop g pl st = some st1 →
      ∃ rs, snapshot_rows g pl = some rs := by
  intro pl
  induction pl with
  | nil => intro st st1 _; exact ⟨[], rfl⟩
  | cons e es ih =>
    intro st st1 h
    simp only [update_loop] at h
    cases hs : update_step g st e with
    | none => simp [hs] at h
    | some st2 =>
      simp only [hs] at h
      obtain ⟨rs, hrs⟩ := ih st2 st1 h
      cases he : entry_row g e with
      | none => simp [update_step, he] at hs
      | some r => exact ⟨r :: rs, by simp [snapshot_rows, he, hrs]⟩

/-- The pass completes exactly when every engine entry is readable and the
store has a first row or the engine playlist is empty. -/
theorem update_playlist_completes_iff (g : String → String) (store : GtkListStore)
    (pl : List mpv_node_list) :
    (∃ r, mpv_obj_update_playlist g store pl = some r) ↔
      (∃ rs, snapshot_rows g pl = some rs) ∧ (store ≠ [] ∨ pl = []) := by
  constructor
  · rintro ⟨r, hr⟩
    simp only [mpv_obj_update_playlist] at hr
    split at hr
    · exact absurd hr (by simp)
    · rename_i st hl
      refine ⟨update_loop_some_rows g pl _ st hl, ?_⟩
      cases store with
      | cons o os => exact Or.inl (by simp)
      | nil =>
        cases pl with
        | nil => exact Or.inr rfl
        | cons e es =>
          exfalso
          simp only [update_loop, update_step, gtk_tree_model_get_iter_first,
            gtk_tree_model_get] at hl
          cases he : entry_row g e <;> simp [he] at hl
  · rintro ⟨⟨rs, hrs⟩, hne⟩
    exact ⟨_, update_playlist_spec g store pl rs hrs hne⟩

theorem removed_rows_block (sh : List (Option Nat)) (ops : List UiOp) :
    removed_rows sh (UiOp.handlers_block :: ops) = removed_rows sh ops := by
  simp [removed_rows]

theorem removed_rows_overwrite (sh : List (Option Nat)) (k : Nat) (o n : Row)
    (rest : List UiOp) :
    removed_rows sh (overwrite_ops k o n ++ rest) = removed_rows sh rest := by
  unfold overwrite_ops
  split <;> split <;> simp [removed_rows]

theorem sync_ops_cons_nil (k : Nat) (o : Row) (os : List Row) :
    sync_ops k (o :: os) [] = UiOp.remove k :: sync_ops k os [] := by
  cases os <;> simp [sync_ops]

theorem get_at_length_opt (pre : List (Option Nat)) (t : Option Nat) (ts : List (Option Nat)) :
    (pre ++ t :: ts).get? pre.length = some t := by
  induction pre with
  | nil => simp
  | cons p ps ih => simpa using ih

theorem eraseIdx_at_length_opt (pre : List (Option Nat)) (t : Option Nat)
    (ts : List (Option Nat)) : (pre ++ t :: ts).eraseIdx pre.length = pre ++ ts := by
  induction pre with
  | nil => simp
  | cons p ps ih => simpa using ih

theorem removed_rows_sync :
    ∀ (old new : List Row) (pre tail : List (Option Nat)) (rest : List UiOp),
      tail.length = old.length → new.length ≤ old.length →
      removed_rows (pre ++ tail) (sync_ops pre.length old new ++ rest)
        = tail.drop new.length ++ removed_rows (pre ++ tail.take new.length) rest := by
  intro old
  induction old with
  | nil =>
    intro new pre tail rest ht hn
    have h1 : new = [] := List.length_eq_zero.mp (by simpa using hn)
    have h2 : tail = [] := List.length_eq_zero.mp (by simpa using ht)
    subst h1 h2
    simp [sync_ops]
  | cons o os ih =>
    intro new pre tail rest ht hn
    cases tail with
    | nil => simp at ht
    | cons t ts =>
      have hts : ts.length = os.length := by simpa using ht
      cases new with
      | nil =>
        have h := ih [] pre ts rest hts (by simp)
        simp only [List.length_nil, List.drop_zero, List.take_zero, List.append_nil] at h
        rw [sync_ops_cons_nil]
        show removed_rows (pre ++ t :: ts)
          (UiOp.remove pre.length :: (sync_ops pre.length os [] ++ rest)) = _
        rw [removed_rows, get_at_length_opt, eraseIdx_at_length_opt, h]
        simp
      | cons n ns =>
        have h := ih ns (pre ++ [t]) ts rest hts (by simpa using hn)
        simp only [List.length_append, List.length_singleton, List.append_assoc,
          List.singleton_append] at h
        simp only [sync_ops, List.append_assoc, removed_rows_overwrite, h, List.length_cons,
          List.drop_succ_cons, List.take_succ_cons]

/-- C1 (evaluation at the failing input): with an empty playlist store and an
engine playlist of one entry, the pass reads a row through the iterator that
`gtk_tree_model_get_iter_first` left naming no row, so it does not complete
and the entry is never appended. -/
theorem update_playlist_empty_store_one_entry (g : String → String) :
    mpv_obj_update_playlist g [] [[("filename", mpv_node.string "a.mkv")]] = none := by
  rfl

/-- C2: when a reconciliation pass completes (every engine entry readable, and
the store non-empty or the engine playlist empty), the store equals the rows
derived from the engine playlist, and a second pass against the same engine
playlist completes, leaves the store as it is and performs no operation on it
other than blocking and unblocking the handlers. -/
theorem update_playlist_idempotent (g : String → String) (store : GtkListStore)
    (pl : List mpv_node_list) (rs : List Row) (hrs : snapshot_rows g pl = some rs)
    (hne : store ≠ [] ∨ pl = []) :
    ∃ log, mpv_obj_update_playlist g store pl = some (rs, log) ∧
      mpv_obj_update_playlist g rs pl
        = some (rs, [UiOp.handlers_block, UiOp.handlers_unblock]) := by
  refine ⟨_, update_playlist_spec g store pl rs hrs hne, ?_⟩
  have hne2 : rs ≠ [] ∨ pl = [] := by
    cases pl with
    | nil => exact Or.inr rfl
    | cons e es =>
      left
      intro h
      have := snapshot_rows_length g _ _ hrs
      simp [h] at this
  rw [update_playlist_spec g rs pl rs hrs hne2, sync_ops_self]
  rfl

theorem update_playlist_idempotent_witness :
    (snapshot_rows id [[("filename", mpv_node.string "a.mkv")]]
        = some [{ name := "a.mkv", uri := "a.mkv" }] ∧
      ((([{ name := "old", uri := "b.mkv" }] : GtkListStore) ≠ []) ∨
        [[("filename", mpv_node.string "a.mkv")]] = ([] : List mpv_node_list))) ∧
    ∃ log, mpv_obj_update_playlist id [{ name := "old", uri := "b.mkv" }]
        [[("filename", mpv_node.string "a.mkv")]]
          = some ([{ name := "a.mkv", uri := "a.mkv" }], log) ∧
      mpv_obj_update_playlist id [{ name := "a.mkv", uri := "a.mkv" }]
        [[("filename", mpv_node.string "a.mkv")]]
          = some ([{ name := "a.mkv", uri := "a.mkv" }],
              [UiOp.handlers_block, UiOp.handlers_unblock]) :=
  ⟨⟨rfl, Or.inl (by simp)⟩,
    update_playlist_idempotent id [{ name := "old", uri := "b.mkv" }]
      [[("filename", mpv_node.string "a.mkv")]] [{ name := "a.mkv", uri := "a.mkv" }] rfl
      (Or.inl (by simp))⟩

/-- C3 (evaluation at the failing input): with an empty playlist store and an
engine playlist of two entries the pass does not complete: neither entry 0 nor
entry 1 is appended. -/
theorem update_playlist_empty_store_two_entries (g : String → String) :
    mpv_obj_update_playlist g []
      [[("filename", mpv_node.string "a.mkv")], [("filename", mpv_node.string "b.mkv")]]
      = none := by
  rfl

/-- C4: when the store has more rows than the engine playlist has entries
(every entry readable), the pass completes; the rows it removes are exactly
those that were at positions `pl.length`, ..., `store.length - 1` before the
pass, each removed at position `pl.length` (never below it); nothing is
appended; and the rows left are the rows derived from the engine playlist. -/
theorem update_playlist_removes_excess (g : String → String) (store : GtkListStore)
    (pl : List mpv_node_list) (rs : List Row) (hrs : snapshot_rows g pl = some rs)
    (hlen : pl.length < store.length) :
    ∃ log, mpv_obj_update_playlist g store pl = some (rs, log) ∧
      removed_rows ((List.range store.length).map some) log
        = ((List.range store.length).drop pl.length).map some ∧
      log.filter UiOp.is_remove
        = List.replicate (store.length - pl.length) (UiOp.remove pl.length) ∧
      log.filter UiOp.is_append = [] ∧
      rs.length = pl.length := by
  have hne : store ≠ [] ∨ pl = [] := by
    left
    intro h
    simp [h] at hlen
  have hl := snapshot_rows_length g pl rs hrs
  refine ⟨_, update_playlist_spec g store pl rs hrs hne, ?_, ?_, ?_, hl⟩
  · have h := removed_rows_sync store rs [] ((List.range store.length).map some)
      [UiOp.handlers_unblock] (by simp) (by omega)
    simp only [List.nil_append, List.length_nil] at h
    show removed_rows _ (UiOp.handlers_block :: (sync_ops 0 store rs ++ [UiOp.handlers_unblock]))
      = _
    rw [removed_rows_block, h, hl]
    simp [removed_rows, List.map_drop]
  · simp [List.filter_append, sync_ops_filter_remove, UiOp.is_remove, hl]
  · simp [List.filter_append, sync_ops_filter_append, UiOp.is_append, hl]
    omega

theorem update_playlist_removes_excess_witness :
    (snapshot_rows id [[("filename", mpv_node.string "a.mkv")]]
        = some [{ name := "a.mkv", uri := "a.mkv" }] ∧
      [[("filename", mpv_node.string "a.mkv")]].length
        < ([{ name := "a.mkv", uri := "a.mkv" }, { name := "b", uri := "b" },
            { name := "c", uri := "c" }] : GtkListStore).length) ∧
    ∃ log, mpv_obj_update_playlist id
        [{ name := "a.mkv", uri := "a.mkv" }, { name := "b", uri := "b" },
          { name := "c", uri := "c" }] [[("filename", mpv_node.string "a.mkv")]]
          = some ([{ name := "a.mkv", uri := "a.mkv" }], log) ∧
      removed_rows ((List.range ([{ name := "a.mkv", uri := "a.mkv" },
          { name := "b", uri := "b" }, { name := "c", uri := "c" }] : GtkListStore).length).map
            some) log
        = ((List.range ([{ name := "a.mkv", uri := "a.mkv" }, { name := "b", uri := "b" },
            { name := "c", uri := "c" }] : GtkListStore).length).drop
              [[("filename", mpv_node.string "a.mkv")]].length).map some ∧
      log.filter UiOp.is_remove
        = List.replicate (([{ name := "a.mkv", uri := "a.mkv" }, { name := "b", uri := "b" },
            { name := "c", uri := "c" }] : GtkListStore).length
              - [[("filename", mpv_node.string "a.mkv")]].length)
            (UiOp.remove [[("filename", mpv_node.string "a.mkv")]].length) ∧
      log.filter UiOp.is_append = [] ∧
      ([{ name := "a.mkv", uri := "a.mkv" }] : List Row).length
        = [[("filename", mpv_node.string "a.mkv")]].length :=
  ⟨⟨rfl, by decide⟩,
    update_playlist_removes_excess id _ [[("filename", mpv_node.string "a.mkv")]]
      [{ name := "a.mkv", uri := "a.mkv" }] rfl (by decide)⟩

/-! ## The geometry parser -/

theorem digit_value_digit (c : Char) (h : '0' ≤ c ∧ c ≤ '9') :
    digit_value c = some (c.toNat - '0'.toNat) := by
  simp [digit_value, h]

theorem digit_lt_ten (c : Char) (h : '0' ≤ c ∧ c ≤ '9') : c.toNat - '0'.toNat < 10 := by
  obtain ⟨h1, h2⟩ := h
  have h2' : c.toNat ≤ '9'.toNat := h2
  have : '9'.toNat = 57 := by decide
  have : '0'.toNat = 48 := by decide
  omega

theorem foldl_digits_ge (ds : List Char) :
    ∀ acc : Nat, acc ≤ ds.foldl (fun a c => a * 10 + (c.toNat - '0'.toNat)) acc := by
  induction ds with
  | nil => intro acc; simp
  | cons d ds ih =>
    intro acc
    simp only [List.foldl_cons]
    exact le_trans (by omega) (ih _)

theorem foldl_digits_pow (ds : List Char) :
    ∀ acc : Nat, acc * 10 ^ ds.length
      ≤ ds.foldl (fun a c => a * 10 + (c.toNat - '0'.toNat)) acc := by
  induction ds with
  | nil => intro acc; simp
  | cons d ds ih =>
    intro acc
    simp only [List.foldl_cons, List.length_cons]
    refine le_trans ?_ (ih _)
    rw [pow_succ]
    nlinarith [Nat.zero_le (10 ^ ds.length), Nat.zero_le (d.toNat - '0'.toNat)]

theorem strtoll_digits_decimal (p : Bool) (ds : List Char) :
    ∀ (acc : Nat) (ov : Bool) (used : Nat), (∀ c ∈ ds, '0' ≤ c ∧ c ≤ '9') →
      ds.foldl (fun a c => a * 10 + (c.toNat - '0'.toNat)) acc < 2 ^ 31 →
      strtoll_digits 10 (ds ++ percent_suffix p) acc ov used
        = (ds.foldl (fun a c => a * 10 + (c.toNat - '0'.toNat)) acc, ov, used + ds.length) := by
  induction ds with
  | nil =>
    intro acc ov used _ _
    cases p <;> simp [percent_suffix, strtoll_digits, digit_value]
  | cons d ds ih =>
    intro acc ov used hd hb
    have hdd := hd d (by simp)
    have hlt := digit_lt_ten d hdd
    have hacc : acc * 10 + (d.toNat - '0'.toNat) < 2 ^ 31 :=
      lt_of_le_of_lt (foldl_digits_ge ds _) hb
    have hcut : ¬ ((2 ^ 64 - 1) / 10 < acc ∨
        (acc = (2 ^ 64 - 1) / 10 ∧ (2 ^ 64 - 1) % 10 < d.toNat - '0'.toNat)) := by
      norm_num at hacc ⊢
      omega
    simp only [List.cons_append, strtoll_digits, digit_value_digit d hdd]
    rw [if_neg (by omega), if_neg hcut]
    have h := ih (acc * 10 + (d.toNat - '0'.toNat)) ov (used + 1)
      (fun c hc => hd c (by simp [hc])) hb
    show strtoll_digits 10 (ds ++ percent_suffix p) _ _ _ = _
    rw [h]
    simp only [List.foldl_cons, List.length_cons]
    congr 2
    omega

theorem digit_not_special (c : Char) (h : '0' ≤ c ∧ c ≤ '9') :
    g_ascii_isspace c = false ∧ c ≠ '-' ∧ c ≠ '+' ∧ c ≠ 'x' ∧ c ≠ 'X' ∧ c ≠ '%' := by
  obtain ⟨h1, h2⟩ := h
  refine ⟨?_, ?_, ?_, ?_, ?_, ?_⟩
  · simp only [g_ascii_isspace, Bool.or_eq_false_iff, decide_eq_false_iff_not]
    refine ⟨⟨⟨⟨⟨?_, ?_⟩, ?_⟩, ?_⟩, ?_⟩, ?_⟩ <;> (intro h; subst h; revert h1; decide)
  all_goals (intro h; subst h; first | (revert h1; decide) | (revert h2; decide))

theorem strtoll_decimal (p : Bool) (t : List Char) (ht : is_decimal t)
    (hv : decimal_value t < 2 ^ 31) :
    g_ascii_strtoll (t ++ percent_suffix p) = (decimal_value t : Int) := by
  obtain ⟨hne, hdig, hzero⟩ := ht
  cases t with
  | nil => exact absurd rfl hne
  | cons c ds =>
    have hc := hdig c (by simp)
    obtain ⟨hsp, hm, hpl, _, _, _⟩ := digit_not_special c hc
    by_cases h0 : c = '0'
    · subst h0
      have := hzero (by simp)
      simp only [List.cons.injEq, true_and] at this
      subst this
      cases p <;> decide
    · have hd := strtoll_digits_decimal p (c :: ds) 0 false 0 hdig hv
      simp only [List.cons_append] at hd
      simp only [g_ascii_strtoll, List.cons_append, List.dropWhile_cons, hsp, Bool.false_eq_true,
        if_false, List.head?_cons, Option.some.injEq, hm, hpl, h0, false_or, false_and, hd,
        List.length_cons, decimal_value]
      have hv' : (List.foldl (fun a c => a * 10 + (c.toNat - '0'.toNat)) 0 (c :: ds)) < 2 ^ 31 :=
        hv
      generalize List.foldl (fun a c => a * 10 + (c.toNat - '0'.toNat)) 0 (c :: ds) = v at hv' ⊢
      norm_num at hv' ⊢
      omega

theorem g_strsplit_loop_zero (b : List Char) : g_strsplit_loop 'x' 0 [] b = [b] := by
  cases b <;> simp [g_strsplit_loop]

theorem g_strsplit_loop_one (a : List Char) (b : List Char) :
    ∀ acc : List Char, (∀ c ∈ a, c ≠ 'x') →
      g_strsplit_loop 'x' 1 acc (a ++ 'x' :: b) = [acc.reverse ++ a, b] := by
  induction a with
  | nil =>
    intro acc _
    simp [g_strsplit_loop, g_strsplit_loop_zero]
  | cons c cs ih =>
    intro acc h
    have hc : c ≠ 'x' := h c (by simp)
    simp only [List.cons_append, g_strsplit_loop, hc, if_false]
    have h1 := ih (c :: acc) (fun d hd => h d (by simp [hd]))
    show g_strsplit_loop 'x' 1 (c :: acc) (cs ++ 'x' :: b) = _
    rw [h1]
    simp

theorem g_strsplit_two (a b : List Char) (h : ∀ c ∈ a, c ≠ 'x') :
    g_strsplit (a ++ 'x' :: b) 'x' 2 = [a, b] := by
  have hne : (a ++ 'x' :: b).isEmpty = false := by cases a <;> simp
  simp only [g_strsplit, hne, Bool.false_eq_true, if_false]
  have := g_strsplit_loop_one a b [] h
  simpa using this

theorem decimal_length_le (t : List Char) (ht : is_decimal t) (hv : decimal_value t < 2 ^ 31) :
    t.length ≤ 10 := by
  obtain ⟨hne, hdig, hzero⟩ := ht
  cases t with
  | nil => exact absurd rfl hne
  | cons c ds =>
    by_cases h0 : c = '0'
    · subst h0
      have := hzero (by simp)
      simp only [List.cons.injEq, true_and] at this
      subst this
      simp
    · by_contra hlen
      have hl : 10 ≤ ds.length := by simp at hlen; omega
      have hc := hdig c (by simp)
      have h1 : 1 ≤ c.toNat - '0'.toNat := by
        have h48 : '0'.toNat = 48 := by decide
        have hge : '0'.toNat ≤ c.toNat := hc.1
        have hne' : c.toNat ≠ 48 := by
          intro h
          apply h0
          apply Char.ext
          apply UInt32.ext
          exact h
        omega
      have h2 := foldl_digits_pow ds (0 * 10 + (c.toNat - '0'.toNat))
      have h3 : (10 : Nat) ^ 10 ≤ 10 ^ ds.length := Nat.pow_le_pow_right (by norm_num) hl
      have h4 : decimal_value (c :: ds)
          = ds.foldl (fun a c => a * 10 + (c.toNat - '0'.toNat)) (0 * 10 + (c.toNat - '0'.toNat)) :=
        rfl
      rw [h4] at hv
      have h5 : 1 * 10 ^ ds.length ≤ (0 * 10 + (c.toNat - '0'.toNat)) * 10 ^ ds.length :=
        Nat.mul_le_mul_right _ (by omega)
      have h6 : (10 : Nat) ^ 10 < 2 ^ 31 := lt_of_le_of_lt (le_trans h3 (le_trans (by omega) h5))
        (lt_of_le_of_lt h2 hv)
      norm_num at h6

theorem of_ratio_false_nonneg (n d : Nat) :
    ∃ m e, F64.of_ratio false n d = F64.fin m e ∧ 0 ≤ m := by
  unfold F64.of_ratio
  by_cases h : n = 0
  · exact ⟨0, 0, by simp [h], le_refl _⟩
  · exact ⟨((F64.round_pos n d).1 : Int), (F64.round_pos n d).2, by simp [h],
      Int.natCast_nonneg _⟩

theorem of_int_neg_one : F64.of_int (-1) = F64.fin (-4503599627370496) (-52) := by
  decide

theorem of_int_hundred : F64.of_int 100 = F64.fin 7036874417766400 (-46) := by
  decide

theorem eq_neg_one_false (m e : Int) (hm : 0 ≤ m) :
    F64.eq (F64.fin m e) (F64.of_int (-1)) = false := by
  rw [of_int_neg_one]
  have h : F64.fin_lt (-4503599627370496) (-52) m e = true := by
    simp only [F64.fin_lt, decide_eq_true_eq]
    have h1 : (-4503599627370496 : Int) * 2 ^ (-52 - min (-52) e).toNat < 0 :=
      mul_neg_of_neg_of_pos (by norm_num) (by positivity)
    have h2 : 0 ≤ m * 2 ^ (e - min (-52) e).toNat := mul_nonneg hm (by positivity)
    exact lt_of_lt_of_le h1 h2
  simp [F64.eq, h]

theorem percent_multiplier (v : Nat) :
    F64.eq (F64.div (F64.of_int (v : Int)) (F64.of_int 100)) (F64.of_int (-1)) = false := by
  rw [of_int_hundred]
  have hv : F64.of_int (v : Int) = F64.of_ratio false v 1 := by
    have h0 : decide ((v : Int) < 0) = false := by simp
    simp [F64.of_int, h0]
  obtain ⟨m, e, hme, hm⟩ := of_ratio_false_nonneg v 1
  rw [hv, hme]
  have hd : F64.div (F64.fin m e) (F64.fin 7036874417766400 (-46))
      = F64.of_ratio false (m.natAbs * 2 ^ (e - -46).toNat)
          (7036874417766400 * 2 ^ (-46 - e).toNat) := by
    have h1 : decide (m < 0) = false := by simpa using hm
    simp [F64.div, h1]
  obtain ⟨m2, e2, hme2, hm2⟩ := of_ratio_false_nonneg (m.natAbs * 2 ^ (e - -46).toNat)
    (7036874417766400 * 2 ^ (-46 - e).toNat)
  rw [hd, hme2]
  exact eq_neg_one_false m2 e2 hm2

theorem to_gint_small (v : Nat) (hv : v < 2 ^ 31) : to_gint (v : Int) = (v : Int) := by
  unfold to_gint
  norm_num at hv ⊢
  omega

theorem parse_dim_token_decimal (before : Char) (screen : Int) (p : Bool) (t : List Char)
    (ht : is_decimal t) (hv : decimal_value t < 2 ^ 31) :
    parse_dim_token before screen (t ++ percent_suffix p)
      = computed_dim p (decimal_value t) screen := by
  have hlen := decimal_length_le t ht hv
  have hval : to_gint (g_ascii_strtoll (t ++ percent_suffix p)) = (decimal_value t : Int) := by
    rw [strtoll_decimal p t ht hv, to_gint_small _ hv]
  obtain ⟨hne, hdig, _⟩ := ht
  cases p with
  | true =>
    have hs : strnlen (t ++ percent_suffix true) 256 = t.length + 1 := by
      simp [strnlen, percent_suffix]
      omega
    have hl : (t ++ percent_suffix true).getD t.length '\x00' = '%' := by
      simp [percent_suffix, List.getD_eq_getElem?_getD]
    simp only [parse_dim_token, hval, hs, hl, if_true, percent_multiplier, computed_dim,
      Bool.false_eq_true, if_false, Bool.true_and]
  | false =>
    obtain ⟨k, hk⟩ : ∃ k, t.length = k + 1 := by
      cases t with
      | nil => exact absurd rfl hne
      | cons c cs => exact ⟨cs.length, rfl⟩
    have hs : strnlen (t ++ percent_suffix false) 256 = k + 1 := by
      simp [strnlen, percent_suffix]
      omega
    have hl : (t ++ percent_suffix false).getD k '\x00' ≠ '%' := by
      have hmem : (t ++ percent_suffix false).getD k '\x00' ∈ t := by
        have hk' : k < t.length := by omega
        simp [percent_suffix, List.getD_eq_getElem?_getD, List.getElem?_eq_getElem hk']
      exact (digit_not_special _ (hdig _ hmem)).2.2.2.2.2
    have he : F64.eq (F64.of_int (-1)) (F64.of_int (-1)) = true := by decide
    simp only [parse_dim_token, hval, hs, hl, if_false, he, if_true, computed_dim,
      Bool.false_eq_true]

theorem of_int_fin (z : Int) : ∃ m e, F64.of_int z = F64.fin m e := by
  unfold F64.of_int F64.of_ratio
  by_cases h : z.natAbs = 0
  · exact ⟨0, 0, by simp [h]⟩
  · exact ⟨_, _, by simp only [h, if_false]; rfl⟩

theorem mul_zero_of_int (z : Int) :
    F64.to_gint (F64.mul (F64.fin 0 0) (F64.of_int z)) = (0, true) := by
  obtain ⟨m, e, h⟩ := of_int_fin z
  rw [h]
  have : F64.mul (F64.fin 0 0) (F64.fin m e) = F64.fin 0 (0 + 0 + e) := by
    simp [F64.mul, F64.of_ratio]
  rw [this]
  simp only [F64.to_gint, F64.trunc]
  split <;> simp

theorem parse_dim_token_nil (before : Char) (screen : Int) :
    parse_dim_token before screen [] = (0, false) := by
  have hv : to_gint (g_ascii_strtoll []) = 0 := by decide
  have hd : F64.div (F64.of_int 0) (F64.of_int 100) = F64.fin 0 0 := by decide
  have he : F64.eq (F64.fin 0 0) (F64.of_int (-1)) = false := by decide
  have he1 : F64.eq (F64.of_int (-1)) (F64.of_int (-1)) = true := by decide
  simp only [parse_dim_token, hv, strnlen, List.length_nil, Nat.zero_min, hd]
  by_cases hb : before = '%'
  · simp [hb, he, mul_zero_of_int]
  · simp [hb, he1]

/-! ### Accuracy of the percentage computation -/

theorem floor_log2_loop_spec :
    ∀ (fuel n : Nat), n ≤ fuel → 1 ≤ n →
      2 ^ floor_log2_loop fuel n ≤ n ∧ n < 2 ^ (floor_log2_loop fuel n + 1) := by
  intro fuel
  induction fuel with
  | zero => intro n h1 h2; omega
  | succ f ih =>
    intro n h1 h2
    simp only [floor_log2_loop]
    by_cases h : 2 ≤ n
    · simp only [h, if_true]
      obtain ⟨a, b⟩ := ih (n / 2) (by omega) (by omega)
      constructor
      · rw [pow_succ]
        omega
      · rw [pow_succ]
        omega
    · simp only [h, if_false]
      constructor <;> omega

theorem floor_log2_spec (n : Nat) (h : 1 ≤ n) :
    2 ^ floor_log2 n ≤ n ∧ n < 2 ^ (floor_log2 n + 1) :=
  floor_log2_loop_spec n n (le_refl _) h

theorem round_half (num den q1 : Nat) (hden : 0 < den)
    (h : q1 = F64.round_half_even num den) :
    |(q1 : ℚ) - (num : ℚ) / (den : ℚ)| ≤ 1 / 2 := by
  unfold F64.round_half_even at h
  have hd : (0 : ℚ) < (den : ℚ) := by exact_mod_cast hden
  have hdiv : (num : ℚ) = (den : ℚ) * ((num / den : Nat) : ℚ) + ((num % den : Nat) : ℚ) := by
    exact_mod_cast (Nat.div_add_mod num den).symm
  have hr : num % den < den := Nat.mod_lt _ hden
  have hrq : ((num % den : Nat) : ℚ) < (den : ℚ) := by exact_mod_cast hr
  have hr0 : (0 : ℚ) ≤ ((num % den : Nat) : ℚ) := by positivity
  rw [abs_le]
  have key : (q1 : ℚ) - (num : ℚ) / (den : ℚ)
      = ((q1 : ℚ) * den - num) / den := by
    field_simp
  rw [key, le_div_iff₀ hd, div_le_iff₀ hd]
  split_ifs at h with hc
  · subst h
    push_cast
    rcases hc with hc | ⟨hc, _⟩
    · have hcq : (den : ℚ) < 2 * ((num % den : Nat) : ℚ) := by exact_mod_cast hc
      constructor <;> nlinarith
    · have hcq : 2 * ((num % den : Nat) : ℚ) = (den : ℚ) := by exact_mod_cast hc
      constructor <;> nlinarith
  · subst h
    have hc' : 2 * (num % den) ≤ den := by
      by_contra hcon
      exact hc (Or.inl (by omega))
    have hcq : 2 * ((num % den : Nat) : ℚ) ≤ (den : ℚ) := by exact_mod_cast hc'
    constructor <;> nlinarith

theorem scaled_den_pos (n d : Nat) (s : Int) (hd : 1 ≤ d) : 0 < (F64.scaled n d s).2 := by
  unfold F64.scaled
  split
  · exact hd
  · exact Nat.mul_pos hd (by positivity)

theorem scaled_ratio (n d : Nat) (s : Int) (hd : 1 ≤ d) :
    ((F64.scaled n d s).1 : ℚ) / ((F64.scaled n d s).2 : ℚ)
      = (n : ℚ) / (d : ℚ) * (2 : ℚ) ^ s := by
  have hdq : (d : ℚ) ≠ 0 := by
    have : (0 : ℚ) < (d : ℚ) := by exact_mod_cast hd
    exact ne_of_gt this
  unfold F64.scaled
  split
  · rename_i h
    have hs : s = (s.toNat : Int) := (Int.toNat_of_nonneg h).symm
    simp only [Nat.cast_mul, Nat.cast_pow, Nat.cast_ofNat]
    conv_rhs => rw [hs, zpow_natCast]
    field_simp
  · rename_i h
    have hs : s = -((-s).toNat : Int) := by
      rw [Int.toNat_of_nonneg (by omega)]
      omega
    simp only [Nat.cast_mul, Nat.cast_pow, Nat.cast_ofNat]
    conv_rhs => rw [hs, zpow_neg, zpow_natCast]
    field_simp

theorem round_scale_ge (n d : Nat) :
    52 - ((floor_log2 n : Int) - (floor_log2 d : Int)) ≤ F64.round_scale n d := by
  unfold F64.round_scale
  simp only
  split <;> omega

theorem round_pos_error (n d : Nat) (hn : 1 ≤ n) (hd : 1 ≤ d) :
    |dyadic (F64.round_pos n d).1 (F64.round_pos n d).2 - (n : ℚ) / (d : ℚ)|
      ≤ (n : ℚ) / (d : ℚ) * (2 : ℚ) ^ (-52 : Int) := by
  have hnq : (0 : ℚ) < (n : ℚ) := by exact_mod_cast hn
  have hdq : (0 : ℚ) < (d : ℚ) := by exact_mod_cast hd
  set s := F64.round_scale n d with hs
  have hhalf := round_half (F64.scaled n d s).1 (F64.scaled n d s).2
    (F64.round_half_even (F64.scaled n d s).1 (F64.scaled n d s).2)
    (scaled_den_pos n d s hd) rfl
  rw [scaled_ratio n d s hd] at hhalf
  have h2s : (0 : ℚ) < (2 : ℚ) ^ s := by positivity
  have h2ns : (0 : ℚ) < (2 : ℚ) ^ (-s) := by positivity
  have hval : dyadic (F64.round_pos n d).1 (F64.round_pos n d).2 - (n : ℚ) / (d : ℚ)
      = ((F64.round_half_even (F64.scaled n d s).1 (F64.scaled n d s).2 : ℚ)
          - (n : ℚ) / (d : ℚ) * (2 : ℚ) ^ s) * (2 : ℚ) ^ (-s) := by
    simp only [dyadic, F64.round_pos, ← hs, Int.cast_natCast]
    rw [sub_mul, mul_assoc, ← zpow_add₀ (by norm_num : (2 : ℚ) ≠ 0)]
    simp
  rw [hval, abs_mul, abs_of_pos h2ns]
  have hsge := round_scale_ge n d
  rw [← hs] at hsge
  obtain ⟨hn1, _⟩ := floor_log2_spec n hn
  obtain ⟨_, hd2⟩ := floor_log2_spec d hd
  have hn1q : (2 : ℚ) ^ (floor_log2 n) ≤ (n : ℚ) := by exact_mod_cast hn1
  have hd2q : (d : ℚ) < (2 : ℚ) ^ (floor_log2 d + 1) := by exact_mod_cast hd2
  -- 2 ^ (-s) ≤ 2 ^ (lN - lD - 52)
  have hpow : (2 : ℚ) ^ (-s) ≤ (2 : ℚ) ^ ((floor_log2 n : Int) - (floor_log2 d : Int) - 52) :=
    zpow_le_zpow_right₀ (by norm_num) (by omega)
  have hsplit : (2 : ℚ) ^ ((floor_log2 n : Int) - (floor_log2 d : Int) - 52)
      = (2 : ℚ) ^ (floor_log2 n) / (2 : ℚ) ^ (floor_log2 d) * (2 : ℚ) ^ (-52 : Int) := by
    rw [zpow_sub₀ (by norm_num : (2 : ℚ) ≠ 0), zpow_sub₀ (by norm_num : (2 : ℚ) ≠ 0),
      zpow_natCast, zpow_natCast, zpow_neg]
    rfl
  have hld : (0 : ℚ) < (2 : ℚ) ^ (floor_log2 d) := by positivity
  have hratio : (2 : ℚ) ^ (floor_log2 n) / (2 : ℚ) ^ (floor_log2 d) ≤ 2 * ((n : ℚ) / (d : ℚ)) := by
    rw [div_le_iff₀ hld]
    have h1 : 2 * ((n : ℚ) / (d : ℚ)) * (2 : ℚ) ^ (floor_log2 d)
        = (n : ℚ) * ((2 : ℚ) ^ (floor_log2 d + 1) / (d : ℚ)) := by
      rw [pow_succ]
      field_simp
      ring
    rw [h1]
    have h2 : (1 : ℚ) ≤ (2 : ℚ) ^ (floor_log2 d + 1) / (d : ℚ) := by
      rw [le_div_iff₀ hdq]
      linarith
    nlinarith
  have h52 : (0 : ℚ) < (2 : ℚ) ^ (-52 : Int) := by positivity
  calc |(F64.round_half_even (F64.scaled n d s).1 (F64.scaled n d s).2 : ℚ)
          - (n : ℚ) / (d : ℚ) * (2 : ℚ) ^ s| * (2 : ℚ) ^ (-s)
      ≤ 1 / 2 * (2 : ℚ) ^ (-s) := mul_le_mul_of_nonneg_right hhalf (le_of_lt h2ns)
    _ ≤ 1 / 2 * ((2 : ℚ) ^ (floor_log2 n) / (2 : ℚ) ^ (floor_log2 d) * (2 : ℚ) ^ (-52 : Int)) := by
        rw [← hsplit]
        exact mul_le_mul_of_nonneg_left hpow (by norm_num)
    _ ≤ 1 / 2 * (2 * ((n : ℚ) / (d : ℚ)) * (2 : ℚ) ^ (-52 : Int)) :=
        mul_le_mul_of_nonneg_left (mul_le_mul_of_nonneg_right hratio (le_of_lt h52))
          (by norm_num)
    _ = (n : ℚ) / (d : ℚ) * (2 : ℚ) ^ (-52 : Int) := by ring

theorem round_half_even_one (num : Nat) : F64.round_half_even num 1 = num := by
  simp [F64.round_half_even, Nat.mod_one]

theorem of_int_exact (n : Nat) (h : n < 2 ^ 53) :
    ∃ m e, F64.of_int (n : Int) = F64.fin m e ∧ 0 ≤ m ∧ dyadic m e = (n : ℚ) := by
  have h0 : decide ((n : Int) < 0) = false := by simp
  by_cases hn : n = 0
  · subst hn
    exact ⟨0, 0, by decide, le_refl _, by simp [dyadic]⟩
  · have hn1 : 1 ≤ n := Nat.one_le_iff_ne_zero.mpr hn
    obtain ⟨hl, _⟩ := floor_log2_spec n hn1
    have hlog : floor_log2 n < 53 := by
      by_contra hc
      have : 2 ^ 53 ≤ 2 ^ floor_log2 n := Nat.pow_le_pow_right (by norm_num) (by omega)
      omega
    have hl1 : floor_log2 1 = 0 := by decide
    have hs := F64.round_scale n 1 |> fun s => round_scale_ge n 1
    rw [hl1] at hs
    have hs0 : 0 ≤ F64.round_scale n 1 := by
      have : (floor_log2 n : Int) < 53 := by exact_mod_cast hlog
      simp only [Nat.cast_zero, sub_zero] at hs
      omega
    have hsc : F64.scaled n 1 (F64.round_scale n 1)
        = (n * 2 ^ (F64.round_scale n 1).toNat, 1) := by
      simp [F64.scaled, hs0]
    refine ⟨((n * 2 ^ (F64.round_scale n 1).toNat : Nat) : Int), -F64.round_scale n 1, ?_,
      Int.natCast_nonneg _, ?_⟩
    · simp only [F64.of_int, h0, F64.of_ratio, Int.natAbs_ofNat, hn, if_false,
        F64.round_pos, hsc, round_half_even_one]
      rfl
    · simp only [dyadic]
      push_cast
      rw [mul_assoc]
      have : ((2 : ℚ) ^ (F64.round_scale n 1).toNat) * (2 : ℚ) ^ (-F64.round_scale n 1) = 1 := by
        rw [← zpow_natCast, Int.toNat_of_nonneg hs0, ← zpow_add₀ (by norm_num : (2 : ℚ) ≠ 0)]
        simp
      rw [this, mul_one]

theorem ratio_scaled (m1 m2 : Nat) (e1 e2 : Int) (h2 : 0 < m2) :
    ((m1 * 2 ^ (e1 - e2).toNat : Nat) : ℚ) / ((m2 * 2 ^ (e2 - e1).toNat : Nat) : ℚ)
      = dyadic m1 e1 / dyadic m2 e2 := by
  have hm2 : (m2 : ℚ) ≠ 0 := by
    have : (0 : ℚ) < (m2 : ℚ) := by exact_mod_cast h2
    exact ne_of_gt this
  have h2e : ∀ e : Int, (2 : ℚ) ^ e ≠ 0 := fun e => zpow_ne_zero e (by norm_num)
  simp only [dyadic, Int.cast_natCast, Nat.cast_mul, Nat.cast_pow, Nat.cast_ofNat]
  rcases le_total e2 e1 with h | h
  · have ha : ((e1 - e2).toNat : Int) = e1 - e2 := Int.toNat_of_nonneg (by omega)
    have hb : (e2 - e1).toNat = 0 := Int.toNat_eq_zero.mpr (by omega)
    rw [hb, pow_zero, mul_one, ← zpow_natCast, ha, zpow_sub₀ (by norm_num : (2 : ℚ) ≠ 0)]
    field_simp
    left
    ring
  · have ha : ((e2 - e1).toNat : Int) = e2 - e1 := Int.toNat_of_nonneg (by omega)
    have hb : (e1 - e2).toNat = 0 := Int.toNat_eq_zero.mpr (by omega)
    rw [hb, pow_zero, mul_one, ← zpow_natCast (2 : ℚ) (e2 - e1).toNat, ha,
      zpow_sub₀ (by norm_num : (2 : ℚ) ≠ 0)]
    field_simp

theorem dyadic_nonneg (m e : Int) (h : 0 ≤ m) : 0 ≤ dyadic m e := by
  unfold dyadic
  have : (0 : ℚ) ≤ (m : ℚ) := by exact_mod_cast h
  positivity

theorem dyadic_pos (m e : Int) (h : 0 < m) : 0 < dyadic m e := by
  unfold dyadic
  have : (0 : ℚ) < (m : ℚ) := by exact_mod_cast h
  positivity

theorem div_spec (m1 m2 e1 e2 : Int) (h1 : 0 < m1) (h2 : 0 < m2) :
    ∃ q e, F64.div (F64.fin m1 e1) (F64.fin m2 e2) = F64.fin q e ∧ 0 ≤ q ∧
      |dyadic q e - dyadic m1 e1 / dyadic m2 e2|
        ≤ dyadic m1 e1 / dyadic m2 e2 * (2 : ℚ) ^ (-52 : Int) := by
  have hm2 : m2 ≠ 0 := ne_of_gt h2
  have hd1 : decide (m1 < 0) = false := by simp; omega
  have hd2 : decide (m2 < 0) = false := by simp; omega
  have hN : 1 ≤ m1.natAbs * 2 ^ (e1 - e2).toNat :=
    Nat.mul_pos (by omega) (by positivity)
  have hD : 1 ≤ m2.natAbs * 2 ^ (e2 - e1).toNat :=
    Nat.mul_pos (by omega) (by positivity)
  have hne : m1.natAbs * 2 ^ (e1 - e2).toNat ≠ 0 := by omega
  have herr := round_pos_error _ _ hN hD
  have hr := ratio_scaled m1.natAbs m2.natAbs e1 e2 (by omega)
  have ha1 : ((m1.natAbs : Nat) : Int) = m1 := Int.natAbs_of_nonneg (le_of_lt h1)
  have ha2 : ((m2.natAbs : Nat) : Int) = m2 := Int.natAbs_of_nonneg (le_of_lt h2)
  rw [ha1, ha2] at hr
  rw [hr] at herr
  refine ⟨_, _, ?_, Int.natCast_nonneg _, herr⟩
  simp only [F64.div, hm2, if_false, hd1, hd2, bne_self_eq_false, F64.of_ratio, hne]
  rfl

theorem mul_spec (m1 m2 e1 e2 : Int) (h1 : 0 ≤ m1) (h2 : 0 ≤ m2) :
    ∃ q e, F64.mul (F64.fin m1 e1) (F64.fin m2 e2) = F64.fin q e ∧ 0 ≤ q ∧
      |dyadic q e - dyadic m1 e1 * dyadic m2 e2|
        ≤ dyadic m1 e1 * dyadic m2 e2 * (2 : ℚ) ^ (-52 : Int) := by
  have hd1 : decide (m1 < 0) = false := by simp; omega
  have hd2 : decide (m2 < 0) = false := by simp; omega
  have ha1 : ((m1.natAbs : Nat) : ℚ) = (m1 : ℚ) := by
    have : ((m1.natAbs : Nat) : Int) = m1 := Int.natAbs_of_nonneg h1
    rw [← Int.cast_natCast, this]
  have ha2 : ((m2.natAbs : Nat) : ℚ) = (m2 : ℚ) := by
    have : ((m2.natAbs : Nat) : Int) = m2 := Int.natAbs_of_nonneg h2
    rw [← Int.cast_natCast, this]
  have h2e : ∀ e : Int, (0 : ℚ) < (2 : ℚ) ^ e := fun e => by positivity
  by_cases hz : m1.natAbs * m2.natAbs = 0
  · refine ⟨0, 0 + e1 + e2, ?_, le_refl _, ?_⟩
    · simp [F64.mul, hd1, hd2, F64.of_ratio, hz]
    · have hprod : dyadic m1 e1 * dyadic m2 e2 = 0 := by
        have : ((m1.natAbs * m2.natAbs : Nat) : ℚ) = 0 := by exact_mod_cast hz
        rw [Nat.cast_mul, ha1, ha2] at this
        simp only [dyadic]
        rw [mul_mul_mul_comm, this, zero_mul]
      rw [hprod]
      simp [dyadic]
  · have hN : 1 ≤ m1.natAbs * m2.natAbs := Nat.one_le_iff_ne_zero.mpr hz
    have herr := round_pos_error _ 1 hN (le_refl 1)
    refine ⟨((F64.round_pos (m1.natAbs * m2.natAbs) 1).1 : Int),
      (F64.round_pos (m1.natAbs * m2.natAbs) 1).2 + e1 + e2, ?_, Int.natCast_nonneg _, ?_⟩
    · simp [F64.mul, hd1, hd2, F64.of_ratio, hz]
    · have hsc : (0 : ℚ) < (2 : ℚ) ^ (e1 + e2) := h2e _
      have hprod : dyadic m1 e1 * dyadic m2 e2
          = ((m1.natAbs * m2.natAbs : Nat) : ℚ) / ((1 : Nat) : ℚ) * (2 : ℚ) ^ (e1 + e2) := by
        simp only [dyadic, Nat.cast_mul, ha1, ha2, Nat.cast_one, div_one]
        rw [zpow_add₀ (by norm_num : (2 : ℚ) ≠ 0)]
        ring
      have hres : dyadic ((F64.round_pos (m1.natAbs * m2.natAbs) 1).1 : Int)
            ((F64.round_pos (m1.natAbs * m2.natAbs) 1).2 + e1 + e2)
          = dyadic ((F64.round_pos (m1.natAbs * m2.natAbs) 1).1 : Int)
              (F64.round_pos (m1.natAbs * m2.natAbs) 1).2 * (2 : ℚ) ^ (e1 + e2) := by
        simp only [dyadic]
        rw [add_assoc, zpow_add₀ (by norm_num : (2 : ℚ) ≠ 0)]
        ring
      rw [hres, hprod, ← sub_mul, abs_mul, abs_of_pos hsc]
      calc _ ≤ ((m1.natAbs * m2.natAbs : Nat) : ℚ) / ((1 : Nat) : ℚ) * (2 : ℚ) ^ (-52 : Int)
              * (2 : ℚ) ^ (e1 + e2) := mul_le_mul_of_nonneg_right herr (le_of_lt hsc)
        _ = _ := by ring

theorem to_gint_floor (m e : Int) (h : 0 ≤ m) (hlt : dyadic m e < 2 ^ 31) :
    F64.to_gint (F64.fin m e) = (⌊dyadic m e⌋, true) := by
  have htr : F64.trunc m e = ⌊dyadic m e⌋ := by
    unfold F64.trunc dyadic
    split
    · rename_i he
      have : (2 : ℚ) ^ e = (((2 : Int) ^ e.toNat : Int) : ℚ) := by
        conv_lhs => rw [← Int.toNat_of_nonneg he, zpow_natCast]
        push_cast
        rfl
      rw [this, ← Int.cast_mul, Int.floor_intCast]
    · rename_i he
      have : (2 : ℚ) ^ e = ((((2 : Nat) ^ (-e).toNat : Nat) : ℚ))⁻¹ := by
        have he' : e = -(((-e).toNat : Int)) := by
          rw [Int.toNat_of_nonneg (by omega)]
          omega
        conv_lhs => rw [he', zpow_neg, zpow_natCast]
        push_cast
        rfl
      rw [this, ← div_eq_mul_inv, Rat.floor_intCast_div_natCast,
        Int.tdiv_eq_ediv h (by positivity)]
      push_cast
      rfl
  have hfl : ⌊dyadic m e⌋ < 2 ^ 31 := by
    have := Int.floor_le (dyadic m e)
    have h3 : ((⌊dyadic m e⌋ : Int) : ℚ) < ((2 ^ 31 : Int) : ℚ) := by
      push_cast
      exact lt_of_le_of_lt this hlt
    exact_mod_cast h3
  have hge : 0 ≤ ⌊dyadic m e⌋ := Int.floor_nonneg.mpr (dyadic_nonneg m e h)
  simp only [F64.to_gint, htr]
  rw [if_pos ⟨by omega, hfl⟩]

theorem div_zero_hundred : F64.div (F64.of_int 0) (F64.of_int 100) = F64.fin 0 0 := by
  decide

theorem dyadic_hundred : dyadic 7036874417766400 (-46) = 100 := by
  unfold dyadic
  rw [zpow_neg]
  norm_num

/-- The percentage arm of `computed_dim` against the exact value: for a
percentage `W` and a screen dimension `screen`, both below 2^31 and with
`W * screen / 100` below 2^31, the code yields `W * screen / 100` rounded
down, or one less than that when `W * screen` is a multiple of 100. -/
theorem percent_accuracy (W screen : Nat) (hW : W < 2 ^ 31) (hs : screen < 2 ^ 31)
    (hk : W * screen / 100 < 2 ^ 31) :
    computed_dim true (W : Int) (screen : Int) = (((W * screen / 100 : Nat) : Int), true) ∨
      (100 ∣ W * screen ∧
        computed_dim true (W : Int) (screen : Int)
          = (((W * screen / 100 : Nat) : Int) - 1, true)) := by
  simp only [computed_dim, if_true]
  by_cases hW0 : W = 0
  · left
    subst hW0
    simp only [Nat.cast_zero, div_zero_hundred, mul_zero_of_int, zero_mul, Nat.zero_div]
  · have hW1 : 1 ≤ W := Nat.one_le_iff_ne_zero.mpr hW0
    obtain ⟨m1, e1, hof1, hm1, hv1⟩ := of_int_exact W (lt_of_lt_of_le hW (by norm_num))
    obtain ⟨ms, es, hofs, hms, hvs⟩ := of_int_exact screen (lt_of_lt_of_le hs (by norm_num))
    have hWq : (1 : ℚ) ≤ (W : ℚ) := by exact_mod_cast hW1
    have hm1pos : 0 < m1 := by
      rcases lt_or_eq_of_le hm1 with h | h
      · exact h
      · rw [← h] at hv1
        simp [dyadic] at hv1
        linarith
    obtain ⟨q, e, hdiv, hq, herr1⟩ := div_spec m1 7036874417766400 e1 (-46) hm1pos (by norm_num)
    obtain ⟨q2, e2, hmul, hq2, herr2⟩ := mul_spec q ms e es hq hms
    rw [hv1, dyadic_hundred] at herr1
    rw [hvs] at herr2
    rw [hof1, of_int_hundred, hdiv, hofs, hmul]
    -- the numbers involved
    set Z := dyadic q2 e2 with hZ
    set A := dyadic q e with hA
    set k := W * screen / 100 with hkdef
    set r := W * screen % 100 with hrdef
    have hdm : W * screen = 100 * k + r := (Nat.div_add_mod _ _).symm
    have hr : r < 100 := Nat.mod_lt _ (by norm_num)
    have hsq : (0 : ℚ) ≤ (screen : ℚ) := by positivity
    have hkq : (k : ℚ) + 1 ≤ 2 ^ 31 := by exact_mod_cast hk
    have hX : (W : ℚ) * (screen : ℚ) = 100 * (k : ℚ) + (r : ℚ) := by exact_mod_cast hdm
    have hrq : (r : ℚ) < 100 := by exact_mod_cast hr
    have hr0 : (0 : ℚ) ≤ (r : ℚ) := by positivity
    have hk0 : (0 : ℚ) ≤ (k : ℚ) := by positivity
    have heps : (2 : ℚ) ^ (-52 : Int) = 1 / 4503599627370496 := by
      rw [zpow_neg]
      norm_num
    rw [heps] at herr1 herr2
    rw [abs_le] at herr1 herr2
    obtain ⟨l1, u1⟩ := herr1
    obtain ⟨l2, u2⟩ := herr2
    have hA0 : 0 ≤ A := dyadic_nonneg q e hq
    -- bounds on A * screen
    have hAs_hi : A * screen ≤ (W : ℚ) / 100 * screen * (1 + 1 / 4503599627370496) := by
      have : A ≤ (W : ℚ) / 100 * (1 + 1 / 4503599627370496) := by linarith
      calc A * screen ≤ (W : ℚ) / 100 * (1 + 1 / 4503599627370496) * screen :=
            mul_le_mul_of_nonneg_right this hsq
        _ = _ := by ring
    have hAs_lo : (W : ℚ) / 100 * screen * (1 - 1 / 4503599627370496) ≤ A * screen := by
      have : (W : ℚ) / 100 * (1 - 1 / 4503599627370496) ≤ A := by linarith
      calc (W : ℚ) / 100 * screen * (1 - 1 / 4503599627370496)
          = (W : ℚ) / 100 * (1 - 1 / 4503599627370496) * screen := by ring
        _ ≤ A * screen := mul_le_mul_of_nonneg_right this hsq
    have hXv : (W : ℚ) / 100 * screen = (k : ℚ) + (r : ℚ) / 100 := by
      rw [div_mul_eq_mul_div, hX]
      ring
    rw [hXv] at hAs_hi hAs_lo
    have hXlt : (k : ℚ) + (r : ℚ) / 100 < 2 ^ 31 := by linarith
    have hAs0 : 0 ≤ A * screen := mul_nonneg hA0 hsq
    have hZhi : Z ≤ (k : ℚ) + (r : ℚ) / 100 + 1 / 200 := by nlinarith
    have hZlo : (k : ℚ) + (r : ℚ) / 100 - 1 / 200 ≤ Z := by nlinarith
    have hZlt : Z < 2 ^ 31 := by
      by_cases hr1 : r = 0
      · rw [hr1] at hZhi
        simp only [Nat.cast_zero, zero_div, add_zero] at hZhi
        linarith
      · have : (1 : ℚ) ≤ (r : ℚ) := by exact_mod_cast Nat.one_le_iff_ne_zero.mpr hr1
        have : (r : ℚ) ≤ 99 := by exact_mod_cast (by omega : r ≤ 99)
        linarith
    rw [to_gint_floor q2 e2 hq2 hZlt]
    by_cases hr1 : r = 0
    · rw [hr1] at hZhi hZlo
      simp only [Nat.cast_zero, zero_div, add_zero] at hZhi hZlo
      by_cases hge : (k : ℚ) ≤ Z
      · left
        have : ⌊Z⌋ = (k : Int) := by
          rw [Int.floor_eq_iff]
          constructor
          · exact_mod_cast hge
          · push_cast
            linarith
        rw [this]
      · right
        refine ⟨Nat.dvd_of_mod_eq_zero hr1, ?_⟩
        have : ⌊Z⌋ = (k : Int) - 1 := by
          rw [Int.floor_eq_iff]
          push_cast
          constructor
          · linarith
          · linarith
        rw [this]
    · left
      have h1 : (1 : ℚ) ≤ (r : ℚ) := by exact_mod_cast Nat.one_le_iff_ne_zero.mpr hr1
      have h99 : (r : ℚ) ≤ 99 := by exact_mod_cast (by omega : r ≤ 99)
      have : ⌊Z⌋ = (k : Int) := by
        rw [Int.floor_eq_iff]
        push_cast
        constructor
        · linarith
        · linarith
      rw [this]

theorem token_no_x (p : Bool) (t : List Char) (ht : is_decimal t) :
    ∀ c ∈ t ++ percent_suffix p, c ≠ 'x' := by
  intro c hc
  rcases List.mem_append.mp hc with h | h
  · exact (digit_not_special c (ht.2.1 c h)).2.2.2.1
  · cases p
    · simp [percent_suffix] at h
    · simp only [percent_suffix, if_true, List.mem_singleton] at h
      subst h
      decide

set_option maxRecDepth 100000 in
/-- C8 (counterexample): "29%x29%" on a 100 by 100 screen gives 28 by 28,
whereas 29 percent of 100, rounded toward zero, is 29. -/
theorem parse_dim_string_percent_counterexample :
    parse_dim_string ' ' 100 100 "29%x29%".toList = { width := 28, height := 28, defined := true } ∧
      claimed_dim true 29 100 = 29 ∧
      (parse_dim_string ' ' 100 100 "29%x29%".toList).width ≠ claimed_dim true 29 100 := by
  decide

/-- C8 (amended): for `W` and `H` written in decimal without sign or leading
zero and below 2^31, each followed or not by '%', `parse_dim_string` on
"<W>[%]x<H>[%]" yields, for each token, the dimension `computed_dim` gives for
it, the height then being replaced by the screen height when it is zero next
to a non-zero width, whatever byte sits before the tokens in memory. For a
bare number `computed_dim` is the number itself. For a number followed by '%'
it is the `gint` conversion of the binary64 product `(number / 100.0) * screen
dimension`: when the screen dimension is in [0, 2^31) and the percentage of it
is below 2^31, that is the percentage of the screen dimension rounded down, or
one less when `number * screen dimension` is a multiple of 100. -/
theorem parse_dim_string_decimal (before : Char) (screen_width screen_height : Int)
    (pw ph : Bool) (tw th : List Char) (hw : is_decimal tw) (hh : is_decimal th)
    (hvw : decimal_value tw < 2 ^ 31) (hvh : decimal_value th < 2 ^ 31) :
    parse_dim_string before screen_width screen_height
        (tw ++ percent_suffix pw ++ 'x' :: (th ++ percent_suffix ph))
      = { width := (computed_dim pw (decimal_value tw) screen_width).1
          height :=
            if (computed_dim pw (decimal_value tw) screen_width).1 ≠ 0 ∧
                (computed_dim ph (decimal_value th) screen_height).1 = 0
            then screen_height
            else (computed_dim ph (decimal_value th) screen_height).1
          defined := (computed_dim pw (decimal_value tw) screen_width).2 &&
            (computed_dim ph (decimal_value th) screen_height).2 } ∧
      (∀ (number : Nat) (screen : Int),
        computed_dim false (number : Int) screen = ((number : Int), true)) ∧
      (∀ number screen : Nat, number < 2 ^ 31 → screen < 2 ^ 31 →
        number * screen / 100 < 2 ^ 31 →
        computed_dim true (number : Int) (screen : Int)
            = (((number * screen / 100 : Nat) : Int), true) ∨
          (100 ∣ number * screen ∧
            computed_dim true (number : Int) (screen : Int)
              = (((number * screen / 100 : Nat) : Int) - 1, true))) := by
  refine ⟨?_, fun _ _ => rfl, percent_accuracy⟩
  simp only [parse_dim_string, parse_dim_tokens, g_strsplit_two _ _ (token_no_x pw tw hw),
    List.get?_cons_zero, List.get?_cons_succ, parse_dim_token_decimal _ _ _ _ hw hvw,
    parse_dim_token_decimal _ _ _ _ hh hvh]

set_option maxRecDepth 100000 in
theorem parse_dim_string_decimal_witness :
    (is_decimal "50".toList ∧ is_decimal "50".toList ∧ decimal_value "50".toList < 2 ^ 31 ∧
      decimal_value "50".toList < 2 ^ 31) ∧
    parse_dim_string ' ' 1920 1080 "50%x50%".toList
      = { width := 960, height := 540, defined := true } :=
  ⟨⟨by simp [is_decimal], by simp [is_decimal], by decide, by decide⟩,
    (parse_dim_string_decimal ' ' 1920 1080 true true "50".toList "50".toList
      (by simp [is_decimal]) (by simp [is_decimal]) (by decide) (by decide)).1.trans
        (by decide)⟩

/-- C9: whatever the string, the screen size and the byte before an empty
token, `parse_dim_string` returns as width the width left by the loop, and as
height the screen height when that width is non-zero and the height left by
the loop is zero, the height left by the loop otherwise. An empty token
evaluates to zero; "800x" (empty height token), "800" (no height token) and
"800x0" (zero height token) all give 800 by the screen height. -/
theorem parse_dim_string_height_default (before : Char) (screen_width screen_height : Int)
    (s : List Char) :
    (parse_dim_string before screen_width screen_height s).width
        = (parse_dim_tokens before screen_width screen_height s).1.1 ∧
      (parse_dim_string before screen_width screen_height s).height
        = (if (parse_dim_tokens before screen_width screen_height s).1.1 ≠ 0 ∧
              (parse_dim_tokens before screen_width screen_height s).2.1 = 0
            then screen_height
            else (parse_dim_tokens before screen_width screen_height s).2.1) ∧
      (parse_dim_token before screen_height []).1 = 0 ∧
      ((parse_dim_string before screen_width screen_height "800x".toList).width = 800 ∧
        (parse_dim_string before screen_width screen_height "800x".toList).height
          = screen_height) ∧
      ((parse_dim_string before screen_width screen_height "800".toList).width = 800 ∧
        (parse_dim_string before screen_width screen_height "800".toList).height
          = screen_height) ∧
      ((parse_dim_string before screen_width screen_height "800x0".toList).width = 800 ∧
        (parse_dim_string before screen_width screen_height "800x0".toList).height
          = screen_height) := by
  have h800 : ∀ screen, parse_dim_token before screen "800".toList = (800, true) := by
    intro screen
    have h := parse_dim_token_decimal before screen false "800".toList
      (by simp [is_decimal]) (by decide)
    simpa [percent_suffix, computed_dim, decimal_value] using h
  have h0 : ∀ screen, parse_dim_token before screen "0".toList = (0, true) := by
    intro screen
    have h := parse_dim_token_decimal before screen false "0".toList
      (by simp [is_decimal]) (by decide)
    simpa [percent_suffix, computed_dim, decimal_value] using h
  have s1 : g_strsplit "800x".toList 'x' 2 = ["800".toList, []] := by decide
  have s2 : g_strsplit "800".toList 'x' 2 = ["800".toList] := by decide
  have s3 : g_strsplit "800x0".toList 'x' 2 = ["800".toList, "0".toList] := by decide
  refine ⟨rfl, rfl, by rw [parse_dim_token_nil], ?_, ?_, ?_⟩
  · simp only [parse_dim_string, parse_dim_tokens, s1, List.get?_cons_zero,
      List.get?_cons_succ, h800, parse_dim_token_nil]
    simp
  · simp only [parse_dim_string, parse_dim_tokens, s2, List.get?_cons_zero,
      List.get?_cons_succ, List.get?_nil, h800]
    simp
  · simp only [parse_dim_string, parse_dim_tokens, s3, List.get?_cons_zero,
      List.get?_cons_succ, h800, h0]
    simp

/-- C10 (evaluation at the failing input): on "800x" the second token is
empty, so the read of its last character, at index `strnlen(token, 256) - 1`,
falls outside the token: the run has a step without a defined result,
whatever the screen size and the byte found there. The same holds for
"x480". -/
theorem parse_dim_string_empty_token_read (before : Char) (screen_width screen_height : Int) :
    (parse_dim_string before screen_width screen_height "800x".toList).defined = false ∧
      (parse_dim_string before screen_width screen_height "x480".toList).defined = false := by
  have s1 : g_strsplit "800x".toList 'x' 2 = ["800".toList, []] := by decide
  have s2 : g_strsplit "x480".toList 'x' 2 = [[], "480".toList] := by decide
  constructor
  · simp only [parse_dim_string, parse_dim_tokens, s1, List.get?_cons_zero,
      List.get?_cons_succ, parse_dim_token_nil]
    simp
  · simp only [parse_dim_string, parse_dim_tokens, s2, List.get?_cons_zero,
      List.get?_cons_succ, parse_dim_token_nil]
    simp

/-! ## The playback state machine -/

theorem state_kept_refl (s : PlaybackState) : state_kept s s :=
  ⟨rfl, Or.inl rfl⟩

theorem state_kept_trans {s s1 s2 : PlaybackState} (h1 : state_kept s s1)
    (h2 : state_kept s1 s2) : state_kept s s2 := by
  obtain ⟨a1, b1⟩ := h1
  obtain ⟨a2, b2⟩ := h2
  refine ⟨a2.trans a1, ?_⟩
  rcases b2 with h | h
  · rcases b1 with h' | h'
    · exact Or.inl (h.trans h')
    · exact Or.inr (h.trans h')
  · exact Or.inr h

theorem state_kept_inv {s s1 : PlaybackState} (h : state_kept s s1)
    (hinv : ¬(s.loaded = true ∧ s.init_load = true)) :
    ¬(s1.loaded = true ∧ s1.init_load = true) := by
  obtain ⟨a, b⟩ := h
  rintro ⟨hl, hi⟩
  rcases b with h | h
  · exact hinv ⟨h ▸ hl, a ▸ hi⟩
  · rw [h] at hl
    exact absurd hl (by simp)

theorem call_state (app : App) (c : Call) : (app.call c).state = app.state := rfl

theorem call_playlist (app : App) (c : Call) : (app.call c).playlist = app.playlist := rfl

theorem load_gui_update_state (app app1 : App) (engine : Engine)
    (h : mpv_obj_load_gui_update app engine = some app1) :
    app1.state = app.state ∧ app1.playlist = app.playlist := by
  unfold mpv_obj_load_gui_update at h
  split at h
  · exact absurd h (by simp)
  · simp only [Option.some.injEq] at h
    subst h
    exact ⟨rfl, rfl⟩

theorem load_uri_kept (x : Helpers) (app : App) (uri : String) (append update : Bool) :
    state_kept app.state (mpv_obj_load_uri x app uri append update).state := by
  unfold mpv_obj_load_uri state_kept
  by_cases ha : append = true <;> simp [ha]

theorem load_uri_playlist (x : Helpers) (app : App) (uri : String) (append : Bool) :
    (mpv_obj_load_uri x app uri append false).playlist = app.playlist := by
  simp [mpv_obj_load_uri]

theorem load_rows_kept (x : Helpers) :
    ∀ (rows : List Row) (append : Bool) (app : App),
      state_kept app.state (mpv_obj_load_rows x rows append app).state ∧
        (mpv_obj_load_rows x rows append app).playlist = app.playlist := by
  intro rows
  induction rows with
  | nil => intro append app; exact ⟨state_kept_refl _, rfl⟩
  | cons r rs ih =>
    intro append app
    simp only [mpv_obj_load_rows]
    obtain ⟨h1, h2⟩ := ih true (mpv_obj_load_uri x app r.uri append false)
    exact ⟨state_kept_trans (load_uri_kept x app r.uri append false) h1,
      h2.trans (load_uri_playlist x app r.uri append)⟩

theorem pause_inhibit_state (app : App) :
    (pause_inhibit app).state = app.state ∧ (pause_inhibit app).playlist = app.playlist := by
  unfold pause_inhibit
  split
  · exact ⟨rfl, rfl⟩
  · split <;> exact ⟨rfl, rfl⟩

theorem pause_change_kept (x : Helpers) (app app1 : App) (data : Option PropData)
    (engine : Engine) (h : handle_pause_change x app data engine = some app1) :
    state_kept app.state app1.state ∧ app1.playlist = app.playlist := by
  simp only [handle_pause_change] at h
  obtain ⟨hs, hp⟩ := load_gui_update_state _ _ _ h
  rw [hs, hp, (pause_inhibit_state _).1, (pause_inhibit_state _).2]
  generalize decide (data_flag data 1 ≠ 0) = p
  split
  · obtain ⟨h1, h2⟩ := load_rows_kept x app.playlist false
      { app with state := { app.state with paused := p } }
    exact ⟨state_kept_trans ⟨rfl, Or.inl rfl⟩ h1, h2⟩
  · exact ⟨⟨rfl, Or.inl rfl⟩, rfl⟩

theorem property_change_kept (x : Helpers) (app app1 : App) (prop : mpv_event_property)
    (engine : Engine) (h : handle_property_change_event x app prop engine = some app1) :
    state_kept app.state app1.state ∧ app1.playlist = app.playlist := by
  unfold handle_property_change_event at h
  by_cases hp : prop.name = "pause"
  · rw [if_pos hp] at h
    exact pause_change_kept x app app1 prop.data engine h
  · rw [if_neg hp] at h
    split_ifs at h <;>
    · simp only [Option.some.injEq] at h
      subst h
      first
        | exact ⟨state_kept_refl _, rfl⟩
        | exact ⟨⟨rfl, Or.inr rfl⟩, rfl⟩

theorem handle_one_event_inv (x : Helpers) (app app1 : App) (event : mpv_event)
    (engine : Engine) (h : handle_one_event x app event engine = some app1)
    (hinv : ¬(app.state.loaded = true ∧ app.state.init_load = true)) :
    ¬(app1.state.loaded = true ∧ app1.state.init_load = true) := by
  cases event with
  | property_change prop =>
    simp only [handle_one_event] at h
    split at h
    · exact absurd h (by simp)
    · rename_i app2 h2
      simp only [Option.some.injEq] at h
      subst h
      exact state_kept_inv (property_change_kept x app app2 prop engine h2).1 hinv
  | idle =>
    simp only [handle_one_event, Option.some.injEq] at h
    subst h
    simp
  | file_loaded =>
    simp only [handle_one_event] at h
    split at h
    · exact absurd h (by simp)
    · rw [(load_gui_update_state _ _ _ h).1]
      simp
  | end_file reason error =>
    simp only [handle_one_event] at h
    split at h <;>
    · simp only [Option.some.injEq] at h
      subst h
      simp
  | video_reconfig =>
    simp only [handle_one_event] at h
    split at h <;>
    · simp only [Option.some.injEq] at h
      subst h
      exact hinv
  | playback_restart =>
    simp only [handle_one_event] at h
    split at h
    · exact absurd h (by simp)
    · rename_i app2 h2
      simp only [Option.some.injEq] at h
      subst h
      rw [call_state, (load_gui_update_state _ _ _ h2).1]
      exact hinv
  | log_message message =>
    simp only [handle_one_event, Option.some.injEq] at h
    subst h
    exact hinv
  | shutdown =>
    simp only [handle_one_event, Option.some.injEq] at h
    subst h
    exact hinv
  | other k =>
    simp only [handle_one_event, Option.some.injEq] at h
    subst h
    exact hinv

/-! ## The event loop -/

theorem quiet_refl (app : App) : quiet app app :=
  ⟨[], by simp, rfl⟩

theorem quiet_trans {a b c : App} (h1 : quiet a b) (h2 : quiet b c) : quiet a c := by
  obtain ⟨c1, e1, s1⟩ := h1
  obtain ⟨c2, e2, s2⟩ := h2
  refine ⟨c1 ++ c2, by rw [e2, e1, List.append_assoc], ?_⟩
  simp [mpv_event_signals, List.filterMap_append] at s1 s2 ⊢
  exact ⟨s1, s2⟩

theorem quiet_of_out {a b : App} (cs : List Call) (h : b.out = a.out ++ cs)
    (hs : ∀ c ∈ cs, c.mpv_event_id = none) : quiet a b :=
  ⟨cs, h, by simpa [mpv_event_signals, List.filterMap_eq_nil_iff] using hs⟩

theorem quiet_signals {a b : App} (h : quiet a b) :
    mpv_event_signals b.out = mpv_event_signals a.out := by
  obtain ⟨cs, e, s⟩ := h
  rw [e]
  simp [mpv_event_signals, List.filterMap_append] at s ⊢
  exact s

theorem load_uri_quiet (x : Helpers) (app : App) (uri : String) (append update : Bool) :
    quiet app (mpv_obj_load_uri x app uri append update) := by
  refine quiet_of_out (load_uri_calls x app uri append update) rfl ?_
  intro c hc
  unfold load_uri_calls at hc
  simp only [List.mem_append, List.mem_cons, List.mem_singleton, List.not_mem_nil,
    or_false] at hc
  rcases hc with (h | h) | h
  · split at h
    · simp only [List.mem_singleton] at h
      subst h
      rfl
    · simp at h
  · split at h
    · simp only [List.mem_singleton] at h
      subst h
      rfl
    · simp at h
  · rcases h with h | h | h | h <;> subst h <;> rfl

theorem load_rows_quiet (x : Helpers) :
    ∀ (rows : List Row) (append : Bool) (app : App),
      quiet app (mpv_obj_load_rows x rows append app) := by
  intro rows
  induction rows with
  | nil => intro append app; exact quiet_refl _
  | cons r rs ih =>
    intro append app
    exact quiet_trans (load_uri_quiet x app r.uri append false) (ih true _)

theorem call_quiet (app : App) (c : Call) (h : c.mpv_event_id = none) : quiet app (app.call c) :=
  quiet_of_out [c] rfl (by simpa using h)

theorem quiet_congr {a b b1 : App} (h : quiet a b) (hb : b1.out = b.out) : quiet a b1 := by
  obtain ⟨cs, e, s⟩ := h
  exact ⟨cs, hb.trans e, s⟩

theorem pause_inhibit_quiet (app : App) : quiet app (pause_inhibit app) := by
  unfold pause_inhibit
  split
  · exact quiet_congr (call_quiet app (Call.gtk_application_inhibit (app.next_cookie + 1)) rfl)
      rfl
  · split
    · exact quiet_congr (call_quiet app (Call.gtk_application_uninhibit app.inhibit_cookie) rfl)
        rfl
    · exact quiet_refl _

theorem track_list_calls_quiet (engine : Engine) (calls : List Call)
    (h : track_list_calls engine = some calls) : ∀ c ∈ calls, c.mpv_event_id = none := by
  unfold track_list_calls at h
  split at h
  · simp only [Option.some.injEq] at h
    subst h
    simp
  · split at h
    · exact absurd h (by simp)
    · simp only [Option.some.injEq] at h
      subst h
      intro c hc
      simp only [List.mem_cons, List.mem_singleton, List.not_mem_nil, or_false] at hc
      rcases hc with h | h | h <;> subst h <;> rfl

theorem load_gui_update_quiet (app app1 : App) (engine : Engine)
    (h : mpv_obj_load_gui_update app engine = some app1) : quiet app app1 := by
  unfold mpv_obj_load_gui_update at h
  split at h
  · exact absurd h (by simp)
  · rename_i calls hc
    simp only [Option.some.injEq] at h
    subst h
    refine quiet_of_out calls rfl ?_
    unfold load_gui_update_calls at hc
    split at hc
    · exact absurd hc (by simp)
    · rename_i tc htc
      simp only [Option.some.injEq] at hc
      subst hc
      intro c hmem
      simp only [List.mem_append, List.mem_singleton] at hmem
      rcases hmem with ((((((h | h) | h) | h) | h) | h) | h) | h
      · split at h
        · simp only [List.mem_singleton] at h; subst h; rfl
        · simp at h
      · subst h; rfl
      · exact track_list_calls_quiet engine tc htc c h
      · split at h
        · simp only [List.mem_singleton] at h; subst h; rfl
        · simp at h
      · split at h
        · simp only [List.mem_singleton] at h; subst h; rfl
        · simp at h
      · split at h
        · simp only [List.mem_singleton] at h; subst h; rfl
        · simp at h
      · split at h
        · simp only [List.mem_singleton] at h; subst h; rfl
        · simp at h
      · subst h; rfl

theorem pause_change_quiet (x : Helpers) (app app1 : App) (data : Option PropData)
    (engine : Engine) (h : handle_pause_change x app data engine = some app1) :
    quiet app app1 := by
  simp only [handle_pause_change] at h
  refine quiet_trans ?_ (load_gui_update_quiet _ _ _ h)
  refine quiet_trans ?_ (pause_inhibit_quiet _)
  generalize decide (data_flag data 1 ≠ 0) = p
  split
  · exact quiet_trans (quiet_congr (quiet_refl app) rfl) (load_rows_quiet x _ _ _)
  · exact quiet_congr (quiet_refl app) rfl

theorem property_change_quiet (x : Helpers) (app app1 : App) (prop : mpv_event_property)
    (engine : Engine) (h : handle_property_change_event x app prop engine = some app1) :
    quiet app app1 := by
  unfold handle_property_change_event at h
  by_cases hp : prop.name = "pause"
  · rw [if_pos hp] at h
    exact pause_change_quiet x app app1 prop.data engine h
  · rw [if_neg hp] at h
    split_ifs at h <;>
    · simp only [Option.some.injEq] at h
      subst h
      first
        | exact quiet_refl _
        | exact quiet_trans (quiet_trans (call_quiet _ _ (by rfl)) (call_quiet _ _ (by rfl)))
            (call_quiet _ _ (by rfl))
        | exact quiet_congr (call_quiet _ Call.main_window_toggle_fullscreen rfl) rfl
        | exact quiet_trans (quiet_congr (call_quiet _ Call.main_window_reset rfl) rfl)
            (call_quiet _ _ (by rfl))
        | exact call_quiet _ _ (by rfl)

theorem playlist_store_quiet (ops : List UiOp) :
    ∀ c ∈ ops.map Call.playlist_store, c.mpv_event_id = none := by
  intro c hc
  obtain ⟨op, _, rfl⟩ := List.mem_map.mp hc
  rfl

theorem handle_one_event_quiet (x : Helpers) (app app1 : App) (event : mpv_event)
    (engine : Engine) (h : handle_one_event x app event engine = some app1) :
    quiet app app1 := by
  cases event with
  | property_change prop =>
    simp only [handle_one_event] at h
    split at h
    · exact absurd h (by simp)
    · rename_i app2 h2
      simp only [Option.some.injEq] at h
      subst h
      exact quiet_trans (property_change_quiet x app app2 prop engine h2) (call_quiet _ _ (by rfl))
  | idle =>
    simp only [handle_one_event, Option.some.injEq] at h
    subst h
    refine quiet_congr ?_ rfl
    split
    · exact load_rows_quiet x _ _ _
    · split
      · exact quiet_trans (quiet_congr (call_quiet app (Call.mpv_set_property_pause true) rfl)
          rfl) (call_quiet _ _ (by rfl))
      · exact quiet_refl _
  | file_loaded =>
    simp only [handle_one_event] at h
    split at h
    · exact absurd h (by simp)
    · rename_i r hr
      exact quiet_trans (quiet_of_out (r.2.map Call.playlist_store) rfl
        (playlist_store_quiet r.2)) (load_gui_update_quiet _ _ _ h)
  | end_file reason error =>
    simp only [handle_one_event] at h
    split at h
    · simp only [Option.some.injEq] at h
      subst h
      refine quiet_of_out _ rfl ?_
      intro c hc
      simp only [List.mem_cons, List.mem_singleton, List.not_mem_nil, or_false] at hc
      rcases hc with h | h <;> subst h <;> rfl
    · simp only [Option.some.injEq] at h
      subst h
      exact quiet_congr (quiet_refl app) rfl
  | video_reconfig =>
    simp only [handle_one_event] at h
    split at h <;>
    · simp only [Option.some.injEq] at h
      subst h
      exact quiet_refl _
  | playback_restart =>
    simp only [handle_one_event] at h
    split at h
    · exact absurd h (by simp)
    · rename_i app2 h2
      simp only [Option.some.injEq] at h
      subst h
      exact quiet_trans (load_gui_update_quiet _ _ _ h2) (call_quiet _ _ (by rfl))
  | log_message message =>
    simp only [handle_one_event, Option.some.injEq] at h
    subst h
    refine quiet_of_out (log_handler_calls app.log_level_list message) rfl ?_
    intro c hc
    unfold log_handler_calls at hc
    simp only at hc
    split at hc
    · split at hc
      · simp only [List.mem_singleton] at hc
        subst hc
        rfl
      · simp at hc
    · simp at hc
  | shutdown =>
    simp only [handle_one_event, Option.some.injEq] at h
    subst h
    exact quiet_refl _
  | other k =>
    simp only [handle_one_event, Option.some.injEq] at h
    subst h
    exact quiet_refl _

theorem emit_signals (app : App) (n : Nat) :
    mpv_event_signals (emit_mpv_event app n).out = mpv_event_signals app.out ++ [n] := by
  simp only [emit_mpv_event, App.call, mpv_event_signals, List.filterMap_append]
  rfl

theorem handle_event_loop_eq (x : Helpers) :
    ∀ (queue : List Pending) (app : App),
      handle_event_loop x queue app
        = (process_events x (drained queue) app).map (fun a =>
            (if has_shutdown queue then a else emit_mpv_event a MPV_EVENT_NONE,
              remaining queue)) := by
  intro queue
  induction queue with
  | nil => intro app; rfl
  | cons p rest ih =>
    intro app
    simp only [handle_event_loop, drained, remaining, has_shutdown]
    by_cases hs : p.event = mpv_event.shutdown
    · simp only [hs, if_true, process_events, decide_True, Bool.true_or]
      cases handle_one_event x app mpv_event.shutdown p.engine <;> rfl
    · simp only [hs, if_false, process_events, decide_False, Bool.false_or]
      cases handle_one_event x app p.event p.engine with
      | none => rfl
      | some app1 => exact ih _

theorem process_events_signals (x : Helpers) :
    ∀ (events : List Pending) (app app1 : App), process_events x events app = some app1 →
      mpv_event_signals app1.out
        = mpv_event_signals app.out ++ events.map (fun p => p.event.event_id) := by
  intro events
  induction events with
  | nil =>
    intro app app1 h
    simp only [process_events, Option.some.injEq] at h
    subst h
    simp
  | cons p rest ih =>
    intro app app1 h
    simp only [process_events] at h
    split at h
    · exact absurd h (by simp)
    · rename_i app2 h2
      rw [ih _ _ h, emit_signals, quiet_signals (handle_one_event_quiet x app app2 _ _ h2)]
      simp

theorem drained_ids_eq (queue : List Pending) :
    drained_ids queue
      = (drained queue).map (fun p => p.event.event_id) ++
          (if has_shutdown queue then [] else [MPV_EVENT_NONE]) := by
  induction queue with
  | nil => rfl
  | cons p rest ih =>
    simp only [drained_ids, drained, has_shutdown]
    by_cases hs : p.event = mpv_event.shutdown
    · simp [hs]
    · simp [hs, ih]

theorem process_events_inv (x : Helpers) :
    ∀ (events : List Pending) (app app1 : App), process_events x events app = some app1 →
      ¬(app.state.loaded = true ∧ app.state.init_load = true) →
      ¬(app1.state.loaded = true ∧ app1.state.init_load = true) := by
  intro events
  induction events with
  | nil =>
    intro app app1 h hinv
    simp only [process_events, Option.some.injEq] at h
    subst h
    exact hinv
  | cons p rest ih =>
    intro app app1 h hinv
    simp only [process_events] at h
    split at h
    · exact absurd h (by simp)
    · rename_i app2 h2
      exact ih _ _ h (handle_one_event_inv x app app2 _ _ h2 hinv)

theorem load_gui_update_some (app : App) (engine : Engine)
    (h : ∃ calls, track_list_calls engine = some calls) :
    ∃ app1, mpv_obj_load_gui_update app engine = some app1 := by
  obtain ⟨calls, hc⟩ := h
  simp only [mpv_obj_load_gui_update, load_gui_update_calls, hc]
  exact ⟨_, rfl⟩

theorem property_change_some (x : Helpers) (app : App) (prop : mpv_event_property)
    (engine : Engine) (h : ∃ calls, track_list_calls engine = some calls) :
    ∃ app1, handle_property_change_event x app prop engine = some app1 := by
  unfold handle_property_change_event
  by_cases hp : prop.name = "pause"
  · rw [if_pos hp]
    exact load_gui_update_some _ _ h
  · rw [if_neg hp]
    split_ifs <;> exact ⟨_, rfl⟩

theorem handle_one_event_some (x : Helpers) (app : App) (event : mpv_event) (engine : Engine)
    (hok : engine.answers_ok x) (hne : app.playlist ≠ []) :
    ∃ app1, handle_one_event x app event engine = some app1 ∧ app1.playlist ≠ [] := by
  obtain ⟨htr, ⟨rs, hrs⟩, hpl⟩ := hok
  cases event with
  | property_change prop =>
    obtain ⟨app1, h1⟩ := property_change_some x app prop engine htr
    refine ⟨_, by simp only [handle_one_event, h1]; rfl, ?_⟩
    rw [call_playlist, (property_change_kept x app app1 prop engine h1).2]
    exact hne
  | idle =>
    refine ⟨_, rfl, ?_⟩
    show (if app.state.init_load = true then mpv_obj_load x app none false false
      else if app.state.loaded = true then _ else app).playlist ≠ []
    split
    · rw [mpv_obj_load, (load_rows_kept x _ _ _).2]
      exact hne
    · split
      · exact hne
      · exact hne
  | file_loaded =>
    have hu := update_playlist_spec x.get_name_from_path app.playlist engine.playlist rs hrs
      (Or.inl hne)
    obtain ⟨app1, h1⟩ := load_gui_update_some
      { app with
        state := { app.state with loaded := true, init_load := false }
        playlist := rs
        out := app.out ++ ([UiOp.handlers_block] ++ sync_ops 0 app.playlist rs ++
          [UiOp.handlers_unblock]).map Call.playlist_store } engine htr
    refine ⟨app1, by simp only [handle_one_event, hu]; exact h1, ?_⟩
    rw [(load_gui_update_state _ _ _ h1).2]
    intro h
    have hl := snapshot_rows_length _ _ _ hrs
    simp only at h
    rw [h] at hl
    exact hpl (List.length_eq_zero.mp hl.symm)
  | end_file reason error =>
    simp only [handle_one_event]
    split <;> exact ⟨_, rfl, hne⟩
  | video_reconfig =>
    simp only [handle_one_event]
    split <;> exact ⟨_, rfl, hne⟩
  | playback_restart =>
    obtain ⟨app1, h1⟩ := load_gui_update_some app engine htr
    refine ⟨_, by simp only [handle_one_event, h1]; rfl, ?_⟩
    rw [call_playlist, (load_gui_update_state _ _ _ h1).2]
    exact hne
  | log_message message => exact ⟨_, rfl, hne⟩
  | shutdown => exact ⟨_, rfl, hne⟩
  | other k => exact ⟨_, rfl, hne⟩

theorem process_events_some (x : Helpers) :
    ∀ (events : List Pending) (app : App), (∀ p ∈ events, p.engine.answers_ok x) →
      app.playlist ≠ [] → ∃ app1, process_events x events app = some app1 := by
  intro events
  induction events with
  | nil => intro app _ _; exact ⟨app, rfl⟩
  | cons p rest ih =>
    intro app hok hne
    obtain ⟨app1, h1, hne1⟩ := handle_one_event_some x app p.event p.engine
      (hok p (by simp)) hne
    obtain ⟨app2, h2⟩ := ih (emit_mpv_event app1 p.event.event_id)
      (fun q hq => hok q (by simp [hq])) hne1
    exact ⟨app2, by simp only [process_events, h1]; exact h2⟩

theorem drained_subset : ∀ (queue : List Pending), ∀ p ∈ drained queue, p ∈ queue := by
  intro queue
  induction queue with
  | nil => intro p hp; simp [drained] at hp
  | cons q rest ih =>
    intro p hp
    simp only [drained] at hp
    split at hp
    · simp only [List.mem_singleton] at hp
      simp [hp]
    · rcases List.mem_cons.mp hp with h | h
      · simp [h]
      · exact List.mem_cons_of_mem _ (ih p h)

/-- C5: if `loaded` and `init_load` are not both set before a call of
`mpv_obj_handle_event`, they are not both set after it, whatever events the
queue holds and whatever the engine answers while they are handled (property
changes and the loads they trigger included). -/
theorem handle_event_loaded_init_load (x : Helpers) (app : App) (queue : List Pending)
    (r : App × List Pending)
    (hinv : ¬(app.state.loaded = true ∧ app.state.init_load = true))
    (h : mpv_obj_handle_event x app queue = some r) :
    ¬(r.1.state.loaded = true ∧ r.1.state.init_load = true) := by
  unfold mpv_obj_handle_event at h
  split at h
  · rw [handle_event_loop_eq] at h
    obtain ⟨app1, h1, h2⟩ := Option.map_eq_some'.mp h
    subst h2
    have := process_events_inv x _ _ _ h1 hinv
    simp only
    split <;> exact this
  · simp only [Option.some.injEq] at h
    subst h
    exact hinv

theorem handle_event_loaded_init_load_witness :
    (¬(app_start.state.loaded = true ∧ app_start.state.init_load = true) ∧
      mpv_obj_handle_event helpers_id app_start queue_example = some run_example) ∧
    ¬(run_example.1.state.loaded = true ∧ run_example.1.state.init_load = true) :=
  ⟨⟨by decide, by rfl⟩,
    handle_event_loaded_init_load helpers_id app_start queue_example run_example (by decide)
      (by rfl)⟩

/-- C6: one call of `mpv_obj_handle_event`, for every state and every queue.
Without an engine handle there is no event and nothing is done. With one,
every run that returns has handled exactly the events up to and including the
first `SHUTDOWN` (all of them when there is none), one after the other in
queue order, each followed by its "mpv-event" signal; it has left the events
after the `SHUTDOWN` in the queue; and the "mpv-event" signals it emitted
carry, in order, the identifier of each event it took, ending with
`MPV_EVENT_NONE` when the queue ran empty. The run returns whenever the
playlist store has a row and the engine's answers let every handler run to
its end. -/
theorem handle_event_drains (x : Helpers) (app : App) (queue : List Pending) :
    (app.mpv_ctx = false → mpv_obj_handle_event x app queue = some (app, queue)) ∧
    (app.mpv_ctx = true → ∀ r, mpv_obj_handle_event x app queue = some r →
      ∃ app1, process_events x (drained queue) app = some app1 ∧
        r = (if has_shutdown queue then app1 else emit_mpv_event app1 MPV_EVENT_NONE,
          remaining queue) ∧
        mpv_event_signals r.1.out = mpv_event_signals app.out ++ drained_ids queue) ∧
    (app.mpv_ctx = true → app.playlist ≠ [] → (∀ p ∈ queue, p.engine.answers_ok x) →
      ∃ r, mpv_obj_handle_event x app queue = some r) := by
  refine ⟨?_, ?_, ?_⟩
  · intro hctx
    simp [mpv_obj_handle_event, hctx]
  · intro hctx r h
    simp only [mpv_obj_handle_event, hctx, if_true, handle_event_loop_eq] at h
    obtain ⟨app1, h1, h2⟩ := Option.map_eq_some'.mp h
    refine ⟨app1, h1, h2.symm, ?_⟩
    subst h2
    rw [drained_ids_eq, ← List.append_assoc, ← process_events_signals x _ _ _ h1]
    simp only
    split
    · simp
    · rw [emit_signals]
  · intro hctx hne hok
    obtain ⟨app1, h1⟩ := process_events_some x (drained queue) app
      (fun p hp => hok p (drained_subset queue p hp)) hne
    exact ⟨(if has_shutdown queue then app1 else emit_mpv_event app1 MPV_EVENT_NONE,
      remaining queue), by
      simp only [mpv_obj_handle_event, hctx, if_true, handle_event_loop_eq, h1,
        Option.map_some']⟩

theorem engine_quiet_ok : engine_quiet.answers_ok helpers_id :=
  ⟨⟨[], rfl⟩, ⟨[{ name := "a.mkv", uri := "a.mkv" }], rfl⟩, by decide⟩

theorem queue_example_ok : ∀ p ∈ queue_example, p.engine.answers_ok helpers_id := by
  intro p hp
  simp only [queue_example, List.mem_cons, List.mem_singleton, List.not_mem_nil, or_false] at hp
  rcases hp with h | h | h | h <;> subst h <;> exact engine_quiet_ok

theorem handle_event_drains_witness :
    (app_start.mpv_ctx = true ∧ app_start.playlist ≠ [] ∧
      (∀ p ∈ queue_example, p.engine.answers_ok helpers_id) ∧
      mpv_obj_handle_event helpers_id app_start queue_example = some run_example) ∧
    (∃ r, mpv_obj_handle_event helpers_id app_start queue_example = some r) ∧
    ∃ app1, process_events helpers_id (drained queue_example) app_start = some app1 ∧
      run_example = (if has_shutdown queue_example then app1
        else emit_mpv_event app1 MPV_EVENT_NONE, remaining queue_example) ∧
      mpv_event_signals run_example.1.out
        = mpv_event_signals app_start.out ++ drained_ids queue_example :=
  ⟨⟨rfl, by decide, queue_example_ok, by rfl⟩,
    (handle_event_drains helpers_id app_start queue_example).2.2 rfl (by decide)
      queue_example_ok,
    (handle_event_drains helpers_id app_start queue_example).2.1 rfl run_example (by rfl)⟩

/-- C7 (evaluation at the failing input): starting from `app_start`, with an
engine that is not idle, one notification "pause = no" leaves one sleep
inhibition in force, and the same notification handled a second time leaves
two; a notification "pause = yes" after them drops only the second one, so an
inhibition is still in force while playback is paused. -/
theorem pause_twice_inhibits_twice (x : Helpers) :
    (handle_property_change_event x app_start pause_off engine_quiet).map
        (fun a => (a.state.paused, a.inhibitors)) = some (false, [1]) ∧
      ((handle_property_change_event x app_start pause_off engine_quiet).bind
        (fun a => handle_property_change_event x a pause_off engine_quiet)).map
          (fun a => (a.state.paused, a.inhibitors)) = some (false, [1, 2]) ∧
      (((handle_property_change_event x app_start pause_off engine_quiet).bind
        (fun a => handle_property_change_event x a pause_off engine_quiet)).bind
          (fun a => handle_property_change_event x a pause_on engine_quiet)).map
            (fun a => (a.state.paused, a.inhibitors)) = some (true, [1]) := by
  refine ⟨by rfl, by rfl, by rfl⟩

/-! ## The autofit ratio -/

theorem dyadic_split (m e1 e : Int) (h : e ≤ e1) :
    dyadic m e1 = ((m * 2 ^ (e1 - e).toNat : Int) : ℚ) * (2 : ℚ) ^ e := by
  unfold dyadic
  have h2 : (2 : ℚ) ≠ 0 := by norm_num
  have : (2 : ℚ) ^ e1 = (2 : ℚ) ^ ((e1 - e).toNat : Int) * (2 : ℚ) ^ e := by
    rw [← zpow_add₀ h2, Int.toNat_of_nonneg (by omega)]
    congr 1; ring
  rw [this, zpow_natCast]
  push_cast
  ring

theorem fin_lt_iff (m1 e1 m2 e2 : Int) :
    F64.fin_lt m1 e1 m2 e2 = true ↔ dyadic m1 e1 < dyadic m2 e2 := by
  unfold F64.fin_lt
  simp only [decide_eq_true_eq]
  rw [dyadic_split m1 e1 (min e1 e2) (min_le_left _ _),
    dyadic_split m2 e2 (min e1 e2) (min_le_right _ _)]
  have hp : (0 : ℚ) < (2 : ℚ) ^ (min e1 e2) := zpow_pos (by norm_num) _
  rw [mul_lt_mul_right hp]
  exact Int.cast_lt.symm

theorem of_int_zero : F64.of_int 0 = F64.fin 0 0 := by decide
theorem of_int_one : F64.of_int 1 = F64.fin 4503599627370496 (-52) := by decide
theorem dyadic_one : dyadic 4503599627370496 (-52) = 1 := by
  unfold dyadic
  rw [show (-52 : Int) = -((52 : Nat) : Int) by norm_num, zpow_neg, zpow_natCast]
  norm_num
theorem dyadic_zero (e : Int) : dyadic 0 e = 0 := by simp [dyadic]

theorem lt_zero_iff (r : F64) :
    F64.lt (F64.of_int 0) r = true ↔ r = F64.inf false ∨ ∃ m e, r = F64.fin m e ∧ 0 < dyadic m e := by
  rw [of_int_zero]
  cases r with
  | nan => simp [F64.lt]
  | inf s => cases s <;> simp [F64.lt]
  | fin m e =>
    simp only [F64.lt, fin_lt_iff, dyadic_zero]
    constructor
    · intro h; exact Or.inr ⟨m, e, rfl, h⟩
    · rintro (h | ⟨m1, e1, h, h1⟩)
      · cases h
      · cases h; exact h1

theorem lt_one_iff (r : F64) :
    F64.lt (F64.of_int 1) r = true ↔ r = F64.inf false ∨ ∃ m e, r = F64.fin m e ∧ 1 < dyadic m e := by
  rw [of_int_one]
  cases r with
  | nan => simp [F64.lt]
  | inf s => cases s <;> simp [F64.lt]
  | fin m e =>
    simp only [F64.lt, fin_lt_iff, dyadic_one]
    constructor
    · intro h; exact Or.inr ⟨m, e, rfl, h⟩
    · rintro (h | ⟨m1, e1, h, h1⟩)
      · cases h
      · cases h; exact h1

/-- The smaller of two positive ratios that are not both above 1 is in (0, 1]. -/
theorem min_in_unit (wr hr : F64)
    (hw : F64.lt (F64.of_int 0) wr = true) (hh : F64.lt (F64.of_int 0) hr = true)
    (hn : ¬(F64.lt (F64.of_int 1) wr = true ∧ F64.lt (F64.of_int 1) hr = true)) :
    ratio_in_unit (if F64.lt wr hr = true then wr else hr) := by
  rw [lt_zero_iff] at hw hh
  rw [lt_one_iff, lt_one_iff] at hn
  rcases hw with rfl | ⟨m1, e1, rfl, h1⟩ <;> rcases hh with rfl | ⟨m2, e2, rfl, h2⟩
  · exact absurd ⟨Or.inl rfl, Or.inl rfl⟩ hn
  · have : ¬ (1 < dyadic m2 e2) := fun h => hn ⟨Or.inl rfl, Or.inr ⟨m2, e2, rfl, h⟩⟩
    simp only [F64.lt]
    exact ⟨m2, e2, by simp, h2, not_lt.mp this⟩
  · have : ¬ (1 < dyadic m1 e1) := fun h => hn ⟨Or.inr ⟨m1, e1, rfl, h⟩, Or.inl rfl⟩
    simp only [F64.lt]
    exact ⟨m1, e1, by simp, h1, not_lt.mp this⟩
  · have hor : dyadic m1 e1 ≤ 1 ∨ dyadic m2 e2 ≤ 1 := by
      by_contra hc
      push_neg at hc
      exact hn ⟨Or.inr ⟨m1, e1, rfl, hc.1⟩, Or.inr ⟨m2, e2, rfl, hc.2⟩⟩
    by_cases hlt : F64.lt (F64.fin m1 e1) (F64.fin m2 e2) = true
    · rw [if_pos hlt]
      have hl : dyadic m1 e1 < dyadic m2 e2 := (fin_lt_iff _ _ _ _).mp hlt
      exact ⟨m1, e1, rfl, h1, by rcases hor with h | h <;> linarith⟩
    · rw [if_neg hlt]
      have hl : ¬ dyadic m1 e1 < dyadic m2 e2 := fun h => hlt ((fin_lt_iff _ _ _ _).mpr h)
      exact ⟨m2, e2, rfl, h2, by rcases hor with h | h <;> linarith⟩

theorem one_in_unit : ratio_in_unit (F64.of_int 1) :=
  ⟨_, _, of_int_one, by rw [dyadic_one]; norm_num, by rw [dyadic_one]⟩

theorem autofit_ratio_after_in_unit (before : Char) (sw sh : Int) (r : F64) (engine : Engine)
    (h : ratio_in_unit r) : ratio_in_unit (autofit_ratio_after before sw sh r engine) := by
  unfold autofit_ratio_after
  cases engine.autofit with
  | none => exact h
  | some optbuf =>
    simp only []
    split_ifs with h1 h2 h3 h4
    · exact one_in_unit
    · exact min_in_unit _ _ h2.1 h2.2 h3 |> fun x => by simpa [h4] using x
    · exact min_in_unit _ _ h2.1 h2.2 h3 |> fun x => by simpa [h4] using x
    · exact h
    · exact h

theorem dyadic_pos_iff (m e : Int) : 0 < dyadic m e ↔ 0 < m := by
  unfold dyadic
  have hp : (0 : ℚ) < (2 : ℚ) ^ e := zpow_pos (by norm_num) _
  rw [mul_pos_iff_of_pos_right hp]
  exact Int.cast_pos

theorem round_pos_self (n : Nat) (hn : 1 ≤ n) :
    F64.round_pos n n = (4503599627370496, -52) := by
  have hs0 : (52 : Int) - ((floor_log2 n : Int) - (floor_log2 n : Int)) = 52 := by omega
  have hsc : F64.scaled n n 52 = (n * 2 ^ 52, n) := by
    unfold F64.scaled
    rw [if_pos (by norm_num)]
    rfl
  have hq : n * 2 ^ 52 / n = 2 ^ 52 := Nat.mul_div_cancel_left _ (by omega)
  have hrs : F64.round_scale n n = 52 := by
    unfold F64.round_scale
    simp only [hs0, hsc, hq]
    norm_num
  unfold F64.round_pos
  rw [hrs, hsc]
  unfold F64.round_half_even
  have hmod : n * 2 ^ 52 % n = 0 := Nat.mul_mod_right _ _
  simp only [hmod, hq]
  have : ¬(n < 2 * 0 ∨ 2 * 0 = n ∧ 2 ^ 52 % 2 = 1) := by omega
  rw [if_neg this]
  norm_num

theorem div_self_one (m e : Int) (hm : 0 < m) :
    F64.div (F64.fin m e) (F64.fin m e) = F64.of_int 1 := by
  rw [of_int_one]
  have hm2 : m ≠ 0 := ne_of_gt hm
  have hn : 1 ≤ m.natAbs := by omega
  simp only [F64.div, hm2, if_false, sub_self, Int.toNat_zero, pow_zero, mul_one, bne_self_eq_false]
  unfold F64.of_ratio
  rw [if_neg (by omega), round_pos_self _ hn]
  rfl

theorem of_int_pos (z : Int) (hz : 0 < z) :
    ∃ m e, F64.of_int z = F64.fin m e ∧ 0 < m ∧
      |dyadic m e - (z : ℚ)| ≤ (z : ℚ) * (2 : ℚ) ^ (-52 : Int) ∧
      (z < 2 ^ 53 → dyadic m e = (z : ℚ)) := by
  have hzq : (0 : ℚ) < (z : ℚ) := by exact_mod_cast hz
  have hcast : ((z.natAbs : Nat) : ℚ) = (z : ℚ) := by
    have : ((z.natAbs : Nat) : Int) = z := Int.natAbs_of_nonneg (le_of_lt hz)
    rw [← Int.cast_natCast, this]
  have hδ : (0 : ℚ) < (2 : ℚ) ^ (-52 : Int) := zpow_pos (by norm_num) _
  by_cases hs : z < 2 ^ 53
  · obtain ⟨m, e, h1, h2, h3⟩ := of_int_exact z.natAbs (by omega)
    rw [Int.natAbs_of_nonneg (le_of_lt hz)] at h1
    rw [hcast] at h3
    refine ⟨m, e, h1, ?_, ?_, fun _ => h3⟩
    · rw [← dyadic_pos_iff m e, h3]; exact hzq
    · rw [h3, sub_self, abs_zero]; positivity
  · have hn : 1 ≤ z.natAbs := by omega
    have herr := round_pos_error z.natAbs 1 hn (le_refl 1)
    simp only [Nat.cast_one, div_one] at herr
    rw [hcast] at herr
    refine ⟨((F64.round_pos z.natAbs 1).1 : Int), (F64.round_pos z.natAbs 1).2, ?_, ?_, herr,
      fun h => absurd h hs⟩
    · unfold F64.of_int F64.of_ratio
      rw [if_neg (by omega)]
      simp [not_lt.mpr (le_of_lt hz)]
    · rw [← dyadic_pos_iff _ (F64.round_pos z.natAbs 1).2]
      have := (abs_le.mp herr).1
      have h52 : (2 : ℚ) ^ (-52 : Int) < 1 := by
        rw [show (-52 : Int) = -((52 : Nat) : Int) by norm_num, zpow_neg, zpow_natCast]
        norm_num
      nlinarith

/-- The quotient box / video of two positive integers, as this code forms it. -/
theorem quot_spec (b v : Int) (hb : 0 < b) (hv : 0 < v) :
    ∃ q e B V, F64.div (F64.of_int b) (F64.of_int v) = F64.fin q e ∧ 0 < dyadic q e ∧
      |dyadic q e - B / V| ≤ B / V * (2 : ℚ) ^ (-52 : Int) ∧
      0 < B ∧ 0 < V ∧ (b < 2 ^ 53 → B = (b : ℚ)) ∧ (v < 2 ^ 53 → V = (v : ℚ)) ∧
      |V - (v : ℚ)| ≤ (v : ℚ) * (2 : ℚ) ^ (-52 : Int) := by
  obtain ⟨m1, e1, h1, hm1, _, hx1⟩ := of_int_pos b hb
  obtain ⟨m2, e2, h2, hm2, herr2, hx2⟩ := of_int_pos v hv
  obtain ⟨q, e, hd, hq, herr⟩ := div_spec m1 m2 e1 e2 hm1 hm2
  have hB : 0 < dyadic m1 e1 := (dyadic_pos_iff _ _).mpr hm1
  have hV : 0 < dyadic m2 e2 := (dyadic_pos_iff _ _).mpr hm2
  refine ⟨q, e, dyadic m1 e1, dyadic m2 e2, by rw [h1, h2, hd], ?_, herr, hB, hV, hx1, hx2, herr2⟩
  have hx : 0 < dyadic m1 e1 / dyadic m2 e2 := div_pos hB hV
  have := (abs_le.mp herr).1
  have h52 : (2 : ℚ) ^ (-52 : Int) < 1 := by
    rw [show (-52 : Int) = -((52 : Nat) : Int) by norm_num, zpow_neg, zpow_natCast]
    norm_num
  nlinarith

theorem quot_pos (b v : Int) (hb : 0 < b) (hv : 0 < v) :
    F64.lt (F64.of_int 0) (F64.div (F64.of_int b) (F64.of_int v)) = true := by
  obtain ⟨q, e, B, V, h, hp, _⟩ := quot_spec b v hb hv
  rw [lt_zero_iff]
  exact Or.inr ⟨q, e, h, hp⟩

theorem delta_lt (n : Int) (hn : 0 < n) (h : n ≤ 2 ^ 31) :
    (n : ℚ) * (2 : ℚ) ^ (-52 : Int) < 1 := by
  have hq : (n : ℚ) ≤ 2 ^ 31 := by exact_mod_cast h
  have hq0 : (0 : ℚ) < (n : ℚ) := by exact_mod_cast hn
  rw [show (-52 : Int) = -((52 : Nat) : Int) by norm_num, zpow_neg, zpow_natCast]
  have : (2 : ℚ) ^ 31 * ((2 : ℚ) ^ 52)⁻¹ < 1 := by norm_num
  have h2 : (n : ℚ) * ((2 : ℚ) ^ 52)⁻¹ ≤ 2 ^ 31 * ((2 : ℚ) ^ 52)⁻¹ :=
    mul_le_mul_of_nonneg_right hq (by positivity)
  linarith

/-- A box that is at least the video gives a quotient that is 1 or above 1. -/
theorem quot_fits (b v : Int) (hv : 0 < v) (hvb : v ≤ b) (hb : b < 2 ^ 31) :
    F64.div (F64.of_int b) (F64.of_int v) = F64.of_int 1 ∨
      F64.lt (F64.of_int 1) (F64.div (F64.of_int b) (F64.of_int v)) = true := by
  rcases eq_or_lt_of_le hvb with heq | hlt
  · subst heq
    obtain ⟨m, e, h, hm, _⟩ := of_int_pos v hv
    left
    rw [h]
    exact div_self_one m e hm
  · right
    obtain ⟨q, e, B, V, h, hp, herr, hB, hV, hBx, hVx, _⟩ := quot_spec b v (by omega) hv
    rw [hBx (by omega), hVx (by omega)] at herr
    rw [lt_one_iff]
    refine Or.inr ⟨q, e, h, ?_⟩
    have hvq : (0 : ℚ) < (v : ℚ) := by exact_mod_cast hv
    have hbv : (v : ℚ) + 1 ≤ (b : ℚ) := by exact_mod_cast hlt
    have hd := delta_lt (v + 1) (by omega) (by omega)
    push_cast at hd
    have hlow := (abs_le.mp herr).1
    have hxv : (b : ℚ) / (v : ℚ) * (v : ℚ) = (b : ℚ) := div_mul_cancel₀ _ (ne_of_gt hvq)
    have hδ : (0 : ℚ) < (2 : ℚ) ^ (-52 : Int) := zpow_pos (by norm_num) _
    set δ := (2 : ℚ) ^ (-52 : Int) with hδdef
    set x := (b : ℚ) / (v : ℚ) with hx
    have hx1 : 1 + 1 / (v : ℚ) ≤ x := by
      rw [hx, le_div_iff₀ hvq]
      have : (1 + 1 / (v : ℚ)) * (v : ℚ) = (v : ℚ) + 1 := by field_simp
      rw [this]; exact hbv
    have hδ1 : δ < 1 := by
      have := delta_lt 1 (by norm_num) (by norm_num)
      simpa using this
    have h3 : δ * (1 + 1 / (v : ℚ)) < 1 / (v : ℚ) := by
      rw [lt_div_iff₀ hvq]
      have : δ * (1 + 1 / (v : ℚ)) * (v : ℚ) = ((v : ℚ) + 1) * δ := by
        field_simp
        ring
      rw [this]; exact hd
    have h4 : x * (1 - δ) ≥ (1 + 1 / (v : ℚ)) * (1 - δ) :=
      mul_le_mul_of_nonneg_right hx1 (by linarith)
    nlinarith

/-- A box smaller than the video gives a quotient that is not above 1. -/
theorem quot_small (b v : Int) (hb : 0 < b) (hb2 : b < 2 ^ 31) (hbv : b < v) :
    F64.lt (F64.of_int 1) (F64.div (F64.of_int b) (F64.of_int v)) = false := by
  obtain ⟨q, e, B, V, h, hp, herr, hB, hV, hBx, hVx, hVerr⟩ := quot_spec b v hb (by omega)
  rw [hBx (by omega)] at herr
  have hbq : (0 : ℚ) < (b : ℚ) := by exact_mod_cast hb
  have hδ : (0 : ℚ) < (2 : ℚ) ^ (-52 : Int) := zpow_pos (by norm_num) _
  have hd := delta_lt b hb (by omega)
  have hVb : (b : ℚ) + 1 ≤ V := by
    by_cases hs : v < 2 ^ 53
    · rw [hVx hs]; exact_mod_cast hbv
    · have hvq : (2 : ℚ) ^ 53 ≤ (v : ℚ) := by exact_mod_cast (not_lt.mp hs)
      have hb3 : (b : ℚ) + 1 ≤ 2 ^ 31 := by exact_mod_cast hb2
      have hlow := (abs_le.mp hVerr).1
      have h52 : (2 : ℚ) ^ (-52 : Int) ≤ 1 / 2 := by
        rw [show (-52 : Int) = -((52 : Nat) : Int) by norm_num, zpow_neg, zpow_natCast]
        norm_num
      have : (v : ℚ) * (2 : ℚ) ^ (-52 : Int) ≤ (v : ℚ) * (1 / 2) :=
        mul_le_mul_of_nonneg_left h52 (by linarith)
      have hV2 : (v : ℚ) * (1 / 2) ≤ V := by
        generalize (2 : ℚ) ^ (-52 : Int) = δ at hlow this
        linarith
      have h31 : (2 : ℚ) ^ 31 ≤ 2 ^ 53 * (1 / 2) := by norm_num
      have h53 : (2 : ℚ) ^ 53 * (1 / 2) ≤ (v : ℚ) * (1 / 2) :=
        mul_le_mul_of_nonneg_right hvq (by norm_num)
      exact le_trans hb3 (le_trans h31 (le_trans h53 hV2))
  have hres : ¬ F64.lt (F64.of_int 1) (F64.div (F64.of_int b) (F64.of_int v)) = true := by
    rw [lt_one_iff, h]
    rintro (hc | ⟨m1, e1, hc, h1⟩)
    · cases hc
    · cases hc
      have hup := (abs_le.mp herr).2
      have hxV : (b : ℚ) / V * V = (b : ℚ) := div_mul_cancel₀ _ (ne_of_gt hV)
      set δ := (2 : ℚ) ^ (-52 : Int) with hδdef
      set x := (b : ℚ) / V with hx
      have h5 : dyadic q e * V ≤ (x + x * δ) * V :=
        mul_le_mul_of_nonneg_right (by linarith) (le_of_lt hV)
      have h6 : (x + x * δ) * V = (b : ℚ) + (b : ℚ) * δ := by
        rw [add_mul, mul_right_comm, hxV]
      have h7 : V < dyadic q e * V := by
        have := mul_lt_mul_of_pos_right h1 hV
        linarith
      linarith
  simpa using hres

theorem min_accuracy (d1 d2 x y δ : ℚ) (hδ1 : δ ≤ 1)
    (hx : |d1 - x| ≤ x * δ) (hy : |d2 - y| ≤ y * δ) :
    |min d1 d2 - min x y| ≤ min x y * δ := by
  have hx1 := abs_le.mp hx
  have hy1 := abs_le.mp hy
  rw [abs_le]
  rcases le_total x y with hxy | hxy
  · rw [min_eq_left hxy]
    have h1 : x * (1 - δ) ≤ y * (1 - δ) := mul_le_mul_of_nonneg_right hxy (by linarith)
    rcases le_total d1 d2 with hd | hd
    · rw [min_eq_left hd]; exact ⟨by linarith, by linarith⟩
    · rw [min_eq_right hd]; exact ⟨by linarith, by linarith⟩
  · rw [min_eq_right hxy]
    have h1 : y * (1 - δ) ≤ x * (1 - δ) := mul_le_mul_of_nonneg_right hxy (by linarith)
    rcases le_total d1 d2 with hd | hd
    · rw [min_eq_left hd]; exact ⟨by linarith, by linarith⟩
    · rw [min_eq_right hd]; exact ⟨by linarith, by linarith⟩

theorem autofit_ratio_after_eq (before : Char) (sw sh : Int) (r : F64) (engine : Engine)
    (optbuf : List Char) (vw vh : Int)
    (hopt : engine.autofit = some optbuf) (hne : 0 < optbuf.length)
    (hw : engine.dwidth = some vw) (hh : engine.dheight = some vh) :
    autofit_ratio_after before sw sh r engine =
      if F64.lt (F64.of_int 0)
            (F64.div (F64.of_int (parse_dim_string before sw sh optbuf).width) (F64.of_int vw)) = true ∧
          F64.lt (F64.of_int 0)
            (F64.div (F64.of_int (parse_dim_string before sw sh optbuf).height) (F64.of_int vh)) = true then
        if F64.lt (F64.of_int 1)
              (F64.div (F64.of_int (parse_dim_string before sw sh optbuf).width) (F64.of_int vw)) = true ∧
            F64.lt (F64.of_int 1)
              (F64.div (F64.of_int (parse_dim_string before sw sh optbuf).height) (F64.of_int vh)) = true then
          F64.of_int 1
        else if F64.lt
            (F64.div (F64.of_int (parse_dim_string before sw sh optbuf).width) (F64.of_int vw))
            (F64.div (F64.of_int (parse_dim_string before sw sh optbuf).height) (F64.of_int vh)) = true then
          F64.div (F64.of_int (parse_dim_string before sw sh optbuf).width) (F64.of_int vw)
        else F64.div (F64.of_int (parse_dim_string before sw sh optbuf).height) (F64.of_int vh)
      else r := by
  unfold autofit_ratio_after
  rw [hopt]
  simp only [hw, hh, Option.isSome_some, Option.getD_some, hne, true_and, and_self, if_true]

theorem lt_asymm_f64 (a b : F64) (h : F64.lt a b = true) : F64.lt b a = false := by
  cases a with
  | nan => simp [F64.lt] at h
  | inf s =>
    cases b with
    | nan => simp [F64.lt] at h
    | inf t => cases s <;> cases t <;> simp [F64.lt] at h ⊢
    | fin m e => cases s <;> simp [F64.lt] at h ⊢
  | fin m e =>
    cases b with
    | nan => simp [F64.lt] at h
    | inf t => cases t <;> simp [F64.lt] at h ⊢
    | fin m2 e2 =>
      simp only [F64.lt] at h ⊢
      rw [fin_lt_iff] at h
      have : ¬ F64.fin_lt m2 e2 m e = true := by
        rw [fin_lt_iff]; exact not_lt.mpr (le_of_lt h)
      simpa using this

theorem lt_one_one : F64.lt (F64.of_int 1) (F64.of_int 1) = false := by decide

theorem fits_ratio (wr hr : F64)
    (hW : wr = F64.of_int 1 ∨ F64.lt (F64.of_int 1) wr = true)
    (hH : hr = F64.of_int 1 ∨ F64.lt (F64.of_int 1) hr = true) :
    (if F64.lt (F64.of_int 1) wr = true ∧ F64.lt (F64.of_int 1) hr = true then F64.of_int 1
      else if F64.lt wr hr = true then wr else hr) = F64.of_int 1 := by
  rcases hW with hW | hW <;> rcases hH with hH | hH
  · subst hW; subst hH
    simp [lt_one_one]
  · subst hW
    simp [lt_one_one, hH]
  · subst hH
    simp [lt_one_one, lt_asymm_f64 _ _ hW]
  · simp [hW, hH]

/-- C11: with a box of positive width and height (each a `gint`) read from a
non-empty autofit string and a video of positive native width and height,
`handle_autofit_opt` sets the ratio to 1 when the native width is at most the
box width and the native height at most the box height; otherwise it sets it
to the smaller of the two `gdouble` quotients box / native, a finite value
within one part in `2 ^ 52` of min (box_width / native_width,
box_height / native_height) when the native sizes are below `2 ^ 53`. Native
1920x1080 in the box 3840x2160 gives 1, native 3840x2160 in the box 1920x1080
gives 1/2, and native 1920x1080 in the box 1920x2160 gives 1. -/
theorem handle_autofit_opt_ratio (app : App) (engine : Engine) (optbuf : List Char)
    (box : Dim) (vw vh : Int)
    (hopt : engine.autofit = some optbuf) (hne : 0 < optbuf.length)
    (hw : engine.dwidth = some vw) (hh : engine.dheight = some vh)
    (hbox : parse_dim_string app.before app.screen_width app.screen_height optbuf = box)
    (hbw : 0 < box.width ∧ box.width < 2 ^ 31) (hbh : 0 < box.height ∧ box.height < 2 ^ 31)
    (hvw : 0 < vw) (hvh : 0 < vh) :
    (vw ≤ box.width ∧ vh ≤ box.height →
      (handle_autofit_opt app engine).autofit_ratio = F64.of_int 1) ∧
    (¬(vw ≤ box.width ∧ vh ≤ box.height) →
      (handle_autofit_opt app engine).autofit_ratio =
        (if F64.lt (F64.div (F64.of_int box.width) (F64.of_int vw))
              (F64.div (F64.of_int box.height) (F64.of_int vh)) = true then
          F64.div (F64.of_int box.width) (F64.of_int vw)
        else F64.div (F64.of_int box.height) (F64.of_int vh)) ∧
      ∃ m e, (handle_autofit_opt app engine).autofit_ratio = F64.fin m e ∧
        (vw < 2 ^ 53 → vh < 2 ^ 53 →
          |dyadic m e - min ((box.width : ℚ) / (vw : ℚ)) ((box.height : ℚ) / (vh : ℚ))|
            ≤ min ((box.width : ℚ) / (vw : ℚ)) ((box.height : ℚ) / (vh : ℚ))
                * (2 : ℚ) ^ (-52 : Int))) ∧
    (handle_autofit_opt app_ratio_seven (engine_video "3840x2160" 1920 1080)).autofit_ratio
      = F64.of_int 1 ∧
    (handle_autofit_opt app_ratio_seven (engine_video "1920x1080" 3840 2160)).autofit_ratio
      = F64.fin 4503599627370496 (-53) ∧
    dyadic 4503599627370496 (-53) = 1 / 2 ∧
    (handle_autofit_opt app_ratio_seven (engine_video "1920x2160" 1920 1080)).autofit_ratio
      = F64.of_int 1 := by
  have heq := autofit_ratio_after_eq app.before app.screen_width app.screen_height
    app.autofit_ratio engine optbuf vw vh hopt hne hw hh
  rw [hbox] at heq
  have hp1 := quot_pos box.width vw hbw.1 hvw
  have hp2 := quot_pos box.height vh hbh.1 hvh
  rw [if_pos ⟨hp1, hp2⟩] at heq
  have hval : (handle_autofit_opt app engine).autofit_ratio =
      autofit_ratio_after app.before app.screen_width app.screen_height app.autofit_ratio
        engine := rfl
  refine ⟨?_, ?_, by decide, by decide, ?_, by decide⟩
  · rintro ⟨h1, h2⟩
    rw [hval, heq]
    exact fits_ratio _ _ (quot_fits _ _ hvw h1 hbw.2) (quot_fits _ _ hvh h2 hbh.2)
  · intro hn
    have hsmall : ¬(F64.lt (F64.of_int 1) (F64.div (F64.of_int box.width) (F64.of_int vw)) = true ∧
        F64.lt (F64.of_int 1) (F64.div (F64.of_int box.height) (F64.of_int vh)) = true) := by
      rintro ⟨c1, c2⟩
      by_cases hc : vw ≤ box.width
      · have : box.height < vh := by
          by_contra hx
          exact hn ⟨hc, not_lt.mp hx⟩
        rw [quot_small _ _ hbh.1 hbh.2 this] at c2
        cases c2
      · rw [quot_small _ _ hbw.1 hbw.2 (not_le.mp hc)] at c1
        cases c1
    rw [if_neg hsmall] at heq
    rw [hval]
    refine ⟨heq, ?_⟩
    rw [heq]
    obtain ⟨q1, e1, B1, V1, hd1, _, herr1, _, _, hB1, hV1, _⟩ := quot_spec box.width vw hbw.1 hvw
    obtain ⟨q2, e2, B2, V2, hd2, _, herr2, _, _, hB2, hV2, _⟩ := quot_spec box.height vh hbh.1 hvh
    rw [hB1 (by omega)] at herr1
    rw [hB2 (by omega)] at herr2
    rw [hd1, hd2]
    have h52 : (2 : ℚ) ^ (-52 : Int) ≤ 1 := by
      rw [show (-52 : Int) = -((52 : Nat) : Int) by norm_num, zpow_neg, zpow_natCast]
      norm_num
    by_cases hlt : F64.lt (F64.fin q1 e1) (F64.fin q2 e2) = true
    · rw [if_pos hlt]
      refine ⟨q1, e1, rfl, fun s1 s2 => ?_⟩
      rw [hV1 s1] at herr1
      rw [hV2 s2] at herr2
      have hl : dyadic q1 e1 < dyadic q2 e2 := (fin_lt_iff _ _ _ _).mp hlt
      have := min_accuracy _ _ _ _ _ h52 herr1 herr2
      rwa [min_eq_left (le_of_lt hl)] at this
    · rw [if_neg hlt]
      refine ⟨q2, e2, rfl, fun s1 s2 => ?_⟩
      rw [hV1 s1] at herr1
      rw [hV2 s2] at herr2
      have hl : ¬ dyadic q1 e1 < dyadic q2 e2 := fun h => hlt ((fin_lt_iff _ _ _ _).mpr h)
      have := min_accuracy _ _ _ _ _ h52 herr1 herr2
      rwa [min_eq_right (not_lt.mp hl)] at this
  · unfold dyadic
    rw [show (-53 : Int) = -((53 : Nat) : Int) by norm_num, zpow_neg, zpow_natCast]
    norm_num

set_option maxRecDepth 100000 in
/-- C11, at a video of 1280x720 in the box "640x480" on a 1920x1080 screen:
the box is smaller than the video, and the ratio set is the smaller of the two
quotients, 640 / 1280 = 1/2. -/
theorem handle_autofit_opt_ratio_witness :
    ¬((1280 : Int) ≤ 640 ∧ (720 : Int) ≤ 480) ∧
    (handle_autofit_opt app_ratio_seven (engine_video "640x480" 1280 720)).autofit_ratio =
      (if F64.lt (F64.div (F64.of_int 640) (F64.of_int 1280))
            (F64.div (F64.of_int 480) (F64.of_int 720)) = true then
        F64.div (F64.of_int 640) (F64.of_int 1280)
      else F64.div (F64.of_int 480) (F64.of_int 720)) :=
  ⟨by decide,
    ((handle_autofit_opt_ratio app_ratio_seven (engine_video "640x480" 1280 720)
      "640x480".toList { width := 640, height := 480, defined := true } 1280 720
      rfl (by decide) rfl rfl (by decide) (by decide) (by decide) (by decide) (by decide)).2.1
      (by decide)).1⟩

/-- C12: the ratio is 1 after `mpv_obj_init`; a ratio that is finite, above 0
and at most 1 is followed by such a ratio after `handle_autofit_opt`, for
every autofit string, screen size and answer of the engine about the video's
size; so the ratio is in that range after any number of calls that follow
`mpv_obj_init`. -/
theorem autofit_ratio_never_scales_up (app : App) (playlist_new : GtkListStore) :
    (mpv_obj_init app playlist_new).autofit_ratio = F64.of_int 1 ∧
    dyadic 4503599627370496 (-52) = 1 ∧
    F64.of_int 1 = F64.fin 4503599627370496 (-52) ∧
    (∀ (a : App) (engine : Engine), ratio_in_unit a.autofit_ratio →
      ratio_in_unit (handle_autofit_opt a engine).autofit_ratio) ∧
    ∀ engines : List Engine,
      ratio_in_unit (engines.foldl handle_autofit_opt (mpv_obj_init app playlist_new)).autofit_ratio := by
  have hstep : ∀ (a : App) (engine : Engine), ratio_in_unit a.autofit_ratio →
      ratio_in_unit (handle_autofit_opt a engine).autofit_ratio := fun a engine h =>
    autofit_ratio_after_in_unit a.before a.screen_width a.screen_height a.autofit_ratio engine h
  refine ⟨rfl, dyadic_one, of_int_one, hstep, fun engines => ?_⟩
  have hfold : ∀ (es : List Engine) (a : App), ratio_in_unit a.autofit_ratio →
      ratio_in_unit (es.foldl handle_autofit_opt a).autofit_ratio := by
    intro es
    induction es with
    | nil => intro a h; exact h
    | cons e es ih => intro a h; exact ih _ (hstep a e h)
  exact hfold engines _ one_in_unit

/-- C12, after `mpv_obj_init` and three calls, the video's size read as 0x0,
as -4x-3 and as 3840x2160 under the autofit string "1920x1080". -/
theorem autofit_ratio_never_scales_up_witness :
    ratio_in_unit
      ([engine_video "1920x1080" 0 0, engine_video "1920x1080" (-4) (-3),
        engine_video "1920x1080" 3840 2160].foldl handle_autofit_opt
          (mpv_obj_init app_start [])).autofit_ratio :=
  (autofit_ratio_never_scales_up app_start []).2.2.2.2 _

set_option maxRecDepth 100000 in
/-- C13 (evaluation at the failing input): with the autofit string "100x100"
and a video reported as 0 wide and 200 high, `handle_autofit_opt` does not
keep the ratio it finds: the ratio 1 is replaced by 100 / 200 = 1/2, the width quotient 100 / 0 being the positive
infinity, which passes the test `width_ratio > 0`. With the size reported as
0x0 the ratio 1/2 is replaced by 1. -/
theorem handle_autofit_opt_zero_width :
    app_start.autofit_ratio = F64.fin 4503599627370496 (-52) ∧
    F64.div (F64.of_int 100) (F64.of_int 0) = F64.inf false ∧
    (handle_autofit_opt app_start (engine_video "100x100" 0 200)).autofit_ratio
      = F64.fin 4503599627370496 (-53) ∧
    (handle_autofit_opt { app_start with autofit_ratio := F64.fin 4503599627370496 (-53) }
      (engine_video "100x100" 0 0)).autofit_ratio = F64.fin 4503599627370496 (-52) := by
  refine ⟨by decide, by decide, by decide, by decide⟩

/-! ## The log handler -/

theorem log_rule_matches_iff (r m : List Char) :
    log_rule_matches r m = true ↔ rule_applies r m := by
  unfold log_rule_matches rule_applies
  simp only [Bool.and_eq_true, Bool.or_eq_true, decide_eq_true_eq]
  constructor
  · rintro ⟨ht, hl | ⟨hl, hc⟩⟩
    · left
      rw [hl, min_self, List.take_length] at ht
      rw [← hl, List.take_length] at ht
      exact ht
    · right
      rw [min_eq_right (le_of_lt hl), List.take_length] at ht
      refine ⟨m.drop (r.length + 1), ?_⟩
      have hsplit : m = m.take r.length ++ m.drop r.length := (List.take_append_drop _ _).symm
      have hd : m.drop r.length = '/' :: m.drop (r.length + 1) := by
        rw [List.drop_eq_getElem_cons hl]
        congr 1
        rw [List.getD_eq_getElem?_getD, List.getElem?_eq_getElem hl] at hc
        simpa using hc
      rw [← hd]
      calc m = m.take r.length ++ m.drop r.length := hsplit
        _ = r ++ m.drop r.length := by rw [← ht]
  · rintro (h | ⟨rest, h⟩)
    · subst h
      simp
    · subst h
      refine ⟨by simp, Or.inr ⟨by simp, ?_⟩⟩
      rw [List.getD_eq_getElem?_getD, List.getElem?_append_right (le_refl _)]
      simp

theorem log_find_rule_none (m : List Char) :
    ∀ l : List module_log_level,
      log_find_rule m l = none ↔ ∀ lv ∈ l, ¬ rule_applies lv.pfx.toList m := by
  intro l
  induction l with
  | nil => simp [log_find_rule]
  | cons a l ih =>
    simp only [log_find_rule, List.mem_cons, forall_eq_or_imp]
    by_cases h : log_rule_matches a.pfx.toList m = true
    · rw [if_pos h]
      have := (log_rule_matches_iff _ _).mp h
      constructor
      · intro c; cases c
      · intro c; exact absurd this c.1
    · rw [if_neg h, ih]
      have : ¬ rule_applies a.pfx.toList m := fun c => h ((log_rule_matches_iff _ _).mpr c)
      exact ⟨fun c => ⟨this, c⟩, fun c => c.2⟩

theorem log_find_rule_first (m : List Char) (pre : List module_log_level)
    (lv : module_log_level) (post : List module_log_level)
    (hlv : rule_applies lv.pfx.toList m)
    (hpre : ∀ x ∈ pre, ¬ rule_applies x.pfx.toList m) :
    log_find_rule m (pre ++ lv :: post) = some lv := by
  induction pre with
  | nil =>
    simp only [List.nil_append, log_find_rule]
    rw [if_pos ((log_rule_matches_iff _ _).mpr hlv)]
  | cons a pre ih =>
    simp only [List.cons_append, log_find_rule]
    have : ¬ log_rule_matches a.pfx.toList m = true := fun c =>
      hpre a (List.mem_cons_self _ _) ((log_rule_matches_iff _ _).mp c)
    rw [if_neg this]
    exact ih (fun x hx => hpre x (List.mem_cons_of_mem _ hx))

theorem log_handler_calls_eq (l : List module_log_level) (message : mpv_event_log_message) :
    log_handler_calls l message =
      if log_passes l message = true then
        (if message.text.toList.length ≤ 1 then []
          else [log_forward message (strip_newline message.text.toList)])
      else [] := by
  unfold log_handler_calls log_passes log_text log_forward strip_newline
  simp only []
  by_cases hp : (match log_find_rule message.pfx.toList l with
      | none => true
      | some level => decide (message.log_level ≤ level.level)) = true
  · rw [if_pos hp, if_pos hp]
    by_cases hl : 1 < message.text.toList.length
    · rw [if_pos hl, if_neg (show ¬ message.text.toList.length ≤ 1 by omega)]
    · rw [if_neg hl, if_pos (show message.text.toList.length ≤ 1 by omega)]
  · rw [if_neg hp, if_neg hp]


/-- C14: the test `mpv_obj_log_handler` makes on a rule holds exactly when the
rule's prefix is the message's module prefix or the module prefix is the
rule's prefix followed by '/' and more; the rule it applies is the first one
in list order that passes this test, its level deciding whether the message
goes on, and a message that no rule matches goes on; a message that goes on is
printed unless its text has at most one character. The rule "cplayer" is
applied to "cplayer" and "cplayer/vo" and not to "cplayerx"; with the rules
cplayer=fatal, cplayer/vo=trace an info message of "cplayer/vo" is held back
by the first rule, and one of "cplayerx" is printed. -/
theorem log_handler_first_matching_rule (app : App) (message : mpv_event_log_message) :
    (∀ rule_pfx : List Char,
      log_rule_matches rule_pfx message.pfx.toList = true ↔
        rule_applies rule_pfx message.pfx.toList) ∧
    (∀ pre lv post, app.log_level_list = pre ++ lv :: post →
      rule_applies lv.pfx.toList message.pfx.toList →
      (∀ x ∈ pre, ¬ rule_applies x.pfx.toList message.pfx.toList) →
      log_find_rule message.pfx.toList app.log_level_list = some lv ∧
      (mpv_obj_log_handler app message).out = app.out ++
        (if message.log_level ≤ lv.level then
          (if message.text.toList.length ≤ 1 then []
            else [log_forward message (strip_newline message.text.toList)])
        else [])) ∧
    ((∀ x ∈ app.log_level_list, ¬ rule_applies x.pfx.toList message.pfx.toList) →
      log_find_rule message.pfx.toList app.log_level_list = none ∧
      (mpv_obj_log_handler app message).out = app.out ++
        (if message.text.toList.length ≤ 1 then []
          else [log_forward message (strip_newline message.text.toList)])) ∧
    log_rule_matches "cplayer".toList "cplayer".toList = true ∧
    log_rule_matches "cplayer".toList "cplayer/vo".toList = true ∧
    log_rule_matches "cplayer".toList "cplayerx".toList = false ∧
    (mpv_obj_log_handler { app_start with log_level_list := rules_cplayer } message_vo).out
      = [] ∧
    (mpv_obj_log_handler { app_start with log_level_list := rules_cplayer } message_cplayerx).out
      = [Call.g_message "[cplayerx] hello"] := by
  have hout : (mpv_obj_log_handler app message).out =
      app.out ++ log_handler_calls app.log_level_list message := rfl
  refine ⟨fun r => log_rule_matches_iff r _, ?_, ?_, by decide, by decide, by decide,
    by decide, by decide⟩
  · intro pre lv post hl hlv hpre
    have hf : log_find_rule message.pfx.toList app.log_level_list = some lv := by
      rw [hl]
      exact log_find_rule_first _ pre lv post hlv hpre
    refine ⟨hf, ?_⟩
    rw [hout, log_handler_calls_eq]
    unfold log_passes
    rw [hf]
    simp only [decide_eq_true_eq]
  · intro hnone
    have hf := (log_find_rule_none message.pfx.toList app.log_level_list).mpr hnone
    refine ⟨hf, ?_⟩
    rw [hout, log_handler_calls_eq]
    unfold log_passes
    rw [hf]
    simp only [if_true]

/-- C15 (counterexample): the text "a" followed by a newline passes the
level test and is printed as "a", although the text left after stripping has
length 1. -/
theorem log_handler_short_text_counterexample :
    log_passes app_start.log_level_list message_short = true ∧
    (mpv_obj_log_handler app_start message_short).out = [Call.g_message "[cplayer] a"] ∧
    ¬((mpv_obj_log_handler app_start message_short).out = app_start.out ↔
      (strip_newline message_short.text.toList).length ≤ 1) := by
  refine ⟨by decide, by decide, by decide⟩

/-- C15 (amended): a message that passes the level test is dropped exactly when
its text, before stripping, has length at most 1; otherwise it is printed
once, with its text less one trailing newline when it ends in a newline and
with its text as it is when it does not. -/
theorem log_handler_text (app : App) (message : mpv_event_log_message)
    (hpass : log_passes app.log_level_list message = true) :
    ((mpv_obj_log_handler app message).out = app.out ↔ message.text.toList.length ≤ 1) ∧
    (1 < message.text.toList.length →
      (mpv_obj_log_handler app message).out =
        app.out ++ [log_forward message (strip_newline message.text.toList)]) ∧
    (∀ body, message.text.toList = body ++ ['\n'] →
      strip_newline message.text.toList = body) ∧
    (message.text.toList.getLast? ≠ some '\n' →
      strip_newline message.text.toList = message.text.toList) := by
  have hout : (mpv_obj_log_handler app message).out =
      app.out ++ log_handler_calls app.log_level_list message := rfl
  rw [hout, log_handler_calls_eq, if_pos hpass]
  refine ⟨?_, ?_, ?_, ?_⟩
  · by_cases hl : message.text.toList.length ≤ 1
    · rw [if_pos hl, List.append_nil]
      exact ⟨fun _ => hl, fun _ => rfl⟩
    · rw [if_neg hl]
      refine ⟨fun c => ?_, fun c => absurd c hl⟩
      have := congrArg List.length c
      simp at this
  · intro hl
    rw [if_neg (show ¬ message.text.toList.length ≤ 1 by omega)]
  · intro body hb
    unfold strip_newline
    rw [hb]
    simp
  · intro hn
    unfold strip_newline
    rw [if_neg hn]

/-- C15 (amended), at the text "hello" followed by a newline, with no rule:
printed as "hello". -/
theorem log_handler_text_witness :
    log_passes app_start.log_level_list message_vo = true ∧
    (mpv_obj_log_handler app_start message_vo).out =
      app_start.out ++ [log_forward message_vo (strip_newline message_vo.text.toList)] ∧
    log_forward message_vo (strip_newline message_vo.text.toList)
      = Call.g_message "[cplayer/vo] hello" :=
  ⟨by decide, (log_handler_text app_start message_vo (by decide)).2.1 (by decide), by decide⟩

/-! ## The message-level option -/

theorem find_level_none : find_level none level_map = none := by decide

theorem find_level_some (name : List Char) :
    find_level (some name) level_map = level_of_name name := by
  unfold level_of_name
  simp only [find_level, level_map, Option.some.injEq]

theorem g_strsplit_loop_first (delim : Char) :
    ∀ (s acc : List Char),
      g_strsplit_loop delim 1 acc s =
        match (split_first delim s).2 with
        | none => [acc.reverse ++ (split_first delim s).1]
        | some b => [acc.reverse ++ (split_first delim s).1, b] := by
  intro s
  induction s with
  | nil => intro acc; simp [g_strsplit_loop, split_first]
  | cons c cs ih =>
    intro acc
    by_cases hc : c = delim
    · simp only [g_strsplit_loop, split_first, hc, if_true]
      cases cs <;> simp [g_strsplit_loop]
    · simp only [g_strsplit_loop, split_first, hc, if_false]
      rw [ih (c :: acc)]
      cases (split_first delim cs).2 <;> simp

theorem g_strsplit_pair (t : List Char) (ht : t ≠ []) :
    g_strsplit t '=' 2 =
      match (split_first '=' t).2 with
      | none => [(split_first '=' t).1]
      | some b => [(split_first '=' t).1, b] := by
  have hne : t.isEmpty = false := by cases t <;> simp at ht ⊢
  unfold g_strsplit
  rw [hne]
  simp only [Bool.false_eq_true, if_false]
  have := g_strsplit_loop_first '=' t []
  simpa using this

theorem msg_level_token_spec (st : List module_log_level × Int) (t : List Char)
    (ht : t ≠ []) :
    msg_level_token st t = some
      (match token_rule t with
        | none => st
        | some r => (if r.pfx ≠ "all" then st.1 ++ [r] else st.1, max st.2 r.level)) := by
  unfold msg_level_token token_rule
  rw [g_strsplit_pair t ht]
  cases hs : (split_first '=' t).2 with
  | none =>
    simp only [List.head?_nil, find_level_none]
  | some b =>
    simp only [List.head?_cons, find_level_some]
    cases hl : level_of_name b with
    | none => simp
    | some lv =>
      simp only [Option.map_some']
      congr 1
      have hall : (split_first '=' t).1 ≠ "all".toList ↔
          (String.mk (split_first '=' t).1) ≠ "all" := by
        constructor
        · intro h c; apply h; rw [← c]; rfl
        · intro h c; apply h; rw [c]; rfl
      by_cases hm : (split_first '=' t).1 ≠ "all".toList
      · rw [if_pos hm, if_pos (hall.mp hm)]
        congr 1
        rcases le_total st.2 lv with h | h
        · rcases eq_or_lt_of_le h with h1 | h1
          · rw [if_neg (by omega), max_eq_right h]; omega
          · rw [if_pos (by omega), max_eq_right h]
        · rw [if_neg (by omega), max_eq_left h]
      · rw [if_neg hm, if_neg (fun c => hm (hall.mpr c))]
        congr 1
        rcases le_total st.2 lv with h | h
        · rcases eq_or_lt_of_le h with h1 | h1
          · rw [if_neg (by omega), max_eq_right h]; omega
          · rw [if_pos (by omega), max_eq_right h]
        · rw [if_neg (by omega), max_eq_left h]

theorem msg_level_token_nil (st : List module_log_level × Int) :
    msg_level_token st [] = none := by
  unfold msg_level_token
  rfl

theorem msg_level_tokens_some :
    ∀ (tokens : List (List Char)) (st st1 : List module_log_level × Int),
      msg_level_tokens tokens st = some st1 → ∀ t ∈ tokens, t ≠ [] := by
  intro tokens
  induction tokens with
  | nil => intro st st1 _ t ht; cases ht
  | cons a rest ih =>
    intro st st1 h t ht
    simp only [msg_level_tokens] at h
    cases hm : msg_level_token st a with
    | none => rw [hm] at h; cases h
    | some st2 =>
      rw [hm] at h
      rcases List.mem_cons.mp ht with rfl | hr
      · intro c
        rw [c, msg_level_token_nil] at hm
        cases hm
      · exact ih st2 st1 h t hr

theorem msg_level_tokens_spec :
    ∀ (tokens : List (List Char)) (st : List module_log_level × Int),
      (∀ t ∈ tokens, t ≠ []) →
      msg_level_tokens tokens st = some
        (st.1 ++ (tokens.filterMap token_rule).filter (fun r => decide (r.pfx ≠ "all")),
          highest_level st.2 (tokens.filterMap token_rule)) := by
  intro tokens
  induction tokens with
  | nil => intro st _; simp [msg_level_tokens, highest_level]
  | cons a rest ih =>
    intro st h
    have ha : a ≠ [] := h a (List.mem_cons_self _ _)
    have hr : ∀ t ∈ rest, t ≠ [] := fun t ht => h t (List.mem_cons_of_mem _ ht)
    simp only [msg_level_tokens]
    rw [msg_level_token_spec st a ha]
    simp only []
    rw [ih _ hr]
    cases htr : token_rule a with
    | none => simp [List.filterMap_cons, htr]
    | some r =>
      simp only [List.filterMap_cons, htr, highest_level, List.foldl_cons]
      by_cases hall : r.pfx ≠ "all"
      · simp [hall, List.filter_cons]
      · simp [hall, List.filter_cons]

theorem search_level_name (lv : Int) (n : Option String)
    (h : search_level lv level_map = some n) :
    ∃ name, n = some name ∧ level_of_name name.toList = some lv := by
  simp only [search_level, level_map] at h
  split_ifs at h with h0 h1 h2 h3 h4 h5 h6 h7
  all_goals (cases h; subst lv; exact ⟨_, rfl, by decide⟩)

theorem search_level_in_table (lv : Int)
    (h : lv ∈ [(0 : Int), 10, 20, 30, 40, 50, 60, 70]) :
    ∃ n, search_level lv level_map = some n := by
  simp only [List.mem_cons, List.mem_singleton, List.not_mem_nil, or_false] at h
  rcases h with h | h | h | h | h | h | h | h <;> subst h <;> exact ⟨_, rfl⟩

theorem level_of_name_in_table (name : List Char) (lv : Int)
    (h : level_of_name name = some lv) :
    lv ∈ [(0 : Int), 10, 20, 30, 40, 50, 60, 70] := by
  unfold level_of_name at h
  split_ifs at h <;> cases h <;> decide

theorem token_rule_in_table (t : List Char) (r : module_log_level)
    (h : token_rule t = some r) : r.level ∈ [(0 : Int), 10, 20, 30, 40, 50, 60, 70] := by
  unfold token_rule at h
  cases hs : (split_first '=' t).2 with
  | none => rw [hs] at h; cases h
  | some b =>
    rw [hs] at h
    simp only [] at h
    obtain ⟨lv, hl, hr⟩ := Option.map_eq_some'.mp h
    rw [← hr]
    exact level_of_name_in_table b lv hl

theorem highest_level_in_table :
    ∀ (rules : List module_log_level) (start : Int),
      start ∈ [(0 : Int), 10, 20, 30, 40, 50, 60, 70] →
      (∀ r ∈ rules, r.level ∈ [(0 : Int), 10, 20, 30, 40, 50, 60, 70]) →
      highest_level start rules ∈ [(0 : Int), 10, 20, 30, 40, 50, 60, 70] := by
  intro rules
  induction rules with
  | nil => intro start h _; exact h
  | cons r rest ih =>
    intro start h hr
    simp only [highest_level, List.foldl_cons]
    apply ih
    · rcases max_choice start r.level with hm | hm
      · rw [hm]; exact h
      · rw [hm]; exact hr r (List.mem_cons_self _ _)
    · exact fun x hx => hr x (List.mem_cons_of_mem _ hx)

/-- The levels of the rules present are levels of the table. -/
theorem option_rules_in_table (optbuf : Option (List Char)) :
    ∀ r ∈ option_rules optbuf, r.level ∈ [(0 : Int), 10, 20, 30, 40, 50, 60, 70] := by
  intro r hr
  unfold option_rules at hr
  cases optbuf with
  | none => cases hr
  | some s =>
    simp only [List.mem_filterMap] at hr
    obtain ⟨t, _, ht⟩ := hr
    exact token_rule_in_table t r ht

theorem highest_level_spec :
    ∀ (rules : List module_log_level) (start : Int),
      start ≤ highest_level start rules ∧
      (∀ r ∈ rules, r.level ≤ highest_level start rules) ∧
      (highest_level start rules = start ∨ ∃ r ∈ rules, r.level = highest_level start rules) := by
  intro rules
  induction rules with
  | nil => intro start; simp [highest_level]
  | cons a rest ih =>
    intro start
    obtain ⟨h1, h2, h3⟩ := ih (max start a.level)
    have hh : highest_level start (a :: rest) = highest_level (max start a.level) rest := rfl
    rw [hh]
    refine ⟨le_trans (le_max_left _ _) h1, ?_, ?_⟩
    · intro r hr
      rcases List.mem_cons.mp hr with rfl | hr
      · exact le_trans (le_max_right _ _) h1
      · exact h2 r hr
    · rcases h3 with h3 | ⟨r, hr, h3⟩
      · rcases max_choice start a.level with hm | hm
        · left; rw [h3, hm]
        · right; exact ⟨a, List.mem_cons_self _ _, by rw [h3, hm]⟩
      · right; exact ⟨r, List.mem_cons_of_mem _ hr, h3⟩

theorem handle_msg_level_opt_eq (d : Int) (app : App) (optbuf : Option (List Char)) :
    handle_msg_level_opt d app optbuf =
      match msg_level_tokens (option_tokens optbuf) ([], d) with
      | none => none
      | some st =>
        match search_level st.2 level_map with
        | none => none
        | some name =>
          some ({ app with log_level_list := st.1 }.call (Call.mpv_request_log_messages name)) :=
  rfl

theorem option_rules_eq (optbuf : Option (List Char)) :
    option_rules optbuf = (option_tokens optbuf).filterMap token_rule := by
  cases optbuf <;> rfl

/-- What `handle_msg_level_opt` leaves when it returns. -/
theorem handle_msg_level_opt_some (d : Int) (app app1 : App) (optbuf : Option (List Char))
    (h : handle_msg_level_opt d app optbuf = some app1) :
    (∀ t ∈ option_tokens optbuf, t ≠ []) ∧
    ∃ name, level_of_name name.toList = some (highest_level d (option_rules optbuf)) ∧
      app1 = { app with
        log_level_list := (option_rules optbuf).filter (fun r => decide (r.pfx ≠ "all")) }.call
          (Call.mpv_request_log_messages (some name)) := by
  rw [handle_msg_level_opt_eq] at h
  cases hm : msg_level_tokens (option_tokens optbuf) ([], d) with
  | none => rw [hm] at h; cases h
  | some st =>
    rw [hm] at h
    have hne := msg_level_tokens_some _ _ _ hm
    rw [msg_level_tokens_spec _ _ hne] at hm
    cases hm
    simp only [List.nil_append] at h
    rw [← option_rules_eq] at h
    cases hs : search_level (highest_level d (option_rules optbuf)) level_map with
    | none => rw [hs] at h; cases h
    | some n =>
      rw [hs] at h
      obtain ⟨name, rfl, hl⟩ := search_level_name _ _ hs
      cases h
      exact ⟨hne, name, hl, rfl⟩

/-- When `handle_msg_level_opt` returns. -/
theorem handle_msg_level_opt_returns (d : Int) (app : App) (optbuf : Option (List Char))
    (hne : ∀ t ∈ option_tokens optbuf, t ≠ []) (hd : d ∈ table_levels) :
    ∃ app1, handle_msg_level_opt d app optbuf = some app1 := by
  rw [handle_msg_level_opt_eq, msg_level_tokens_spec _ _ hne]
  simp only [List.nil_append]
  rw [← option_rules_eq]
  obtain ⟨n, hn⟩ := search_level_in_table (highest_level d (option_rules optbuf))
    (highest_level_in_table _ _ hd (option_rules_in_table optbuf))
  rw [hn]
  exact ⟨_, rfl⟩

theorem handle_msg_level_opt_list (d : Int) (app app2 : App) (optbuf : Option (List Char)) :
    (handle_msg_level_opt d app2 optbuf).map (fun a => a.log_level_list) =
      (handle_msg_level_opt d app optbuf).map (fun a => a.log_level_list) := by
  rw [handle_msg_level_opt_eq, handle_msg_level_opt_eq]
  cases msg_level_tokens (option_tokens optbuf) ([], d) with
  | none => rfl
  | some st =>
    simp only []
    cases search_level st.2 level_map with
    | none => rfl
    | some n => rfl

/-- C16: whenever `handle_msg_level_opt` returns, the rule list it leaves has
no rule for "all": it holds the rules present in the option string other than
those for "all", in order, whatever rule list was there before, while the
level asked of the engine is the highest among `DEFAULT_LOG_LEVEL` and all the
rules present, those for "all" included. It returns when no token between
commas is empty and `DEFAULT_LOG_LEVEL` is a level of the table. -/
theorem msg_level_no_all_rule (d : Int) (app : App) (optbuf : Option (List Char)) :
    (∀ app1, handle_msg_level_opt d app optbuf = some app1 →
      (∀ r ∈ app1.log_level_list, r.pfx ≠ "all") ∧
      app1.log_level_list = (option_rules optbuf).filter (fun r => decide (r.pfx ≠ "all")) ∧
      (∀ prev : List module_log_level,
        (handle_msg_level_opt d { app with log_level_list := prev } optbuf).map
          (fun a => a.log_level_list) = some app1.log_level_list) ∧
      ∃ name, app1.out = app.out ++ [Call.mpv_request_log_messages (some name)] ∧
        level_of_name name.toList = some (highest_level d (option_rules optbuf))) ∧
    ((∀ t ∈ option_tokens optbuf, t ≠ []) → d ∈ table_levels →
      ∃ app1, handle_msg_level_opt d app optbuf = some app1) := by
  refine ⟨fun app1 h => ?_, handle_msg_level_opt_returns d app optbuf⟩
  obtain ⟨_, name, hl, happ⟩ := handle_msg_level_opt_some d app app1 optbuf h
  have hlist : app1.log_level_list =
      (option_rules optbuf).filter (fun r => decide (r.pfx ≠ "all")) := by
    rw [happ]; rfl
  refine ⟨?_, hlist, ?_, name, by rw [happ]; rfl, hl⟩
  · intro r hr
    rw [hlist] at hr
    have := (List.mem_filter.mp hr).2
    simpa using this
  · intro prev
    rw [handle_msg_level_opt_list d app _ optbuf, h]
    rfl

set_option maxRecDepth 100000 in
/-- C16, at the option "all=debug,cplayer=warn" with two rules left from
before and the default level error: the list becomes the one rule
cplayer=warn, and the engine is asked for the level debug. -/
theorem msg_level_no_all_rule_witness :
    handle_msg_level_opt 20 { app_start with log_level_list := rules_cplayer }
        (some "all=debug,cplayer=warn".toList) =
      some ({ app_start with log_level_list := [{ pfx := "cplayer", level := 30 }] }.call
        (Call.mpv_request_log_messages (some "debug"))) ∧
    ∀ r ∈ ({ app_start with log_level_list := [{ pfx := "cplayer", level := 30 }] }.call
        (Call.mpv_request_log_messages (some "debug"))).log_level_list, r.pfx ≠ "all" :=
  ⟨by decide,
    ((msg_level_no_all_rule 20 { app_start with log_level_list := rules_cplayer }
      (some "all=debug,cplayer=warn".toList)).1 _ (by decide)).1⟩

set_option maxRecDepth 100000 in
/-- C17 (counterexample): with `DEFAULT_LOG_LEVEL` at error, the option
"cplayer=fatal" holds the one rule cplayer=fatal, and the level asked of the
engine is error, which no rule present has; with `DEFAULT_LOG_LEVEL` at fatal
the option "x=no" makes the code ask for fatal. -/
theorem msg_level_request_counterexample :
    option_rules (some "cplayer=fatal".toList) = [{ pfx := "cplayer", level := 10 }] ∧
    level_of_name "fatal".toList = some 10 ∧
    handle_msg_level_opt 20 app_start (some "cplayer=fatal".toList) =
      some ({ app_start with log_level_list := [{ pfx := "cplayer", level := 10 }] }.call
        (Call.mpv_request_log_messages (some "error"))) ∧
    option_rules (some "x=no".toList) = [{ pfx := "x", level := 0 }] ∧
    handle_msg_level_opt 10 app_start (some "x=no".toList) =
      some ({ app_start with log_level_list := [{ pfx := "x", level := 0 }] }.call
        (Call.mpv_request_log_messages (some "fatal"))) := by
  refine ⟨by decide, by decide, by decide, by decide, by decide⟩

/-- C17 (amended): for every option string without an empty token between
commas and every `DEFAULT_LOG_LEVEL` of the table, `handle_msg_level_opt`
returns and asks the engine for the level that is the highest among
`DEFAULT_LOG_LEVEL` and the rules present, the names no, fatal, error, warn,
info, v, debug, trace standing for rising levels. -/
theorem msg_level_request (d : Int) (app : App) (optbuf : Option (List Char))
    (hne : ∀ t ∈ option_tokens optbuf, t ≠ []) (hd : d ∈ table_levels) :
    (∃ app1 name, handle_msg_level_opt d app optbuf = some app1 ∧
      app1.out = app.out ++ [Call.mpv_request_log_messages (some name)] ∧
      level_of_name name.toList = some (highest_level d (option_rules optbuf))) ∧
    d ≤ highest_level d (option_rules optbuf) ∧
    (∀ r ∈ option_rules optbuf, r.level ≤ highest_level d (option_rules optbuf)) ∧
    (highest_level d (option_rules optbuf) = d ∨
      ∃ r ∈ option_rules optbuf, r.level = highest_level d (option_rules optbuf)) ∧
    ["no", "fatal", "error", "warn", "info", "v", "debug", "trace"].map
        (fun name => level_of_name name.toList) =
      [some 0, some 10, some 20, some 30, some 40, some 50, some 60, some 70] := by
  obtain ⟨app1, h⟩ := handle_msg_level_opt_returns d app optbuf hne hd
  obtain ⟨_, name, hl, happ⟩ := handle_msg_level_opt_some d app app1 optbuf h
  obtain ⟨h1, h2, h3⟩ := highest_level_spec (option_rules optbuf) d
  exact ⟨⟨app1, name, h, by rw [happ]; rfl, hl⟩, h1, h2, h3, by decide⟩

set_option maxRecDepth 100000 in
/-- C17 (amended), at the rule set cplayer=warn with `DEFAULT_LOG_LEVEL` at
error: the level asked of the engine has the value of warn. -/
theorem msg_level_request_witness :
    handle_msg_level_opt 20 app_start (some "cplayer=warn".toList) =
      some ({ app_start with log_level_list := [{ pfx := "cplayer", level := 30 }] }.call
        (Call.mpv_request_log_messages (some "warn"))) ∧
    highest_level 20 (option_rules (some "cplayer=warn".toList)) = 30 ∧
    ∃ app1 name, handle_msg_level_opt 20 app_start (some "cplayer=warn".toList) = some app1 ∧
      app1.out = app_start.out ++ [Call.mpv_request_log_messages (some name)] ∧
      level_of_name name.toList = some (highest_level 20 (option_rules (some "cplayer=warn".toList))) :=
  ⟨by decide, by decide,
    (msg_level_request 20 app_start (some "cplayer=warn".toList) (by decide) (by decide)).1⟩

/-! ## Option strings -/

theorem apply_args_loop_eq (sink : List Call → String → String → Int) (args : List Char) :
    ∀ (fuel opt_begin : Nat) (calls : List Call) (fail_count : Int),
      apply_args_loop sink args fuel opt_begin calls fail_count =
        (apply_args_options args fuel opt_begin).map
          (fun opts => (calls ++ opts.map (fun o => Call.mpv_set_option_string o.1 o.2),
            fail_count + rejected_count sink calls opts)) := by
  intro fuel
  induction fuel with
  | zero => intro ob calls fail; rfl
  | succ fuel ih =>
    intro ob calls fail
    simp only [apply_args_loop, apply_args_options]
    cases strstr (args.drop (apply_args_end args ob)) " --".toList with
    | none =>
      simp only [Option.map_some', List.map_cons, List.map_nil, rejected_count, add_zero]
      congr 2
      split_ifs <;> ring
    | some k =>
      simp only []
      rw [ih]
      cases apply_args_options args fuel (apply_args_end args ob + k + 1) with
      | none => rfl
      | some rest =>
        simp only [Option.map_some', List.map_cons, rejected_count, List.append_assoc,
          List.singleton_append]
        congr 2
        split_ifs <;> ring

theorem strstr_some :
    ∀ (s pat : List Char) (k : Nat), strstr s pat = some k →
      pat.isPrefixOf (s.drop k) = true ∧ k + pat.length ≤ s.length := by
  intro s
  induction s with
  | nil =>
    intro pat k h
    simp only [strstr] at h
    split_ifs at h with hp
    cases h
    subst hp
    simp
  | cons c cs ih =>
    intro pat k h
    simp only [strstr] at h
    split_ifs at h with hp
    · cases h
      refine ⟨by simpa using hp, ?_⟩
      have := List.IsPrefix.length_le (List.isPrefixOf_iff_prefix.mp hp)
      simpa using this
    · obtain ⟨j, hj, rfl⟩ := Option.map_eq_some'.mp h
      obtain ⟨h1, h2⟩ := ih pat j hj
      exact ⟨by simpa using h1, by simp only [List.length_cons]; omega⟩

theorem strstr_dashes (s : List Char) (k : Nat) (h : strstr s "--".toList = some k) :
    at_dashes s k := by
  obtain ⟨h1, _⟩ := strstr_some s _ k h
  have := List.isPrefixOf_iff_prefix.mp h1
  obtain ⟨t, ht⟩ := this
  exact ⟨t, by rw [← ht]; rfl⟩

theorem strstr_next (args : List Char) (e k : Nat)
    (h : strstr (args.drop e) " --".toList = some k) :
    at_dashes args (e + k + 1) ∧ e + k + 3 ≤ args.length := by
  obtain ⟨h1, h2⟩ := strstr_some _ _ k h
  obtain ⟨t, ht⟩ := List.isPrefixOf_iff_prefix.mp h1
  rw [List.drop_drop] at ht
  have hlen : (" --".toList).length = 3 := rfl
  rw [hlen, List.length_drop] at h2
  have h3 : " --".toList ++ t = ' ' :: '-' :: '-' :: t := rfl
  rw [h3] at ht
  refine ⟨⟨t, ?_⟩, ?_⟩
  · rw [← List.drop_drop, ← ht]
    rfl
  · have := congrArg List.length ht
    simp only [List.length_cons, List.length_drop] at this
    omega

theorem apply_args_back_range (args : List Char) (ob : Nat) :
    ∀ e0 : Nat, ob + 1 ≤ e0 →
      ob ≤ apply_args_back args ob e0 ∧ apply_args_back args ob e0 + 1 ≤ e0 := by
  intro e0
  induction e0 with
  | zero => intro h; omega
  | succ e ih =>
    intro h
    simp only [apply_args_back]
    split_ifs with hc
    · have := ih (by omega)
      omega
    · omega

theorem strstr_first_not (c : Char) (cs pat : List Char) (k : Nat)
    (hp : pat.isPrefixOf (c :: cs) = false) (h : strstr (c :: cs) pat = some k) : 1 ≤ k := by
  simp only [strstr, hp, Bool.false_eq_true, if_false] at h
  obtain ⟨j, _, rfl⟩ := Option.map_eq_some'.mp h
  omega

theorem apply_args_end_range (args : List Char) (ob : Nat) (h : at_dashes args ob) :
    ob ≤ apply_args_end args ob ∧ apply_args_end args ob + 1 ≤ args.length ∧
      ob + 2 ≤ args.length := by
  obtain ⟨rest, hr⟩ := h
  have hlen : ob + 2 ≤ args.length := by
    have := congrArg List.length hr
    simp only [List.length_cons, List.length_drop] at this
    omega
  unfold apply_args_end
  cases hs : strstr (args.drop ob) " --".toList with
  | none =>
    simp only []
    have := apply_args_back_range args ob args.length (by omega)
    omega
  | some k =>
    simp only []
    have hk : 1 ≤ k := by
      rw [hr] at hs
      exact strstr_first_not _ _ _ k (by rfl) hs
    obtain ⟨_, h2⟩ := strstr_some _ _ k hs
    rw [List.length_drop] at h2
    have := apply_args_back_range args ob (ob + k) (by omega)
    omega

theorem apply_args_options_total (args : List Char) :
    ∀ (fuel ob : Nat), at_dashes args ob → args.length - ob < fuel →
      ∃ opts, apply_args_options args fuel ob = some opts ∧ opts.length ≤ args.length - ob := by
  intro fuel
  induction fuel with
  | zero => intro ob _ h; omega
  | succ fuel ih =>
    intro ob hd hf
    obtain ⟨h1, h2, h3⟩ := apply_args_end_range args ob hd
    simp only [apply_args_options]
    cases hs : strstr (args.drop (apply_args_end args ob)) " --".toList with
    | none => exact ⟨_, rfl, by simp only [List.length_singleton]; omega⟩
    | some k =>
      simp only []
      obtain ⟨hd1, hl1⟩ := strstr_next args _ k hs
      obtain ⟨opts, ho, hlen⟩ := ih (apply_args_end args ob + k + 1) hd1 (by omega)
      rw [ho]
      exact ⟨_, rfl, by simp only [List.length_cons]; omega⟩

theorem rejected_count_stateless (f : String → String → Int) :
    ∀ (opts : List (String × String)) (calls : List Call),
      rejected_count (fun _ name data => f name data) calls opts =
        ((opts.filter (fun o => decide (f o.1 o.2 < 0))).length : Int) := by
  intro opts
  induction opts with
  | nil => intro calls; rfl
  | cons o rest ih =>
    intro calls
    simp only [rejected_count, List.filter_cons]
    rw [ih]
    by_cases h : f o.1 o.2 < 0
    · simp only [h, if_true, decide_True, List.length_cons]
      push_cast
      ring
    · simp only [h, if_false, decide_False, Bool.false_eq_true]
      ring

set_option maxRecDepth 100000 in
/-- For every string, well formed or not, `mpv_obj_apply_args` returns, the
pieces it hands to the engine are the same, in the same order, whatever the
engine answers to each of them, and the value it returns is minus the number
of pieces the engine rejected. Which pieces these are is settled, for the
strings made of options, by `apply_args_options_layout`. -/
theorem apply_args_sink_independent (args : Option (List Char)) :
    (∃ options : List (String × String),
      options.length ≤ (args.getD []).length ∧
      ∀ sink : List Call → String → String → Int,
        mpv_obj_apply_args sink args =
          some (options.map (fun o => Call.mpv_set_option_string o.1 o.2),
            -(rejected_count sink [] options))) ∧
    (∀ (f : String → String → Int) (calls : List Call) (options : List (String × String)),
      rejected_count (fun _ name data => f name data) calls options =
        ((options.filter (fun o => decide (f o.1 o.2 < 0))).length : Int)) ∧
    mpv_obj_apply_args sink_rejects_b (some "--a=1 --b --c=2".toList) =
      some ([Call.mpv_set_option_string "a" "1", Call.mpv_set_option_string "b" "",
        Call.mpv_set_option_string "c" "2"], -1) := by
  refine ⟨?_, fun f calls options => rejected_count_stateless f options calls, by decide⟩
  cases args with
  | none => exact ⟨[], Nat.zero_le _, fun sink => rfl⟩
  | some s =>
    cases hs : strstr s "--".toList with
    | none =>
      refine ⟨[], Nat.zero_le _, fun sink => ?_⟩
      simp only [mpv_obj_apply_args, hs]
      rfl
    | some k =>
      obtain ⟨opts, ho, hlen⟩ := apply_args_options_total s (s.length + 1) k
        (strstr_dashes s k hs) (by omega)
      refine ⟨opts, by simp only [Option.getD_some]; omega, fun sink => ?_⟩
      simp only [mpv_obj_apply_args, hs]
      rw [apply_args_loop_eq, ho]
      simp

/-! ## The track lists -/

theorem node_get_absent (key : String) :
    ∀ node : mpv_node_list, key ∉ node.map Prod.fst → node_get key node = none := by
  intro node
  induction node with
  | nil => intro _; rfl
  | cons kv rest ih =>
    intro h
    simp only [List.map_cons, List.mem_cons, not_or] at h
    simp only [node_get]
    rw [if_neg (fun c => h.1 c.symm)]
    exact ih h.2

theorem track_values_ok_tail (kv : String × mpv_node) (rest : mpv_node_list)
    (hnd : ((kv :: rest).map Prod.fst).Nodup) (h : track_values_ok (kv :: rest)) :
    track_values_ok rest := by
  have hk : kv.1 ∉ rest.map Prod.fst := (List.nodup_cons.mp hnd).1
  have key : ∀ key v, node_get key rest = some v → node_get key (kv :: rest) = some v := by
    intro key v hv
    simp only [node_get]
    by_cases hc : kv.1 = key
    · rw [← hc, node_get_absent kv.1 rest hk] at hv
      cases hv
    · rw [if_neg hc]; exact hv
  obtain ⟨h1, h2, h3, h4⟩ := h
  exact ⟨fun v hv => h1 v (key _ v hv), fun v hv => h2 v (key _ v hv),
    fun v hv => h3 v (key _ v hv), fun v hv => h4 v (key _ v hv)⟩

theorem track_kind_known (t : String) (h : t = "audio" ∨ t = "video" ∨ t = "sub") :
    track_kind t ≠ TrackType.invalid := by
  rcases h with rfl | rfl | rfl <;> decide

theorem parse_track_keys_spec :
    ∀ (node : mpv_node_list) (entry : Track),
      (node.map Prod.fst).Nodup → track_values_ok node →
      parse_track_keys node entry = some (track_from entry node) := by
  intro node
  induction node with
  | nil => intro entry _ _; rfl
  | cons kv rest ih =>
    intro entry hnd hok
    have hk : kv.1 ∉ rest.map Prod.fst := (List.nodup_cons.mp hnd).1
    have hrest := track_values_ok_tail kv rest hnd hok
    have hnd2 : (rest.map Prod.fst).Nodup := (List.nodup_cons.mp hnd).2
    obtain ⟨h1, h2, h3, h4⟩ := hok
    simp only [parse_track_keys]
    by_cases ht : kv.1 = "type"
    · obtain ⟨t, hv, hkind⟩ := h1 kv.2 (by simp [node_get, ht])
      have habs : node_get "type" rest = none := by
        rw [← ht]; exact node_get_absent _ _ hk
      have hstep : parse_track_key entry kv = some { entry with type := track_kind t } := by
        unfold parse_track_key
        rw [if_pos ht, hv]
        simp only [mpv_node.u_string]
        rcases hkind with rfl | rfl | rfl <;> rfl
      rw [hstep]
      simp only []
      rw [ih _ hnd2 hrest]
      simp [track_from, node_get, ht, hv, habs]
    · by_cases htt : kv.1 = "title"
      · obtain ⟨s, hv⟩ := h2 kv.2 (by simp [node_get, htt])
        have habs : node_get "title" rest = none := by
          rw [← htt]; exact node_get_absent _ _ hk
        have hstep : parse_track_key entry kv = some { entry with title := some s } := by
          unfold parse_track_key
          rw [if_neg ht, if_pos htt, hv]
          rfl
        rw [hstep]
        simp only []
        rw [ih _ hnd2 hrest]
        simp [track_from, node_get, htt, hv, habs]
      · by_cases hl : kv.1 = "lang"
        · obtain ⟨s, hv⟩ := h3 kv.2 (by simp [node_get, hl])
          have habs : node_get "lang" rest = none := by
            rw [← hl]; exact node_get_absent _ _ hk
          have hstep : parse_track_key entry kv = some { entry with lang := some s } := by
            unfold parse_track_key
            rw [if_neg ht, if_neg htt, if_pos hl, hv]
            rfl
          rw [hstep]
          simp only []
          rw [ih _ hnd2 hrest]
          simp [track_from, node_get, hl, hv, habs]
        · by_cases hi : kv.1 = "id"
          · obtain ⟨n, hv⟩ := h4 kv.2 (by simp [node_get, hi])
            have habs : node_get "id" rest = none := by
              rw [← hi]; exact node_get_absent _ _ hk
            have hstep : parse_track_key entry kv = some { entry with id := n } := by
              unfold parse_track_key
              rw [if_neg ht, if_neg htt, if_neg hl, if_pos hi, hv]
              rfl
            rw [hstep]
            simp only []
            rw [ih _ hnd2 hrest]
            simp [track_from, node_get, hi, hv, habs]
          · have hstep : parse_track_key entry kv = some entry := by
              unfold parse_track_key
              rw [if_neg ht, if_neg htt, if_neg hl, if_neg hi]
            rw [hstep]
            simp only []
            rw [ih _ hnd2 hrest]
            simp [track_from, node_get, ht, htt, hl, hi]

theorem absent_or_string_spec (o : Option mpv_node) (h : absent_or_string o = true) :
    ∀ v, o = some v → ∃ s, v = mpv_node.string s := by
  intro v hv
  subst hv
  cases v with
  | string s => exact ⟨s, rfl⟩
  | flag b => cases h
  | int64 n => cases h
  | other => cases h

theorem absent_or_int64_spec (o : Option mpv_node) (h : absent_or_int64 o = true) :
    ∀ v, o = some v → ∃ n, v = mpv_node.int64 n := by
  intro v hv
  subst hv
  cases v with
  | string s => cases h
  | flag b => cases h
  | int64 n => exact ⟨n, rfl⟩
  | other => cases h

theorem track_type_known_spec (o : Option mpv_node) (h : track_type_known o = true) :
    ∃ t, o = some (mpv_node.string t) ∧ (t = "audio" ∨ t = "video" ∨ t = "sub") := by
  cases o with
  | none => cases h
  | some v =>
    cases v with
    | string s => exact ⟨s, rfl, by simpa [track_type_known] using h⟩
    | flag b => cases h
    | int64 n => cases h
    | other => cases h

theorem parse_track_list_ok (node : mpv_node_list) (h : track_node_ok node = true) :
    parse_track_list node = some (engine_track node) ∧
      (engine_track node).type ≠ TrackType.invalid := by
  simp only [track_node_ok, Bool.and_eq_true, decide_eq_true_eq] at h
  obtain ⟨⟨⟨⟨hnd, hty⟩, htitle⟩, hlang⟩, hid⟩ := h
  obtain ⟨t, ht, hkind⟩ := track_type_known_spec _ hty
  have hv : track_values_ok node :=
    ⟨fun v hv => ⟨t, by rw [ht] at hv; cases hv; rfl, hkind⟩,
      absent_or_string_spec _ htitle, absent_or_string_spec _ hlang,
      absent_or_int64_spec _ hid⟩
  refine ⟨?_, ?_⟩
  · unfold parse_track_list
    rw [parse_track_keys_spec node track_new hnd hv]
    rfl
  · simp only [engine_track, ht]
    exact track_kind_known t hkind

theorem classify_tracks_spec :
    ∀ (org_list : List mpv_node_list), (∀ node ∈ org_list, track_node_ok node = true) →
      ∀ (audio_list video_list sub_list : List Track),
        classify_tracks org_list (audio_list, video_list, sub_list) = some
          (((org_list.map engine_track).filter
              (fun t => decide (t.type = TrackType.audio))).reverse ++ audio_list,
            ((org_list.map engine_track).filter
              (fun t => decide (t.type = TrackType.video))).reverse ++ video_list,
            ((org_list.map engine_track).filter
              (fun t => decide (t.type = TrackType.subtitle))).reverse ++ sub_list) := by
  intro org_list
  induction org_list with
  | nil => intro _ a v s; rfl
  | cons node rest ih =>
    intro hok a v s
    obtain ⟨hp, hne⟩ := parse_track_list_ok node (hok node (List.mem_cons_self _ _))
    have hrest : ∀ n ∈ rest, track_node_ok n = true := fun n hn => hok n (List.mem_cons_of_mem _ hn)
    simp only [classify_tracks, hp, List.map_cons, List.filter_cons]
    cases hty : (engine_track node).type with
    | invalid => exact absurd hty hne
    | audio =>
      simp only []
      rw [ih hrest]
      simp
    | video =>
      simp only []
      rw [ih hrest]
      simp
    | subtitle =>
      simp only []
      rw [ih hrest]
      simp

theorem filter_kinds_length (tracks : List Track)
    (h : ∀ t ∈ tracks, t.type ≠ TrackType.invalid) :
    (tracks.filter (fun t => decide (t.type = TrackType.audio))).length +
      (tracks.filter (fun t => decide (t.type = TrackType.video))).length +
      (tracks.filter (fun t => decide (t.type = TrackType.subtitle))).length = tracks.length := by
  induction tracks with
  | nil => rfl
  | cons t rest ih =>
    have hr := ih (fun x hx => h x (List.mem_cons_of_mem _ hx))
    have ht := h t (List.mem_cons_self _ _)
    simp only [List.filter_cons, List.length_cons]
    cases hty : t.type with
    | invalid => exact absurd hty ht
    | audio => simp; omega
    | video => simp; omega
    | subtitle => simp; omega

/-- C19: when every node of the engine's track list describes a track of type
"audio", "video" or "sub", `mpv_obj_load_gui_update` returns, and the three
lists it hands to `main_window_update_track_list` are the engine's tracks of
kind audio, the ones of kind video and the ones of kind subtitle, each list in
the engine's order and each track with the id, title and language of its
node; no track is without a kind, so each is in exactly one list, and the
three lengths add up to the number of tracks. -/
theorem track_lists_by_kind (app : App) (engine : Engine) (org_list : List mpv_node_list)
    (h : engine.track_list = some org_list)
    (hok : ∀ node ∈ org_list, track_node_ok node = true) :
    (∃ app1 pre post, mpv_obj_load_gui_update app engine = some app1 ∧
      app1.out = app.out ++ pre ++
        [Call.action_set_state "audio_select" (engine.aid.getD (-1)),
          Call.action_set_state "sub_select" (engine.sid.getD (-1)),
          Call.main_window_update_track_list
            ((org_list.map engine_track).filter (fun t => decide (t.type = TrackType.audio)))
            ((org_list.map engine_track).filter (fun t => decide (t.type = TrackType.video)))
            ((org_list.map engine_track).filter (fun t => decide (t.type = TrackType.subtitle)))]
        ++ post) ∧
    (∀ node ∈ org_list, parse_track_list node = some (engine_track node)) ∧
    (∀ t ∈ org_list.map engine_track,
      t.type = TrackType.audio ∨ t.type = TrackType.video ∨ t.type = TrackType.subtitle) ∧
    ((org_list.map engine_track).filter (fun t => decide (t.type = TrackType.audio))).Sublist
      (org_list.map engine_track) ∧
    ((org_list.map engine_track).filter (fun t => decide (t.type = TrackType.video))).Sublist
      (org_list.map engine_track) ∧
    ((org_list.map engine_track).filter (fun t => decide (t.type = TrackType.subtitle))).Sublist
      (org_list.map engine_track) ∧
    ((org_list.map engine_track).filter (fun t => decide (t.type = TrackType.audio))).length +
      ((org_list.map engine_track).filter (fun t => decide (t.type = TrackType.video))).length +
      ((org_list.map engine_track).filter (fun t => decide (t.type = TrackType.subtitle))).length
      = org_list.length := by
  have hkinds : ∀ t ∈ org_list.map engine_track, t.type ≠ TrackType.invalid := by
    intro t ht
    obtain ⟨node, hn, rfl⟩ := List.mem_map.mp ht
    exact (parse_track_list_ok node (hok node hn)).2
  have hcalls : track_list_calls engine = some
      [Call.action_set_state "audio_select" (engine.aid.getD (-1)),
        Call.action_set_state "sub_select" (engine.sid.getD (-1)),
        Call.main_window_update_track_list
          ((org_list.map engine_track).filter (fun t => decide (t.type = TrackType.audio)))
          ((org_list.map engine_track).filter (fun t => decide (t.type = TrackType.video)))
          ((org_list.map engine_track).filter (fun t => decide (t.type = TrackType.subtitle)))] := by
    unfold track_list_calls
    rw [h]
    simp only []
    rw [classify_tracks_spec org_list hok]
    simp
  refine ⟨?_, fun node hn => (parse_track_list_ok node (hok node hn)).1, ?_,
    List.filter_sublist _, List.filter_sublist _, List.filter_sublist _, ?_⟩
  · unfold mpv_obj_load_gui_update load_gui_update_calls
    rw [hcalls]
    simp only []
    exact ⟨_,
      (match engine.media_title with
        | some title => [Call.gtk_window_set_title title]
        | none => []) ++ [Call.mpv_set_property_pause app.state.paused],
      (match engine.playlist_pos with
        | some pos => [Call.playlist_set_indicator_pos (to_gint pos)]
        | none => []) ++
      (match engine.chapters with
        | some count => [Call.control_box_set_chapter_enabled (decide (1 < count))]
        | none => []) ++
      (match engine.volume with
        | some volume => [Call.control_box_set_volume (F64.div volume (F64.of_int 100))]
        | none => []) ++
      (match engine.length with
        | some length => [Call.control_box_set_seek_bar_length (F64.to_gint length).1]
        | none => []) ++
      [Call.control_box_set_playing_state (!app.state.paused)],
      rfl, by simp only [List.append_assoc]⟩
  · intro t ht
    have := hkinds t ht
    cases hty : t.type with
    | invalid => exact absurd hty this
    | audio => exact Or.inl rfl
    | video => exact Or.inr (Or.inl rfl)
    | subtitle => exact Or.inr (Or.inr rfl)
  · have := filter_kinds_length (org_list.map engine_track) hkinds
    rw [List.length_map] at this
    exact this

/-- C19, at a track list of a video track, an audio track, a subtitle track
and a second audio track: the lists handed over hold the two audio tracks in
their order, the video track and the subtitle track. -/
theorem track_lists_by_kind_witness :
    (∃ app1 pre post, mpv_obj_load_gui_update app_start
        { engine_quiet with track_list := some tracks_example } = some app1 ∧
      app1.out = app_start.out ++ pre ++
        [Call.action_set_state "audio_select" (-1),
          Call.action_set_state "sub_select" (-1),
          Call.main_window_update_track_list
            [{ type := TrackType.audio, title := none, lang := some "en", id := 1 },
              { type := TrackType.audio, title := some "Commentary", lang := none, id := 2 }]
            [{ type := TrackType.video, title := none, lang := none, id := 1 }]
            [{ type := TrackType.subtitle, title := some "Full", lang := some "de", id := 1 }]]
        ++ post) :=
  (track_lists_by_kind app_start { engine_quiet with track_list := some tracks_example }
    tracks_example rfl (by decide)).1

/-! ## The IDLE event -/

theorem load_rows_append (x : Helpers) :
    ∀ (rows : List Row) (app : App), app.playlist ≠ [] →
      (mpv_obj_load_rows x rows true app).out =
          app.out ++ (rows.map (load_row_calls x app.state.paused "append")).flatten ∧
        (mpv_obj_load_rows x rows true app).state = app.state ∧
        (mpv_obj_load_rows x rows true app).playlist = app.playlist := by
  intro rows
  induction rows with
  | nil => intro app _; simp [mpv_obj_load_rows]
  | cons r rest ih =>
    intro app hne
    have hfirst : ¬ (gtk_tree_model_get_iter_first app.playlist).isNone = true := by
      unfold gtk_tree_model_get_iter_first
      cases hp : app.playlist with
      | nil => exact absurd hp hne
      | cons a l => simp
    have hstep : mpv_obj_load_uri x app r.uri true false =
        { app with out := app.out ++ load_row_calls x app.state.paused "append" r } := by
      unfold mpv_obj_load_uri load_uri_calls load_row_calls
      simp [hfirst]
    simp only [mpv_obj_load_rows]
    rw [hstep]
    obtain ⟨h1, h2, h3⟩ := ih { app with out := app.out ++ load_row_calls x app.state.paused "append" r } hne
    refine ⟨?_, h2, h3⟩
    rw [h1]
    simp

theorem load_rows_head (x : Helpers) (app : App) :
    (mpv_obj_load_rows x app.playlist false app).out =
        app.out ++ load_playlist_calls x app.state.paused app.playlist ∧
      (mpv_obj_load_rows x app.playlist false app).state =
        { app.state with loaded := if app.playlist = [] then app.state.loaded else false } ∧
      (mpv_obj_load_rows x app.playlist false app).playlist = app.playlist := by
  cases hp : app.playlist with
  | nil => simp [mpv_obj_load_rows, load_playlist_calls, hp]
  | cons r rest =>
    have hstep : mpv_obj_load_uri x app r.uri false false =
        { app with
          state := { app.state with loaded := false }
          out := app.out ++ load_row_calls x app.state.paused "replace" r } := by
      unfold mpv_obj_load_uri load_uri_calls load_row_calls
      simp
    simp only [mpv_obj_load_rows]
    rw [hstep]
    obtain ⟨h1, h2, h3⟩ := load_rows_append x rest
      { app with
        state := { app.state with loaded := false }
        out := app.out ++ load_row_calls x app.state.paused "replace" r }
      (by simp [hp])
    refine ⟨?_, ?_, ?_⟩
    · rw [h1]; simp [load_playlist_calls]
    · rw [h2]; simp
    · rw [h3]; exact hp

/-- C20: the IDLE branch of `mpv_obj_handle_event` always returns, leaves
`init_load` false and leaves the rows of the playlist as they were. With
`init_load` set, the rows are loaded into the engine from the head, the first
with "replace" and each further one with "append", `paused` and `new_file`
unchanged. Otherwise, with `loaded` set, `paused` becomes true and `loaded`
false, the engine is asked to set pause to true and `playlist_reset` is
called, which sets the position indicator to row 0 and writes no row.
Otherwise `paused`, `loaded` and `new_file` are unchanged and no call is
made. -/
theorem idle_event (x : Helpers) (app : App) (engine : Engine) :
    (∃ app1, handle_one_event x app mpv_event.idle engine = some app1 ∧
      app1.state.init_load = false ∧
      app1.playlist = app.playlist ∧
      (app.state.init_load = true →
        app1.out = app.out ++ load_playlist_calls x app.state.paused app.playlist ∧
        app1.state.paused = app.state.paused ∧ app1.state.new_file = app.state.new_file) ∧
      (app.state.init_load = false → app.state.loaded = true →
        app1.state.paused = true ∧ app1.state.loaded = false ∧
        app1.state.new_file = app.state.new_file ∧
        app1.out = app.out ++ [Call.mpv_set_property_pause true, Call.playlist_reset]) ∧
      (app.state.init_load = false → app.state.loaded = false →
        app1.state.paused = app.state.paused ∧ app1.state.loaded = app.state.loaded ∧
        app1.state.new_file = app.state.new_file ∧ app1.out = app.out)) ∧
    (playlist_reset app.playlist).1 = app.playlist ∧
    (playlist_reset app.playlist).2 = [Call.playlist_set_indicator_pos 0] ∧
    (handle_one_event helpers_id app_two_rows mpv_event.idle engine_quiet).map
        (fun a => (a.state, a.out)) =
      some ({ paused := true, loaded := false, init_load := false, new_file := false },
        [Call.mpv_request_event_end_file false,
          Call.mpv_command_loadfile "a.mkv" "replace",
          Call.mpv_set_property_pause true,
          Call.mpv_request_event_end_file true,
          Call.mpv_request_event_end_file false,
          Call.mpv_command_loadfile "b.mkv" "append",
          Call.mpv_set_property_pause true,
          Call.mpv_request_event_end_file true]) := by
  refine ⟨?_, rfl, rfl, by rfl⟩
  have hev : handle_one_event x app mpv_event.idle engine =
      some { (if app.state.init_load = true then mpv_obj_load x app none false false
              else if app.state.loaded = true then
                ({ app with state := { app.state with paused := true, loaded := false } }.call
                  (Call.mpv_set_property_pause true)).call Call.playlist_reset
              else app) with
        state := { (if app.state.init_load = true then mpv_obj_load x app none false false
              else if app.state.loaded = true then
                ({ app with state := { app.state with paused := true, loaded := false } }.call
                  (Call.mpv_set_property_pause true)).call Call.playlist_reset
              else app).state with init_load := false } } := rfl
  rw [hev]
  by_cases hi : app.state.init_load = true
  · obtain ⟨h1, h2, h3⟩ := load_rows_head x app
    rw [if_pos hi]
    refine ⟨_, rfl, rfl, h3, ?_, ?_, ?_⟩
    · intro _
      refine ⟨h1, ?_, ?_⟩
      · show (mpv_obj_load_rows x app.playlist false app).state.paused = _
        rw [h2]
      · show (mpv_obj_load_rows x app.playlist false app).state.new_file = _
        rw [h2]
    · intro hc; rw [hc] at hi; cases hi
    · intro hc; rw [hc] at hi; cases hi
  · rw [if_neg hi]
    by_cases hl : app.state.loaded = true
    · rw [if_pos hl]
      refine ⟨_, rfl, rfl, rfl, fun hc => absurd hc hi, ?_, ?_⟩
      · intro _ _
        exact ⟨rfl, rfl, rfl, by simp [App.call]⟩
      · intro _ hc; rw [hc] at hl; cases hl
    · rw [if_neg hl]
      refine ⟨_, rfl, rfl, rfl, fun hc => absurd hc hi, ?_, ?_⟩
      · intro _ hc; exact absurd hc hl
      · intro _ _
        exact ⟨rfl, rfl, rfl, rfl⟩

/-! ## The END_FILE event -/

/-- C21: the END_FILE branch of `mpv_obj_handle_event` always returns; it
clears `init_load`, clears `new_file` when `loaded` is set and leaves it
otherwise, and leaves `loaded` and the rows of the playlist as they were. When
the end reason is the error reason, `paused` becomes true and two calls are
made: pause = true to the engine, then one "mpv-error" signal carrying the
message built from the engine's error string. For any other reason `paused`
is unchanged and no call is made. -/
theorem end_file_event (x : Helpers) (app : App) (reason error : Int) (engine : Engine) :
    ∃ app1, handle_one_event x app (mpv_event.end_file reason error) engine = some app1 ∧
      app1.state.init_load = false ∧
      app1.state.loaded = app.state.loaded ∧
      app1.state.new_file = (if app.state.loaded = true then false else app.state.new_file) ∧
      app1.playlist = app.playlist ∧
      (reason = MPV_END_FILE_REASON_ERROR →
        app1.state.paused = true ∧
        app1.out = app.out ++
          [Call.mpv_set_property_pause true,
            Call.signal_emit "mpv-error" (SignalArg.str
              ("Playback was terminated abnormally. Reason: " ++ x.mpv_error_string error ++
                "."))]) ∧
      (reason ≠ MPV_END_FILE_REASON_ERROR →
        app1.state.paused = app.state.paused ∧ app1.out = app.out) := by
  have hev : handle_one_event x app (mpv_event.end_file reason error) engine =
      if reason = MPV_END_FILE_REASON_ERROR then
        some { app with
          state :=
            { app.state with
              init_load := false
              new_file := if app.state.loaded = true then false else app.state.new_file
              paused := true }
          out := app.out ++
            [Call.mpv_set_property_pause true,
              Call.signal_emit "mpv-error" (SignalArg.str
                ("Playback was terminated abnormally. Reason: " ++ x.mpv_error_string error ++
                  "."))] }
      else
        some { app with
          state :=
            { app.state with
              init_load := false
              new_file := if app.state.loaded = true then false else app.state.new_file } } :=
    rfl
  rw [hev]
  by_cases hr : reason = MPV_END_FILE_REASON_ERROR
  · rw [if_pos hr]
    exact ⟨_, rfl, rfl, rfl, rfl, rfl, fun _ => ⟨rfl, rfl⟩, fun hc => absurd hr hc⟩
  · rw [if_neg hr]
    exact ⟨_, rfl, rfl, rfl, rfl, rfl, fun hc => absurd hc hr, fun _ => ⟨rfl, rfl⟩⟩

/-! ## The search of the level table -/

theorem search_level_index (lv : Int) (h : lv ∈ table_levels) :
    ∃ i name, i < 8 ∧ level_map.get? i = some (some name, lv) ∧
      search_level lv level_map = some (some name) := by
  simp only [table_levels, List.mem_cons, List.mem_singleton, List.not_mem_nil, or_false] at h
  rcases h with h | h | h | h | h | h | h | h <;> subst h
  · exact ⟨0, "no", by decide, rfl, rfl⟩
  · exact ⟨1, "fatal", by decide, rfl, rfl⟩
  · exact ⟨2, "error", by decide, rfl, rfl⟩
  · exact ⟨3, "warn", by decide, rfl, rfl⟩
  · exact ⟨4, "info", by decide, rfl, rfl⟩
  · exact ⟨5, "v", by decide, rfl, rfl⟩
  · exact ⟨6, "debug", by decide, rfl, rfl⟩
  · exact ⟨7, "trace", by decide, rfl, rfl⟩

/-- C26: with `DEFAULT_LOG_LEVEL` one of the eight levels of the table,
whenever the token loop of `handle_msg_level_opt` completes, the level it
leaves in `min_level` is one of the eight levels, and the closing search of
`level_map` stops at an entry of index 0 to 7, which has a name: the search
neither reaches the entry without a name nor leaves the table, and the name
handed to `mpv_request_log_messages` is not `NULL`. The loop completes when no
token between commas is empty. -/
theorem msg_level_search_in_table (d : Int) (app : App) (optbuf : Option (List Char))
    (hd : d ∈ table_levels) :
    (∀ st, msg_level_tokens (option_tokens optbuf) ([], d) = some st →
      st.2 ∈ table_levels ∧
      ∃ i name, i < 8 ∧ level_map.get? i = some (some name, st.2) ∧
        search_level st.2 level_map = some (some name)) ∧
    (∀ app1, handle_msg_level_opt d app optbuf = some app1 →
      ∃ name, app1.out = app.out ++ [Call.mpv_request_log_messages (some name)]) ∧
    ((∀ t ∈ option_tokens optbuf, t ≠ []) →
      ∃ st app1, msg_level_tokens (option_tokens optbuf) ([], d) = some st ∧
        handle_msg_level_opt d app optbuf = some app1) := by
  refine ⟨?_, ?_, ?_⟩
  · intro st hst
    have hne := msg_level_tokens_some _ _ _ hst
    rw [msg_level_tokens_spec _ _ hne] at hst
    cases hst
    have hin : highest_level d ((option_tokens optbuf).filterMap token_rule) ∈ table_levels := by
      rw [← option_rules_eq]
      exact highest_level_in_table _ _ hd (option_rules_in_table optbuf)
    exact ⟨hin, search_level_index _ hin⟩
  · intro app1 h
    obtain ⟨_, name, _, happ⟩ := handle_msg_level_opt_some d app app1 optbuf h
    exact ⟨name, by rw [happ]; rfl⟩
  · intro hne
    obtain ⟨app1, h⟩ := handle_msg_level_opt_returns d app optbuf hne hd
    exact ⟨_, app1, msg_level_tokens_spec _ _ hne, h⟩

set_option maxRecDepth 100000 in
/-- C26, at the option "all=no,cplayer=trace,x=bogus" with the default level
error: the loop leaves the level trace, found at index 7 of the table. -/
theorem msg_level_search_in_table_witness :
    msg_level_tokens (option_tokens (some "all=no,cplayer=trace,x=bogus".toList)) ([], 20) =
      some ([{ pfx := "cplayer", level := 70 }], 70) ∧
    ∃ i name, i < 8 ∧ level_map.get? i = some (some name, 70) ∧
      search_level 70 level_map = some (some name) :=
  ⟨by decide,
    ((msg_level_search_in_table 20 app_start (some "all=no,cplayer=trace,x=bogus".toList)
      (by decide)).1 ([{ pfx := "cplayer", level := 70 }], 70) (by decide)).2⟩

/-! ## The playlist mirror -/

theorem overwrite_ops_mutation (k : Nat) (o n : Row) :
    ∀ op ∈ overwrite_ops k o n, op.is_mutation = true := by
  intro op h
  unfold overwrite_ops at h
  rcases List.mem_append.mp h with h1 | h1
  · split_ifs at h1
    · rw [List.mem_singleton.mp h1]; rfl
    · cases h1
  · split_ifs at h1
    · rw [List.mem_singleton.mp h1]; rfl
    · cases h1

theorem sync_ops_mutation :
    ∀ (old new : List Row) (k : Nat), ∀ op ∈ sync_ops k old new, op.is_mutation = true := by
  intro old
  induction old with
  | nil =>
    intro new k op h
    simp only [sync_ops, List.mem_map] at h
    obtain ⟨r, _, rfl⟩ := h
    rfl
  | cons o os ih =>
    intro new k op h
    cases new with
    | nil =>
      simp only [sync_ops, List.mem_map] at h
      obtain ⟨r, _, rfl⟩ := h
      rfl
    | cons n ns =>
      simp only [sync_ops] at h
      rcases List.mem_append.mp h with h1 | h1
      · exact overwrite_ops_mutation k o n op h1
      · exact ih ns (k + 1) op h1

theorem split_between (mid pre post : List UiOp) (op : UiOp)
    (hop : op.is_mutation = true)
    (h : UiOp.handlers_block :: mid ++ [UiOp.handlers_unblock] = pre ++ op :: post) :
    ∃ pre1 post1, pre = UiOp.handlers_block :: pre1 ∧ post = post1 ++ [UiOp.handlers_unblock] ∧
      mid = pre1 ++ op :: post1 := by
  cases pre with
  | nil =>
    simp only [List.nil_append, List.cons_append, List.cons.injEq] at h
    rw [← h.1] at hop
    cases hop
  | cons p pre1 =>
    simp only [List.cons_append, List.cons.injEq] at h
    obtain ⟨hp, h2⟩ := h
    rcases List.eq_nil_or_concat post with hpost | ⟨post1, x, hpost⟩
    · subst hpost
      have h3 : mid ++ [UiOp.handlers_unblock] = pre1 ++ [op] := h2
      have := List.append_inj' h3 rfl
      have hx : UiOp.handlers_unblock = op := by simpa using this.2
      rw [← hx] at hop
      cases hop
    · subst hpost
      have h3 : mid ++ [UiOp.handlers_unblock] = (pre1 ++ op :: post1) ++ [x] := by
        rw [h2]; simp
      have := List.append_inj' h3 rfl
      have hx : UiOp.handlers_unblock = x := by simpa using this.2
      exact ⟨pre1, post1, by rw [hp], by rw [hx]; simp, this.1⟩

/-- C23: whenever `mpv_obj_update_playlist` returns, the operations it has
performed are: the handlers blocked, then writes, appends and removals of
rows only, then the handlers unblocked. The handlers are blocked once and
unblocked once, and every operation on the rows comes after the block and
before the unblock. The pass returns exactly when every engine entry is
readable and the store has a row or the engine playlist is empty. -/
theorem update_playlist_handlers_blocked (g : String → String) (store : GtkListStore)
    (pl : List mpv_node_list) :
    (∀ r, mpv_obj_update_playlist g store pl = some r →
      (∃ mid, r.2 = UiOp.handlers_block :: mid ++ [UiOp.handlers_unblock] ∧
        ∀ op ∈ mid, op.is_mutation = true) ∧
      r.2.count UiOp.handlers_block = 1 ∧
      r.2.count UiOp.handlers_unblock = 1 ∧
      ∀ pre op post, r.2 = pre ++ op :: post → op.is_mutation = true →
        UiOp.handlers_block ∈ pre ∧ UiOp.handlers_unblock ∉ pre ∧
        UiOp.handlers_unblock ∈ post ∧ UiOp.handlers_block ∉ post) ∧
    ((∃ r, mpv_obj_update_playlist g store pl = some r) ↔
      (∃ rs, snapshot_rows g pl = some rs) ∧ (store ≠ [] ∨ pl = [])) := by
  refine ⟨?_, update_playlist_completes_iff g store pl⟩
  intro r hr
  obtain ⟨⟨rs, hrs⟩, hne⟩ := (update_playlist_completes_iff g store pl).mp ⟨r, hr⟩
  rw [update_playlist_spec g store pl rs hrs hne] at hr
  cases hr
  have hmid := sync_ops_mutation store rs 0
  have hnb : UiOp.handlers_block ∉ sync_ops 0 store rs := fun c => by
    have := hmid _ c
    cases this
  have hnu : UiOp.handlers_unblock ∉ sync_ops 0 store rs := fun c => by
    have := hmid _ c
    cases this
  refine ⟨⟨sync_ops 0 store rs, by simp, hmid⟩, ?_, ?_, ?_⟩
  · simp [List.count_eq_zero_of_not_mem hnb]
  · simp [List.count_eq_zero_of_not_mem hnu]
  · intro pre op post h hop
    obtain ⟨pre1, post1, hp, hq, hm⟩ := split_between (sync_ops 0 store rs) pre post op hop
      (by simpa using h)
    have hpre1 : ∀ o ∈ pre1, o ∈ sync_ops 0 store rs := fun o ho => by
      rw [hm]; exact List.mem_append_left _ ho
    have hpost1 : ∀ o ∈ post1, o ∈ sync_ops 0 store rs := fun o ho => by
      rw [hm]; exact List.mem_append_right _ (List.mem_cons_of_mem _ ho)
    subst hp
    subst hq
    refine ⟨List.mem_cons_self _ _, ?_, by simp, ?_⟩
    · intro c
      rcases List.mem_cons.mp c with c1 | c1
      · cases c1
      · exact hnu (hpre1 _ c1)
    · intro c
      rcases List.mem_append.mp c with c1 | c1
      · exact hnb (hpost1 _ c1)
      · simp at c1

theorem snapshot_rows_get (g : String → String) :
    ∀ (pl : List mpv_node_list) (rs : List Row), snapshot_rows g pl = some rs →
      rs.length = pl.length ∧
      ∀ (i : Nat) (entry : mpv_node_list), pl.get? i = some entry →
        entry_row g entry = rs.get? i := by
  intro pl
  induction pl with
  | nil =>
    intro rs h
    simp only [snapshot_rows, Option.some.injEq] at h
    subst h
    exact ⟨rfl, fun i entry hi => by simp at hi⟩
  | cons e rest ih =>
    intro rs h
    simp only [snapshot_rows] at h
    cases he : entry_row g e with
    | none => rw [he] at h; cases h
    | some r =>
      rw [he] at h
      cases hr : snapshot_rows g rest with
      | none => rw [hr] at h; cases h
      | some rs1 =>
        rw [hr] at h
        cases h
        obtain ⟨h1, h2⟩ := ih rs1 hr
        refine ⟨by simp [h1], ?_⟩
        intro i entry hi
        cases i with
        | zero =>
          simp only [List.get?_cons_zero, Option.some.injEq] at hi
          subst hi
          simpa using he
        | succ j =>
          simp only [List.get?_cons_succ] at hi ⊢
          exact h2 j entry hi

/-- C24 (evaluation at the failing input): with one row in the store and an
engine playlist of one entry that has the two values filename "a.mkv" and
title "Movie", the pass leaves a row named after the path, "a.mkv", where the
entry's display name is "Movie": the title is read as the fourth value of an
entry, and only when the entry has at least four values. For a store with at
least one row and readable entries the pass does leave one row per entry,
index for index, each with the uri and the name the loop derives from the
entry; these are the entry's own when the entry is laid out as filename,
two more values, title, or when it has fewer than four values and no
title. -/
theorem update_playlist_title_by_position (g : String → String) :
    (mpv_obj_update_playlist id [{ name := "old", uri := "old" }] [entry_titled]).map
        (fun r => r.1) = some [{ name := "a.mkv", uri := "a.mkv" }] ∧
    claimed_row id entry_titled = some { name := "Movie", uri := "a.mkv" } ∧
    (∀ (store : GtkListStore) (pl : List mpv_node_list) (rs : List Row),
      store ≠ [] → snapshot_rows g pl = some rs →
      (mpv_obj_update_playlist g store pl).map (fun r => r.1) = some rs ∧
      rs.length = pl.length ∧
      ∀ (i : Nat) (entry : mpv_node_list), pl.get? i = some entry →
        entry_row g entry = rs.get? i) ∧
    (∀ (uri title : String) (kv1 kv2 : String × mpv_node) (more : mpv_node_list),
      kv1.1 ≠ "title" → kv2.1 ≠ "title" →
      entry_row g (("filename", mpv_node.string uri) :: kv1 :: kv2 ::
          ("title", mpv_node.string title) :: more) =
        claimed_row g (("filename", mpv_node.string uri) :: kv1 :: kv2 ::
          ("title", mpv_node.string title) :: more)) ∧
    (∀ (uri : String) (rest : mpv_node_list),
      rest.length < 3 → node_get "title" rest = none →
      entry_row g (("filename", mpv_node.string uri) :: rest) =
        claimed_row g (("filename", mpv_node.string uri) :: rest)) := by
  refine ⟨by decide, by decide, ?_, ?_, ?_⟩
  · intro store pl rs hne hrs
    rw [update_playlist_spec g store pl rs hrs (Or.inl hne)]
    exact ⟨rfl, snapshot_rows_get g pl rs hrs⟩
  · intro uri title kv1 kv2 more h1 h2
    simp [entry_row, claimed_row, entry_title, node_get, mpv_node.u_string, h1, h2]
  · intro uri rest hlen hnone
    have h4 : ¬ 4 ≤ (("filename", mpv_node.string uri) :: rest).length := by
      simp only [List.length_cons]; omega
    simp [entry_row, claimed_row, entry_title, node_get, mpv_node.u_string, h4, hnone]
    omega

/-! ## The playlist handlers -/

theorem playlist_move_drag :
    ∀ (l : List Row) (o d : Nat), o < l.length → d ≤ l.length →
      playlist_move l o d = (drag_insert l o d).eraseIdx (index_after_insert o d) := by
  intro l
  induction l with
  | nil => intro o d ho _; simp at ho
  | cons a rest ih =>
    intro o d ho hd
    cases o with
    | zero =>
      cases d with
      | zero => simp [playlist_move, drag_insert, index_after_insert]
      | succ d1 => simp [playlist_move, drag_insert, index_after_insert]
    | succ o1 =>
      have ho1 : o1 < rest.length := by simpa using ho
      obtain ⟨x, hx0⟩ : ∃ x, rest.get? o1 = some x := ⟨rest.get ⟨o1, ho1⟩, List.get?_eq_get ho1⟩
      have hx : rest[o1]? = some x := by simpa using hx0
      cases d with
      | zero =>
        simp [playlist_move, drag_insert, index_after_insert, hx]
      | succ d1 =>
        have hd1 : d1 ≤ rest.length := by simpa using hd
        have h := ih o1 d1 ho1 hd1
        simp only [playlist_move, drag_insert, index_after_insert, hx0] at h
        by_cases hlt : o1 < d1
        · have hk : d1 + 1 - 1 = (d1 - 1) + 1 := by omega
          simp only [hlt, if_true] at h
          simp [playlist_move, drag_insert, index_after_insert, hx, hlt, hk, h]
        · simp only [hlt, if_false] at h
          simp [playlist_move, drag_insert, index_after_insert, hx, hlt, h]

theorem drag_insert_get (l : List Row) (s d : Nat) (x : Row)
    (hd : d ≤ l.length) (hsd : s ≠ d)
    (hx : l.get? (if s > d then s - 1 else s) = some x) :
    (l.take d ++ x :: l.drop d).get? s = some x ∧ (l.take d ++ x :: l.drop d).get? d = some x := by
  have hlen : (l.take d).length = d := by simp [hd]
  constructor
  · by_cases h : s > d
    · rw [if_pos h] at hx
      have h1 : (l.take d).length ≤ s := by omega
      rw [List.get?_eq_getElem?, List.getElem?_append_right h1, hlen]
      obtain ⟨k, hk⟩ : ∃ k, s - d = k + 1 := ⟨s - d - 1, by omega⟩
      rw [hk, List.getElem?_cons_succ, List.getElem?_drop]
      rw [List.get?_eq_getElem?] at hx
      rw [← hx]
      congr 1
      omega
    · rw [if_neg h] at hx
      have h1 : s < (l.take d).length := by omega
      rw [List.get?_eq_getElem?, List.getElem?_append_left h1, List.getElem?_take_of_lt (by omega)]
      rw [List.get?_eq_getElem?] at hx
      exact hx
  · have h1 : (l.take d).length ≤ d := by omega
    rw [List.get?_eq_getElem?, List.getElem?_append_right h1, hlen]
    simp

/-- C25: after `playlist_row_inserted_handler` has seen a row inserted at
index `d`, `playlist_row_deleted_handler` on the deletion of the row at index
`s` sends "playlist_move src d" with `src = s - 1` when `s > d` and `src = s`
otherwise, and resets the pending destination to -1. For a playlist in which
the row `src` was copied to index `d`, so that the old row is at index `s` and
the copy at index `d` until the old row is deleted, the engine's playlist_move
applied to the order before the drag gives the order the list has after the
deletion. With the destination at -1 a deletion sends nothing. -/
theorem playlist_reorder_move (ctx : gmpv_handle) (l : List Row) (s d : Nat)
    (hd : d ≤ l.length) (hs : s ≤ l.length) (hsd : s ≠ d) :
    playlist_row_deleted_handler (playlist_row_inserted_handler ctx (d : Int)) (s : Int) =
      { playlist_move_dest := -1
        out := ctx.out ++
          [Call.mpv_command_playlist_move ((if s > d then s - 1 else s : Nat) : Int)
            (d : Int)] } ∧
    (if s > d then s - 1 else s) < l.length ∧
    (drag_insert l (if s > d then s - 1 else s) d).get? s =
      l.get? (if s > d then s - 1 else s) ∧
    (drag_insert l (if s > d then s - 1 else s) d).get? d =
      l.get? (if s > d then s - 1 else s) ∧
    playlist_move l (if s > d then s - 1 else s) d =
      (drag_insert l (if s > d then s - 1 else s) d).eraseIdx s ∧
    (∀ ctx0 : gmpv_handle, ctx0.playlist_move_dest = -1 →
      playlist_row_deleted_handler ctx0 (s : Int) = ctx0) := by
  have hsrc : (if s > d then s - 1 else s) < l.length := by
    split_ifs with h <;> omega
  obtain ⟨x, hx⟩ : ∃ x, l.get? (if s > d then s - 1 else s) = some x :=
    ⟨l.get ⟨_, hsrc⟩, List.get?_eq_get hsrc⟩
  have hidx : index_after_insert (if s > d then s - 1 else s) d = s := by
    unfold index_after_insert
    by_cases h : s > d
    · rw [if_pos h, if_neg (by omega)]; omega
    · rw [if_neg h, if_pos (by omega)]
  have hins : drag_insert l (if s > d then s - 1 else s) d = l.take d ++ x :: l.drop d := by
    unfold drag_insert
    rw [hx]
  obtain ⟨hg1, hg2⟩ := drag_insert_get l s d x hd hsd hx
  refine ⟨?_, hsrc, ?_, ?_, ?_, ?_⟩
  · unfold playlist_row_deleted_handler playlist_row_inserted_handler
    simp only []
    rw [if_pos (Int.natCast_nonneg d)]
    congr 3
    by_cases h : s > d
    · have h1 : (s : Int) > (d : Int) := by exact_mod_cast h
      rw [if_pos h1, if_pos h]
      have hc : (s : Int) - 1 = ((s - 1 : Nat) : Int) := by omega
      rw [hc]
    · have h1 : ¬ (s : Int) > (d : Int) := by
        intro c
        exact h (by exact_mod_cast c)
      rw [if_neg h1, if_neg h]
  · rw [hins, hx]; exact hg1
  · rw [hins, hx]; exact hg2
  · have := playlist_move_drag l _ d hsrc hd
    rw [hidx] at this
    exact this
  · intro ctx0 h0
    unfold playlist_row_deleted_handler
    simp only []
    rw [h0, if_neg (by decide)]

/-- C25, on a playlist a, b, c, d: the row c (index 2) dragged to the head is
reported as inserted at 0 and deleted at 3, the command is playlist_move 2 0,
and both the engine and the list end with c, a, b, d; the row a (index 0)
dragged before d is reported as inserted at 3 and deleted at 0, the command is
playlist_move 0 3, and both end with b, c, a, d. -/
theorem playlist_reorder_move_witness :
    (playlist_row_deleted_handler (playlist_row_inserted_handler ctx_idle 0) 3).out =
      [Call.mpv_command_playlist_move 2 0] ∧
    playlist_move rows_abcd 2 0 =
      [{ name := "c", uri := "c" }, { name := "a", uri := "a" }, { name := "b", uri := "b" },
       { name := "d", uri := "d" }] ∧
    playlist_move rows_abcd 2 0 = (drag_insert rows_abcd 2 0).eraseIdx 3 ∧
    (playlist_row_deleted_handler (playlist_row_inserted_handler ctx_idle 3) 0).out =
      [Call.mpv_command_playlist_move 0 3] ∧
    playlist_move rows_abcd 0 3 =
      [{ name := "b", uri := "b" }, { name := "c", uri := "c" }, { name := "a", uri := "a" },
       { name := "d", uri := "d" }] ∧
    playlist_move rows_abcd 0 3 = (drag_insert rows_abcd 0 3).eraseIdx 0 :=
  ⟨by decide, by decide,
    (playlist_reorder_move ctx_idle rows_abcd 3 0 (by decide) (by decide) (by decide)).2.2.2.2.1,
    by decide, by decide,
    (playlist_reorder_move ctx_idle rows_abcd 0 3 (by decide) (by decide) (by decide)).2.2.2.2.1⟩

/-! ## The tokens of an option string -/

theorem sep_starts (s : List Char) :
    " --".toList.isPrefixOf s = true ↔ ∃ t, s = ' ' :: '-' :: '-' :: t := by
  rw [List.isPrefixOf_iff_prefix]
  constructor
  · rintro ⟨t, ht⟩
    exact ⟨t, ht.symm⟩
  · rintro ⟨t, ht⟩
    exact ⟨t, ht.symm⟩

theorem strstr_skip (c : Char) (cs : List Char)
    (h : ¬ ∃ t, c :: cs = ' ' :: '-' :: '-' :: t) :
    strstr (c :: cs) " --".toList = (strstr cs " --".toList).map (· + 1) := by
  have : ¬ " --".toList.isPrefixOf (c :: cs) = true := fun hc => h ((sep_starts _).mp hc)
  simp only [strstr, this, if_false]
  rfl

theorem strstr_hit (t : List Char) :
    strstr (' ' :: '-' :: '-' :: t) " --".toList = some 0 := by
  have : " --".toList.isPrefixOf (' ' :: '-' :: '-' :: t) = true := (sep_starts _).mpr ⟨t, rfl⟩
  simp only [strstr, this, if_true]

theorem strstr_blanks (gap : List Char) (hg : ∀ c ∈ gap, c = ' ' ∨ c = '\n') :
    strstr gap " --".toList = none := by
  induction gap with
  | nil => rfl
  | cons c rest ih =>
    rw [strstr_skip, ih (fun x hx => hg x (List.mem_cons_of_mem _ hx))]
    · rfl
    · rintro ⟨t, ht⟩
      have h1 : rest = '-' :: '-' :: t := (List.cons.inj ht).2
      have := hg '-' (by rw [h1]; simp)
      rcases this with h | h <;> cases h

theorem strstr_blanks_next (g more : List Char) (hg : ∀ c ∈ g, c = ' ' ∨ c = '\n') :
    strstr (g ++ ' ' :: '-' :: '-' :: more) " --".toList = some g.length := by
  induction g with
  | nil => exact strstr_hit more
  | cons c rest ih =>
    rw [List.cons_append, strstr_skip, ih (fun x hx => hg x (List.mem_cons_of_mem _ hx))]
    · rfl
    · rintro ⟨t, ht⟩
      have h1 : rest ++ ' ' :: '-' :: '-' :: more = '-' :: '-' :: t := (List.cons.inj ht).2
      cases rest with
      | nil => simp at h1
      | cons r rest1 =>
        have hr : r = '-' := by
          have := (List.cons.inj h1).1
          exact this
        have := hg r (by simp)
        rw [hr] at this
        rcases this with h | h <;> cases h

theorem strstr_word (w tail : List Char) (hw : ∀ c ∈ w, c ≠ ' ') :
    strstr (w ++ tail) " --".toList = (strstr tail " --".toList).map (· + w.length) := by
  induction w with
  | nil => simp
  | cons c rest ih =>
    rw [List.cons_append, strstr_skip, ih (fun x hx => hw x (List.mem_cons_of_mem _ hx))]
    · cases strstr tail " --".toList with
      | none => rfl
      | some k => simp only [Option.map_some', List.length_cons]; congr 1
    · rintro ⟨t, ht⟩
      exact hw c (List.mem_cons_self _ _) (List.cons.inj ht).1

theorem apply_args_back_gap (Ai gap rest : List Char) (wl : Char) (ob : Nat)
    (hwl : wl ≠ ' ' ∧ wl ≠ '\n') (hg : ∀ c ∈ gap, c = ' ' ∨ c = '\n')
    (hob : ob ≤ Ai.length) :
    ∀ j, j ≤ gap.length →
      apply_args_back (Ai ++ wl :: (gap ++ rest)) ob (Ai.length + 1 + j) = Ai.length := by
  intro j
  induction j with
  | zero =>
    intro _
    have hget : (Ai ++ wl :: (gap ++ rest)).getD Ai.length '\x00' = wl := by
      rw [List.getD_eq_getElem?_getD, List.getElem?_append_right (le_refl _)]
      simp
    simp only [Nat.add_zero, apply_args_back, hget]
    rw [if_neg]
    rintro ⟨_, h | h⟩
    · exact hwl.1 h
    · exact hwl.2 h
  | succ j ih =>
    intro hj
    have hj1 : j < gap.length := by omega
    have hget : (Ai ++ wl :: (gap ++ rest)).getD (Ai.length + 1 + j) '\x00' = gap.get ⟨j, hj1⟩ := by
      rw [List.getD_eq_getElem?_getD, List.getElem?_append_right (by omega)]
      have h1 : Ai.length + 1 + j - Ai.length = j + 1 := by omega
      rw [h1, List.getElem?_cons_succ, List.getElem?_append_left hj1, List.getElem?_eq_getElem hj1]
      rfl
    have hblank := hg _ (List.get_mem gap j hj1)
    have hstep : Ai.length + 1 + (j + 1) = (Ai.length + 1 + j) + 1 := by omega
    rw [hstep]
    simp only [apply_args_back, hget]
    rw [if_pos ⟨by omega, hblank⟩]
    exact ih (by omega)

theorem strpbrk_none (w : List Char) (hw : ∀ c ∈ w, c ≠ '=' ∧ c ≠ ' ') :
    strpbrk w "= ".toList = none := by
  induction w with
  | nil => rfl
  | cons c rest ih =>
    have hc := hw c (List.mem_cons_self _ _)
    have hmem : ¬ c ∈ "= ".toList := by
      intro h
      have : c = '=' ∨ c = ' ' := by simpa using h
      rcases this with h1 | h1
      · exact hc.1 h1
      · exact hc.2 h1
    simp only [strpbrk, hmem, if_false,
      ih (fun x hx => hw x (List.mem_cons_of_mem _ hx)), Option.map_none']

theorem strpbrk_key (key tail : List Char) (hw : ∀ c ∈ key, c ≠ '=' ∧ c ≠ ' ') :
    strpbrk (key ++ '=' :: tail) "= ".toList = some key.length := by
  induction key with
  | nil =>
    have hmem : '=' ∈ "= ".toList := by decide
    simp only [List.nil_append, strpbrk, hmem, if_true, List.length_nil]
  | cons c rest ih =>
    have hc := hw c (List.mem_cons_self _ _)
    have hmem : ¬ c ∈ "= ".toList := by
      intro h
      have : c = '=' ∨ c = ' ' := by simpa using h
      rcases this with h1 | h1
      · exact hc.1 h1
      · exact hc.2 h1
    simp only [List.cons_append, strpbrk, hmem, if_false, List.length_cons]
    show Option.map (fun x => x + 1) (strpbrk (rest ++ '=' :: tail) "= ".toList) = _
    rw [ih (fun x hx => hw x (List.mem_cons_of_mem _ hx))]
    rfl

theorem token_size_arith (p n : Nat) (h : n + 2 < 2 ^ 64) :
    ((((((p + 1 + n : Nat) : Int) - (p : Int)) % 2 ^ 64) - 1) % 2 ^ 64).toNat = n := by
  have h1 : ((p + 1 + n : Nat) : Int) - (p : Int) = (n : Int) + 1 := by
    push_cast; ring
  have h64 : (2 : Int) ^ 64 = 18446744073709551616 := by norm_num
  have hn : (n : Int) + 2 < 18446744073709551616 := by
    have : (n + 2 : Nat) < 18446744073709551616 := by
      have e : (2 : Nat) ^ 64 = 18446744073709551616 := by norm_num
      omega
    exact_mod_cast this
  rw [h1, h64]
  omega

theorem option_ok_chars (o : ArgOption) (hok : o.ok = true) :
    (∀ c ∈ o.key, c ≠ ' ' ∧ c ≠ '\n' ∧ c ≠ '=') ∧
    (∀ v, o.value = some v → ∀ c ∈ v, c ≠ ' ' ∧ c ≠ '\n') ∧
    (∀ c ∈ o.gap, c = ' ' ∨ c = '\n') := by
  simp only [ArgOption.ok, Bool.and_eq_true, List.all_eq_true] at hok
  obtain ⟨⟨hk, hv⟩, hg⟩ := hok
  refine ⟨?_, ?_, ?_⟩
  · intro c hc
    have := hk c hc
    simp only [is_blank, Bool.and_eq_true, Bool.not_eq_true', Bool.or_eq_false_iff,
      decide_eq_false_iff_not, bne_iff_ne, ne_eq] at this
    exact ⟨this.1.1, this.1.2, this.2⟩
  · intro v hval c hc
    rw [hval] at hv
    simp only [List.all_eq_true] at hv
    have := hv c hc
    simp only [is_blank, Bool.not_eq_true', Bool.or_eq_false_iff,
      decide_eq_false_iff_not] at this
    exact this
  · intro c hc
    have := hg c hc
    simpa [is_blank] using this

theorem option_body_chars (o : ArgOption) (hok : o.ok = true) :
    ∀ c ∈ o.body, c ≠ ' ' ∧ c ≠ '\n' := by
  obtain ⟨hk, hv, _⟩ := option_ok_chars o hok
  intro c hc
  unfold ArgOption.body at hc
  rcases List.mem_append.mp hc with h | h
  · exact ⟨(hk c h).1, (hk c h).2.1⟩
  · cases hval : o.value with
    | none => rw [hval] at h; cases h
    | some v =>
      rw [hval] at h
      rcases List.mem_cons.mp h with h1 | h1
      · rw [h1]; decide
      · exact hv v hval c h1

theorem apply_args_round (pre : List Char) (o : ArgOption) (rest : List Char)
    (hok : o.ok = true)
    (hrest : rest = [] ∨ ∃ g more, o.gap = g ++ [' '] ∧ rest = '-' :: '-' :: more)
    (hlen : o.body.length + 2 < 2 ^ 64) :
    apply_args_end (pre ++ (o.text ++ rest)) pre.length = pre.length + 1 + o.body.length ∧
    apply_args_token (pre ++ (o.text ++ rest)) pre.length = o.pair ∧
    strstr ((pre ++ (o.text ++ rest)).drop (pre.length + 1 + o.body.length)) " --".toList =
      (if rest = [] then none else some o.gap.length) := by
  obtain ⟨hk, hv, hg⟩ := option_ok_chars o hok
  have hbody := option_body_chars o hok
  have hWch : ∀ c ∈ '-' :: '-' :: o.body, c ≠ ' ' ∧ c ≠ '\n' := by
    intro c hc
    rcases List.mem_cons.mp hc with h | h
    · rw [h]; decide
    · rcases List.mem_cons.mp h with h1 | h1
      · rw [h1]; decide
      · exact hbody c h1
  obtain ⟨Ai0, wl, hW⟩ : ∃ Ai0 wl, '-' :: '-' :: o.body = Ai0 ++ [wl] := by
    rcases List.eq_nil_or_concat ('-' :: '-' :: o.body) with h | ⟨a, b, h⟩
    · cases h
    · exact ⟨a, b, by rw [h, List.concat_eq_append]⟩
  have hAlen : Ai0.length = 1 + o.body.length := by
    have := congrArg List.length hW
    simp only [List.length_cons, List.length_append, List.length_nil] at this
    omega
  have hwl : wl ≠ ' ' ∧ wl ≠ '\n' := hWch wl (by rw [hW]; simp)
  have htext : o.text = Ai0 ++ wl :: o.gap := by
    have : o.text = ('-' :: '-' :: o.body) ++ o.gap := by simp [ArgOption.text]
    rw [this, hW]
    simp
  have hargs : pre ++ (o.text ++ rest) = (pre ++ Ai0) ++ wl :: (o.gap ++ rest) := by
    rw [htext]; simp
  have hPlen : (pre ++ Ai0).length = pre.length + 1 + o.body.length := by
    rw [List.length_append, hAlen]; omega
  have hdrop0 : (pre ++ (o.text ++ rest)).drop pre.length =
      ('-' :: '-' :: o.body) ++ (o.gap ++ rest) := by
    rw [List.drop_left]
    simp [ArgOption.text]
  have hsearch0 : strstr ((pre ++ (o.text ++ rest)).drop pre.length) " --".toList =
      (strstr (o.gap ++ rest) " --".toList).map (· + (o.body.length + 2)) := by
    rw [hdrop0, strstr_word _ _ (fun c hc => (hWch c hc).1)]
    rfl
  have hdrop1 : (pre ++ (o.text ++ rest)).drop (pre.length + 1 + o.body.length) =
      [wl] ++ (o.gap ++ rest) := by
    rw [hargs, ← hPlen, List.drop_left]
    rfl
  have hsearch1 : strstr ((pre ++ (o.text ++ rest)).drop (pre.length + 1 + o.body.length))
      " --".toList = (strstr (o.gap ++ rest) " --".toList).map (· + 1) := by
    rw [hdrop1, strstr_word _ _ (fun c hc => by rw [List.mem_singleton.mp hc]; exact hwl.1)]
    rfl
  have hgap : strstr (o.gap ++ rest) " --".toList =
      (if rest = [] then none else some (o.gap.length - 1)) ∧
      (rest ≠ [] → 1 ≤ o.gap.length) := by
    rcases hrest with h | ⟨g, more, hgp, hr⟩
    · subst h
      rw [List.append_nil, strstr_blanks o.gap hg]
      simp
    · have hg1 : ∀ c ∈ g, c = ' ' ∨ c = '\n' := fun c hc => hg c (by rw [hgp]; simp [hc])
      have hne : rest ≠ [] := by rw [hr]; simp
      rw [if_neg hne, hgp, hr]
      have : g ++ [' '] ++ '-' :: '-' :: more = g ++ ' ' :: '-' :: '-' :: more := by simp
      rw [this, strstr_blanks_next g more hg1]
      simp
  have hend : apply_args_end (pre ++ (o.text ++ rest)) pre.length =
      pre.length + 1 + o.body.length := by
    unfold apply_args_end
    rw [hsearch0, hgap.1]
    by_cases hr : rest = []
    · rw [if_pos hr]
      simp only [Option.map_none']
      have hl : (pre ++ (o.text ++ rest)).length = (pre ++ Ai0).length + 1 + o.gap.length := by
        rw [hargs, hr]; simp; omega
      rw [hl, hargs, apply_args_back_gap _ _ _ _ _ hwl hg (by rw [hPlen]; omega) _ (le_refl _),
        hPlen]
    · rw [if_neg hr]
      simp only [Option.map_some']
      have h1 := hgap.2 hr
      have hl : pre.length + (o.gap.length - 1 + (o.body.length + 2)) =
          (pre ++ Ai0).length + 1 + (o.gap.length - 1) := by
        rw [hPlen]; omega
      rw [hl, hargs, apply_args_back_gap _ _ _ _ _ hwl hg (by rw [hPlen]; omega) _ (by omega),
        hPlen]
  refine ⟨hend, ?_, ?_⟩
  · have hdrop2 : (pre ++ (o.text ++ rest)).drop (pre.length + 2) =
        o.body ++ (o.gap ++ rest) := by
      rw [← List.drop_drop, hdrop0]
      rfl
    have htok : g_strndup ((pre ++ (o.text ++ rest)).drop (pre.length + 2))
        ((((((pre.length + 1 + o.body.length : Nat) : Int) - (pre.length : Int)) % 2 ^ 64) - 1)
          % 2 ^ 64).toNat = o.body := by
      rw [token_size_arith _ _ hlen, hdrop2]
      simp [g_strndup]
    simp only [apply_args_token, hend, htok]
    have hkey : ∀ c ∈ o.key, c ≠ '=' ∧ c ≠ ' ' := fun c hc => ⟨(hk c hc).2.2, (hk c hc).1⟩
    cases hval : o.value with
    | none =>
      have hb : o.body = o.key := by simp [ArgOption.body, hval]
      rw [hb, strpbrk_none o.key hkey]
      simp [ArgOption.pair, hval]
    | some v =>
      have hb : o.body = o.key ++ '=' :: v := by simp [ArgOption.body, hval]
      rw [hb, strpbrk_key o.key v hkey]
      simp [ArgOption.pair, hval]
  · rw [hsearch1, hgap.1]
    by_cases hr : rest = []
    · rw [if_pos hr, if_pos hr]; rfl
    · rw [if_neg hr, if_neg hr]
      have h1 := hgap.2 hr
      simp only [Option.map_some', Option.some.injEq]
      omega

theorem strstr_cons_skip (pat : List Char) (c : Char) (cs : List Char)
    (h : ¬ pat.isPrefixOf (c :: cs) = true) :
    strstr (c :: cs) pat = (strstr cs pat).map (· + 1) := by
  simp only [strstr, h, if_false]
  rfl

theorem strstr_dashes_lead (lead more : List Char) (hl : ∀ c ∈ lead, c = ' ' ∨ c = '\n') :
    strstr (lead ++ '-' :: '-' :: more) "--".toList = some lead.length := by
  induction lead with
  | nil =>
    have : "--".toList.isPrefixOf ('-' :: '-' :: more) = true :=
      List.isPrefixOf_iff_prefix.mpr ⟨more, rfl⟩
    simp only [List.nil_append, strstr, this, if_true, List.length_nil]
  | cons c rest ih =>
    have hc := hl c (List.mem_cons_self _ _)
    have hnp : ¬ "--".toList.isPrefixOf (c :: (rest ++ '-' :: '-' :: more)) = true := by
      intro h
      obtain ⟨t, ht⟩ := List.isPrefixOf_iff_prefix.mp h
      have h1 : '-' = c := (List.cons.inj ht).1
      rw [← h1] at hc
      rcases hc with h2 | h2 <;> cases h2
    rw [List.cons_append, strstr_cons_skip _ _ _ hnp,
      ih (fun x hx => hl x (List.mem_cons_of_mem _ hx))]
    rfl

theorem strstr_dashes_blanks (lead : List Char) (hl : ∀ c ∈ lead, c = ' ' ∨ c = '\n') :
    strstr lead "--".toList = none := by
  induction lead with
  | nil => rfl
  | cons c rest ih =>
    have hc := hl c (List.mem_cons_self _ _)
    have hnp : ¬ "--".toList.isPrefixOf (c :: rest) = true := by
      intro h
      obtain ⟨t, ht⟩ := List.isPrefixOf_iff_prefix.mp h
      have h1 : '-' = c := (List.cons.inj ht).1
      rw [← h1] at hc
      rcases hc with h2 | h2 <;> cases h2
    rw [strstr_cons_skip _ _ _ hnp, ih (fun x hx => hl x (List.mem_cons_of_mem _ hx))]
    rfl

theorem options_text_length : ∀ opts : List ArgOption, opts.length ≤ (options_text opts).length := by
  intro opts
  induction opts with
  | nil => simp [options_text]
  | cons o rest ih =>
    simp only [options_text, ArgOption.text, List.length_cons, List.length_append]
    omega

theorem options_text_dashes (o : ArgOption) (rest : List ArgOption) :
    ∃ more, options_text (o :: rest) = '-' :: '-' :: more :=
  ⟨o.body ++ o.gap ++ options_text rest, by simp [options_text, ArgOption.text]⟩

theorem apply_args_options_layout :
    ∀ (opts : List ArgOption) (pre : List Char) (fuel : Nat),
      opts ≠ [] → options_ok opts = true → (pre ++ options_text opts).length < 2 ^ 64 →
      opts.length ≤ fuel →
      apply_args_options (pre ++ options_text opts) fuel pre.length =
        some (opts.map ArgOption.pair) := by
  intro opts
  induction opts with
  | nil => intro pre fuel h; exact absurd rfl h
  | cons o rest ih =>
    intro pre fuel _ hok hlen hfuel
    simp only [options_ok, Bool.and_eq_true, Bool.or_eq_true, beq_iff_eq] at hok
    obtain ⟨⟨ho, hlast⟩, hrok⟩ := hok
    cases fuel with
    | zero => simp at hfuel
    | succ f =>
      have hbl : o.body.length + 2 < 2 ^ 64 := by
        have : o.body.length + 2 ≤ (pre ++ options_text (o :: rest)).length := by
          simp only [options_text, ArgOption.text, List.length_cons, List.length_append]
          omega
        omega
      have hrest : options_text rest = [] ∨
          ∃ g more, o.gap = g ++ [' '] ∧ options_text rest = '-' :: '-' :: more := by
        cases rest with
        | nil => left; rfl
        | cons o2 r2 =>
          right
          rcases hlast with h | h
          · simp at h
          · obtain ⟨more, hm⟩ := options_text_dashes o2 r2
            rcases List.eq_nil_or_concat o.gap with hg | ⟨g, x, hg⟩
            · rw [hg] at h; simp at h
            · rw [hg, List.concat_eq_append] at h
              have hx : x = ' ' := by simpa using h
              exact ⟨g, more, by rw [hg, List.concat_eq_append, hx], hm⟩
      obtain ⟨hend, htok, hnext⟩ := apply_args_round pre o (options_text rest) ho hrest hbl
      have hargs : pre ++ options_text (o :: rest) = pre ++ (o.text ++ options_text rest) := rfl
      rw [hargs]
      simp only [apply_args_options, hend, htok, hnext]
      cases rest with
      | nil => simp [options_text]
      | cons o2 r2 =>
        obtain ⟨more, hm⟩ := options_text_dashes o2 r2
        have hne : options_text (o2 :: r2) ≠ [] := by rw [hm]; simp
        rw [if_neg hne]
        simp only []
        have hpos : pre.length + 1 + o.body.length + o.gap.length + 1 = (pre ++ o.text).length := by
          simp only [ArgOption.text, List.length_cons, List.length_append]
          omega
        have hargs2 : pre ++ (o.text ++ options_text (o2 :: r2)) =
            (pre ++ o.text) ++ options_text (o2 :: r2) := by simp
        rw [hpos, hargs2, ih (pre ++ o.text) f (by simp) hrok
          (by rw [← hargs2]; exact hlen) (by simpa using hfuel)]
        simp

/-- C22 (counterexample): in "--a" and "--b" separated by a newline the
options --a and --b are two, and `mpv_obj_apply_args` makes one call, with the
name "a", the newline and "--b" in one piece; separated by a tab the same
happens; separated by a space and a newline, the one call has the name "a" and
the argument made of the newline and "--b". -/
theorem apply_args_newline_counterexample :
    (mpv_obj_apply_args sink_rejects_b (some "--a\n--b".toList)).map (fun r => r.1) =
      some [Call.mpv_set_option_string "a\n--b" ""] ∧
    (mpv_obj_apply_args sink_rejects_b (some "--a\t--b".toList)).map (fun r => r.1) =
      some [Call.mpv_set_option_string "a\t--b" ""] ∧
    (mpv_obj_apply_args sink_rejects_b (some "--a \n--b".toList)).map (fun r => r.1) =
      some [Call.mpv_set_option_string "a" "\n--b"] := by
  refine ⟨by decide, by decide, by decide⟩

/-- C22 (amended): for an option string made of options "--key" or
"--key=value", the key free of spaces, newlines and '=', the value free of
spaces and newlines, each option but the last followed by spaces and newlines
of which the last is a space, the last followed by any spaces and newlines,
and the whole preceded by any spaces and newlines, `mpv_obj_apply_args` hands
the engine one pair per option, in order: the key without its "--", and the
text after the first '=' as the value, or the empty string when the option has
no '='. The string is shorter than `2 ^ 64` characters. -/
theorem apply_args_pairs (sink : List Call → String → String → Int) (lead : List Char)
    (opts : List ArgOption) (hlead : lead.all is_blank = true)
    (hok : options_ok opts = true) (hlen : (lead ++ options_text opts).length < 2 ^ 64) :
    (mpv_obj_apply_args sink (some (lead ++ options_text opts))).map (fun r => r.1) =
      some (opts.map (fun o => Call.mpv_set_option_string o.pair.1 o.pair.2)) := by
  have hl : ∀ c ∈ lead, c = ' ' ∨ c = '\n' := by
    intro c hc
    have := List.all_eq_true.mp hlead c hc
    simpa [is_blank] using this
  cases opts with
  | nil =>
    simp only [options_text, List.append_nil, mpv_obj_apply_args, strstr_dashes_blanks lead hl]
    rfl
  | cons o rest =>
    obtain ⟨more, hm⟩ := options_text_dashes o rest
    have hs : strstr (lead ++ options_text (o :: rest)) "--".toList = some lead.length := by
      rw [hm]; exact strstr_dashes_lead lead more hl
    have hfuel : (o :: rest).length ≤ (lead ++ options_text (o :: rest)).length + 1 := by
      have := options_text_length (o :: rest)
      rw [List.length_append]
      omega
    simp only [mpv_obj_apply_args, hs]
    rw [apply_args_loop_eq, apply_args_options_layout (o :: rest) lead _ (by simp) hok hlen hfuel]
    simp [Function.comp_def]

set_option maxRecDepth 100000 in
/-- C22 (amended), at " --a=1 --b", a space, a newline, a space, "--c=2" and a
newline: the pairs are (a, 1), (b, empty) and (c, 2). -/
theorem apply_args_pairs_witness :
    [' '] ++ options_text options_abc = " --a=1 --b \n --c=2\n".toList ∧
    (mpv_obj_apply_args sink_rejects_b (some ([' '] ++ options_text options_abc))).map
        (fun r => r.1) =
      some [Call.mpv_set_option_string "a" "1", Call.mpv_set_option_string "b" "",
        Call.mpv_set_option_string "c" "2"] :=
  ⟨by decide,
    apply_args_pairs sink_rejects_b [' '] options_abc (by decide) (by decide) (by decide)⟩

/-! ## Every option of an option string is tried -/

theorem rejected_count_range (sink : List Call → String → String → Int) :
    ∀ (opts : List (String × String)) (calls : List Call),
      0 ≤ rejected_count sink calls opts ∧
        rejected_count sink calls opts ≤ (opts.length : Int) := by
  intro opts
  induction opts with
  | nil => intro calls; simp [rejected_count]
  | cons o rest ih =>
    intro calls
    obtain ⟨h1, h2⟩ := ih (calls ++ [Call.mpv_set_option_string o.1 o.2])
    simp only [rejected_count, List.length_cons]
    push_cast
    split_ifs <;> constructor <;> omega

set_option maxRecDepth 100000 in
/-- C18 (counterexample): on "--a" and "--b" separated by a newline, with an
engine that rejects b, `mpv_obj_apply_args` makes one call, for the name made
of "a", the newline and "--b", and returns 0: the option b is not tried, and
the failure count is 0 although the engine rejects b. -/
theorem apply_args_unsplit_counterexample :
    mpv_obj_apply_args sink_rejects_b (some "--a\n--b".toList) =
      some ([Call.mpv_set_option_string "a\n--b" ""], 0) ∧
    sink_rejects_b [] "b" "" < 0 ∧
    ¬(mpv_obj_apply_args sink_rejects_b (some "--a\n--b".toList) =
      some ([Call.mpv_set_option_string "a" "", Call.mpv_set_option_string "b" ""], -1)) := by
  refine ⟨by decide, by decide, by decide⟩

/-- C18 (amended): for an option string shorter than `2 ^ 31` characters made
of options "--key" or "--key=value", the key free of spaces, newlines and '=',
the value free of spaces and newlines, each option but the last followed by
spaces and newlines of which the last is a space, and for every engine,
whatever its answers and whatever they depend on, `mpv_obj_apply_args` tries
every option of the string, in order, and returns minus the number of options
the engine rejected. That number is between 0 and the number of options, so it
fits the `gint` that counts it; for an engine whose answer depends on the
option alone it is the number of options of the string that the engine
rejects. -/
theorem apply_args_attempts_each_option (sink : List Call → String → String → Int)
    (lead : List Char) (opts : List ArgOption) (hlead : lead.all is_blank = true)
    (hok : options_ok opts = true) (hlen : (lead ++ options_text opts).length < 2 ^ 31) :
    mpv_obj_apply_args sink (some (lead ++ options_text opts)) =
      some (opts.map (fun o => Call.mpv_set_option_string o.pair.1 o.pair.2),
        -(rejected_count sink [] (opts.map ArgOption.pair))) ∧
    0 ≤ rejected_count sink [] (opts.map ArgOption.pair) ∧
    rejected_count sink [] (opts.map ArgOption.pair) ≤ (opts.length : Int) ∧
    to_gint (rejected_count sink [] (opts.map ArgOption.pair)) =
      rejected_count sink [] (opts.map ArgOption.pair) ∧
    (∀ f : String → String → Int, (∀ calls name data, sink calls name data = f name data) →
      rejected_count sink [] (opts.map ArgOption.pair) =
        ((opts.filter (fun o => decide (f o.pair.1 o.pair.2 < 0))).length : Int)) := by
  have hl : ∀ c ∈ lead, c = ' ' ∨ c = '\n' := by
    intro c hc
    have := List.all_eq_true.mp hlead c hc
    simpa [is_blank] using this
  have hlen64 : (lead ++ options_text opts).length < 2 ^ 64 :=
    lt_trans hlen (by norm_num)
  obtain ⟨hr0, hr1⟩ := rejected_count_range sink (opts.map ArgOption.pair) []
  rw [List.length_map] at hr1
  have hopts : opts.length < 2 ^ 31 := by
    have := options_text_length opts
    rw [List.length_append] at hlen
    omega
  refine ⟨?_, hr0, hr1, ?_, ?_⟩
  · cases opts with
    | nil =>
      simp only [options_text, List.append_nil, mpv_obj_apply_args,
        strstr_dashes_blanks lead hl]
      rfl
    | cons o rest =>
      obtain ⟨more, hm⟩ := options_text_dashes o rest
      have hs : strstr (lead ++ options_text (o :: rest)) "--".toList = some lead.length := by
        rw [hm]; exact strstr_dashes_lead lead more hl
      have hfuel : (o :: rest).length ≤ (lead ++ options_text (o :: rest)).length + 1 := by
        have := options_text_length (o :: rest)
        rw [List.length_append]
        omega
      simp only [mpv_obj_apply_args, hs]
      rw [apply_args_loop_eq,
        apply_args_options_layout (o :: rest) lead _ (by simp) hok hlen64 hfuel]
      simp [Function.comp_def]
  · obtain ⟨n, hn⟩ := Int.eq_ofNat_of_zero_le hr0
    rw [hn] at hr1 ⊢
    have hn31 : n < 2 ^ 31 := by
      have : (n : Int) < 2 ^ 31 := lt_of_le_of_lt hr1 (by exact_mod_cast hopts)
      exact_mod_cast this
    exact to_gint_small n hn31
  · intro f hf
    have hsink : sink = fun _ name data => f name data := by
      funext calls name data
      exact hf calls name data
    rw [hsink, rejected_count_stateless f]
    simp [List.filter_map, Function.comp_def]

set_option maxRecDepth 100000 in
/-- C18 (amended), at "--a=1 --b --c=2" with an engine that rejects b: the
options a, b and c are tried in this order and the value returned is -1. -/
theorem apply_args_attempts_each_option_witness :
    [] ++ options_text options_a_b_c = "--a=1 --b --c=2".toList ∧
    mpv_obj_apply_args sink_rejects_b (some ([] ++ options_text options_a_b_c)) =
      some (options_a_b_c.map (fun o => Call.mpv_set_option_string o.pair.1 o.pair.2),
        -(rejected_count sink_rejects_b [] (options_a_b_c.map ArgOption.pair))) ∧
    options_a_b_c.map (fun o => Call.mpv_set_option_string o.pair.1 o.pair.2) =
      [Call.mpv_set_option_string "a" "1", Call.mpv_set_option_string "b" "",
        Call.mpv_set_option_string "c" "2"] ∧
    rejected_count sink_rejects_b [] (options_a_b_c.map ArgOption.pair) = 1 :=
  ⟨by decide,
    (apply_args_attempts_each_option sink_rejects_b [] options_a_b_c (by decide) (by decide)
      (by decide)).1,
    by decide, by decide⟩

end GnomeMpv
